import Mathlib

/-!
Verification of the Dolphin JIT block cache (`Source/Core/Core/PowerPC/JitCommon/JitCache.cpp`).

The development shallowly embeds `JitBaseBlockCache` as a pure state machine:

* `JitBlock` models the C++ `JitBlock` struct.  The patchable branch site of an exit
  (`exitPtrs`, rewritten by the virtual `WriteLinkBlock`) is modelled by the field
  `patchedTo : Option Nat`, holding the id of the destination block the branch currently
  jumps to, or `none` for the dispatcher trampoline.
* `CacheState` holds the five index structures: `block_map` (the owning multimap keyed by
  physical address, modelled as an insertion-ordered association list of block ids),
  `fast_block_map`, `links_to`, `block_range_map` and `valid_block`, together with the
  two external hot-path address sets `fifoWriteAddresses` / `pairedQuantizeAddresses`
  that live in `m_jit.js` and are cleared by the invalidation path.
* The guest address translator `PowerPC::JitCache_TranslateAddress` is an explicit
  function parameter `tr : Nat → TranslateResult`.

Machine integers (`u32`) are modelled as `Nat` with explicit `% 2 ^ 32` exactly where the
source relies on 32-bit wrap-around (the range-splitting loop of `InvalidateICache`).
-/

/-- Modelled from the spec: the result record of `TranslateAddress(effectiveAddress) →
\{valid, physicalAddress, translated, fromLargeMapping\}` (`PowerPC::JitCache_TranslateAddress`,
declared in MMU.h which is outside the sources). `from_bat` is the "large fixed mapping"
flag that selects the coarse invalidation granularity. -/
structure TranslateResult where
  valid : Bool
  translated : Bool
  from_bat : Bool
  address : Nat
deriving Repr, DecidableEq

/-- Modelled from the spec: the mask selecting "the subset of processor mode flags that
affect code generation/validity (e.g. address-translation-on/off)"; in the sources this is
`JIT_CACHE_MSR_MASK` from JitCache.h (not included), covering the MSR address-translation
bits DR and IR.  No theorem below depends on its particular value. -/
def JIT_CACHE_MSR_MASK : Nat := 0x30

/-- Modelled from the spec: the instruction-translation-enabled bit of the MSR tested by
`UReg_MSR(msr).IR` (the bitfield type lives outside the sources). -/
def MSR_IR_BIT : Nat := 0x20

/-- Modelled from the spec: the power-of-two size of the fixed direct-mapped
`fast_block_map` array (`FAST_BLOCK_MAP_ELEMENTS` in JitCache.h, not included). -/
def FAST_BLOCK_MAP_ELEMENTS : Nat := 0x10000

/-- Companion mask `FAST_BLOCK_MAP_MASK = FAST_BLOCK_MAP_ELEMENTS - 1`. -/
def FAST_BLOCK_MAP_MASK : Nat := FAST_BLOCK_MAP_ELEMENTS - 1

/-- Modelled from the spec: the power-of-two width of one macro-range of the
`block_range_map` (`BLOCK_RANGE_MAP_ELEMENTS` in JitCache.h, not included). -/
def BLOCK_RANGE_MAP_ELEMENTS : Nat := 0x100

/-- Modelled from the spec: `PowerPC::BAT_INDEX_SHIFT`, the log2 granularity of a large
fixed (BAT) mapping; declared in MMU.h outside the sources. -/
def BAT_INDEX_SHIFT : Nat := 17

/-- Modelled from the spec: `PowerPC::HW_PAGE_INDEX_SHIFT`, the log2 granularity of a
page-table mapping; declared in MMU.h outside the sources. -/
def HW_PAGE_INDEX_SHIFT : Nat := 12

/-- One element of `JitBlock::linkData`: a block exit.  `exitAddress` is the guest target,
`linkStatus` the "currently linked" flag, and `patchedTo` models the current contents of
the patchable branch site at `exitPtrs` (`some destinationId` after a direct link,
`none` for the dispatcher trampoline). -/
structure JitBlockLinkData where
  exitAddress : Nat
  linkStatus : Bool
  patchedTo : Option Nat
deriving Repr, DecidableEq

/-- The `JitBlock` struct of JitCache.h, as populated by this translation unit. -/
structure JitBlock where
  effectiveAddress : Nat
  physicalAddress : Nat
  msrBits : Nat
  physical_addresses : List Nat
  checkedEntry : Nat
  normalEntry : Nat
  codeSize : Nat
  linkData : List JitBlockLinkData
  fast_block_map_index : Nat
deriving Repr, DecidableEq

/-- `JitBlock::OverlapsPhysicalRange`: the source tests
`physical_addresses.lower_bound(address) != physical_addresses.lower_bound(address + length)`,
i.e. whether the footprint set contains an element in `[address, address + length)`. -/
def JitBlock.OverlapsPhysicalRange (b : JitBlock) (address length : Nat) : Bool :=
  b.physical_addresses.any fun p => address ≤ p && p < address + length

/-- The mutable state of a `JitBaseBlockCache` (plus the two `m_jit.js` address sets the
invalidation path clears).  Blocks are owned by `block_map` and identified by ids that the
non-owning indices store in place of C++ pointers; `next_id` supplies fresh ids.
`block_map` is the `std::multimap<u32, JitBlock>`: an insertion-ordered association list
whose key is the stored block's `physicalAddress` (C++ `emplace` inserts at the upper
bound of the equal range, so within one physical key the list order is insertion order).
The three bucketed indices are total functions with empty default buckets; dropping an
empty bucket in the source is therefore a no-op here. -/
structure CacheState where
  block_map : List (Nat × JitBlock)
  next_id : Nat
  fast_block_map : Nat → Option Nat
  links_to : Nat → List Nat
  block_range_map : Nat → List Nat
  valid_block : Nat → Bool
  fifoWriteAddresses : Nat → Bool
  pairedQuantizeAddresses : Nat → Bool

/-- The state produced by `Init` / `Clear` on a fresh cache: everything empty. -/
def initState : CacheState where
  block_map := []
  next_id := 0
  fast_block_map := fun _ => none
  links_to := fun _ => []
  block_range_map := fun _ => []
  valid_block := fun _ => false
  fifoWriteAddresses := fun _ => false
  pairedQuantizeAddresses := fun _ => false

/-- First entry of an association list with the given id. -/
def assocLookup : List (Nat × JitBlock) → Nat → Option JitBlock
  | [], _ => none
  | e :: rest, bid => if e.1 = bid then some e.2 else assocLookup rest bid

/-- Dereference a block id (a C++ `JitBlock*`) in the owning store. -/
def blockLookup (st : CacheState) (bid : Nat) : Option JitBlock :=
  assocLookup st.block_map bid

/-- Mutate the block a given id points at (a write through a C++ `JitBlock*` or
`JitBlock&`). -/
def updateBlock (st : CacheState) (bid : Nat) (f : JitBlock → JitBlock) : CacheState :=
  { st with block_map := st.block_map.map fun e => if e.1 = bid then (e.1, f e.2) else e }

/-- Insertion into a `std::set` bucket of ids (`insert` is a no-op on a present element). -/
def setInsert (l : List Nat) (x : Nat) : List Nat :=
  if x ∈ l then l else l ++ [x]

/-- Erasure from a `std::set` bucket of ids. -/
def setErase (l : List Nat) (x : Nat) : List Nat :=
  l.filter fun y => y ≠ x

/-- `JitBaseBlockCache::FastLookupIndexForAddress`: `(address >> 2) & FAST_BLOCK_MAP_MASK`. -/
def FastLookupIndexForAddress (address : Nat) : Nat :=
  (address >>> 2) &&& FAST_BLOCK_MAP_MASK

/-- The macro-range key `addr & range_mask` with `range_mask = ~(BLOCK_RANGE_MAP_ELEMENTS - 1)`:
for a 32-bit address this aligns `addr` down to a multiple of `BLOCK_RANGE_MAP_ELEMENTS`. -/
def rangeAlign (addr : Nat) : Nat :=
  addr / BLOCK_RANGE_MAP_ELEMENTS * BLOCK_RANGE_MAP_ELEMENTS

/-- `JitBaseBlockCache::AllocateBlock`.  Note that the source uses
`PowerPC::JitCache_TranslateAddress(em_address).address` without consulting the `valid`
flag, and unconditionally emplaces a new block.  `msr` is the live `MSR.Hex` value.
Returns the id of the new block (the returned `JitBlock*`). -/
def AllocateBlock (tr : Nat → TranslateResult) (msr em_address : Nat) (st : CacheState) :
    Nat × CacheState :=
  let physical_address := (tr em_address).address
  let b : JitBlock :=
    { effectiveAddress := em_address
      physicalAddress := physical_address
      msrBits := msr &&& JIT_CACHE_MSR_MASK
      physical_addresses := []
      checkedEntry := 0
      normalEntry := 0
      codeSize := 0
      linkData := []
      fast_block_map_index := 0 }
  (st.next_id,
   { st with block_map := st.block_map ++ [(st.next_id, b)], next_id := st.next_id + 1 })

/-- `JitBaseBlockCache::GetBlockFromStartAddress`: translate when `UReg_MSR(msr).IR` is
set (returning null on failure), then scan the multimap bucket of the translated address
for the entry whose `effectiveAddress` and `msrBits` match exactly. -/
def GetBlockFromStartAddress (tr : Nat → TranslateResult) (st : CacheState)
    (addr msr : Nat) : Option (Nat × JitBlock) :=
  if msr &&& MSR_IR_BIT ≠ 0 ∧ (tr addr).valid = false then
    none
  else
    let translated_addr := if msr &&& MSR_IR_BIT ≠ 0 then (tr addr).address else addr
    st.block_map.find? fun e =>
      e.2.physicalAddress == translated_addr && e.2.effectiveAddress == addr &&
        e.2.msrBits == (msr &&& JIT_CACHE_MSR_MASK)

/-- The virtual patcher `WriteLinkBlock(e, dest)`: rewrite the branch site of an exit to
jump to `dest` (or back to the dispatcher trampoline when `dest = none`).  Only the
branch-site contents change; the `linkStatus` flag is managed by the callers. -/
def WriteLinkBlock (e : JitBlockLinkData) (dest : Option Nat) : JitBlockLinkData :=
  { e with patchedTo := dest }

/-- `JitBaseBlockCache::LinkBlockExits`: for every still-unlinked exit, look the
destination up via `GetBlockFromStartAddress(e.exitAddress, block.msrBits)`; on success
patch the branch site and set the linked flag. -/
def LinkBlockExits (tr : Nat → TranslateResult) (st : CacheState) (bid : Nat) :
    CacheState :=
  match blockLookup st bid with
  | none => st
  | some b =>
    updateBlock st bid fun b0 =>
      { b0 with
        linkData := b0.linkData.map fun e =>
          if e.linkStatus = false then
            match GetBlockFromStartAddress tr st e.exitAddress b.msrBits with
            | some (did, _) => { WriteLinkBlock e (some did) with linkStatus := true }
            | none => e
          else e }

/-- `JitBaseBlockCache::LinkBlock`: link the block's own exits, then re-run the link step
on every block recorded in `links_to` under this block's effective address with matching
`msrBits`. -/
def LinkBlock (tr : Nat → TranslateResult) (st : CacheState) (bid : Nat) : CacheState :=
  match blockLookup (LinkBlockExits tr st bid) bid with
  | none => LinkBlockExits tr st bid
  | some b =>
    ((LinkBlockExits tr st bid).links_to b.effectiveAddress).foldl
      (fun s b2 =>
        match blockLookup s b2 with
        | some bb => if b.msrBits = bb.msrBits then LinkBlockExits tr s b2 else s
        | none => s)
      (LinkBlockExits tr st bid)

/-- `JitBaseBlockCache::UnlinkBlock`: patch every exit of `block` back to the dispatcher
(the source takes `block` by const reference and does not clear those exits' linked
flags), then for every source block recorded under `block.effectiveAddress` with matching
`msrBits`, patch each exit targeting `block.effectiveAddress` back to the dispatcher and
clear its linked flag. -/
def UnlinkBlock (st : CacheState) (bid : Nat) : CacheState :=
  match blockLookup st bid with
  | none => st
  | some b =>
    let st1 := updateBlock st bid fun b0 =>
      { b0 with linkData := b0.linkData.map fun e => WriteLinkBlock e none }
    (st1.links_to b.effectiveAddress).foldl
      (fun s sb =>
        match blockLookup s sb with
        | none => s
        | some sbb =>
          if sbb.msrBits ≠ b.msrBits then s
          else
            updateBlock s sb fun b0 =>
              { b0 with
                linkData := b0.linkData.map fun e =>
                  if e.exitAddress = b.effectiveAddress then
                    { WriteLinkBlock e none with linkStatus := false }
                  else e })
      st1

/-- The `links_to` cleanup loop of `DestroyBlock`: for every exit of the destroyed
block, erase the block from the bucket of that exit's target (empty buckets are dropped
in the source; a no-op for total-function buckets). -/
def eraseLinksLoop (bid : Nat) (ld : List JitBlockLinkData) (s : CacheState) : CacheState :=
  ld.foldl
    (fun s e =>
      { s with
        links_to := fun t =>
          if t = e.exitAddress then setErase (s.links_to t) bid else s.links_to t })
    s

/-- `JitBaseBlockCache::DestroyBlock`: clear the block's fast-map slot if it still holds
this exact block, unlink it, and remove it from the `links_to` buckets of its own exit
targets (empty buckets are dropped in the source; buckets here are total functions, so
that step is a no-op).  `WriteDestroyBlock` is a no-op in this translation unit.  As in
the source, the block is NOT removed from `block_map` or `block_range_map`; the callers
do that. -/
def DestroyBlock (st : CacheState) (bid : Nat) : CacheState :=
  match blockLookup st bid with
  | none => st
  | some b =>
    let st1 :=
      if st.fast_block_map b.fast_block_map_index = some bid then
        { st with
          fast_block_map := fun i =>
            if i = b.fast_block_map_index then none else st.fast_block_map i }
      else st
    let st2 := UnlinkBlock st1 bid
    eraseLinksLoop bid b.linkData st2

/-- The footprint loop of `FinalizeBlock`: set the validity bit and insert the block
into the macro-range bucket for every footprint address. -/
def setRangeLoop (bid : Nat) (physical_addresses : List Nat) (s : CacheState) :
    CacheState :=
  physical_addresses.foldl
    (fun s addr =>
      { s with
        valid_block := fun i => if i = addr / 32 then true else s.valid_block i
        block_range_map := fun k =>
          if k = rangeAlign addr then setInsert (s.block_range_map k) bid
          else s.block_range_map k })
    s

/-- The exit-registration loop of `FinalizeBlock` under `block_link`: record the block in
the `links_to` bucket of every exit target. -/
def registerLinksLoop (bid : Nat) (ld : List JitBlockLinkData) (s : CacheState) :
    CacheState :=
  ld.foldl
    (fun s e =>
      { s with
        links_to := fun t =>
          if t = e.exitAddress then setInsert (s.links_to t) bid else s.links_to t })
    s

/-- `JitBaseBlockCache::FinalizeBlock`: install the block in its fast-map slot, commit
the footprint, set the validity bits and range-map entries for every footprint address,
and if `block_link` register every exit in `links_to` and run `LinkBlock`.  The final
`JitRegister::Register` call is external debug registration with no cache-state effect. -/
def FinalizeBlock (tr : Nat → TranslateResult) (st : CacheState) (bid : Nat)
    (block_link : Bool) (physical_addresses : List Nat) : CacheState :=
  match blockLookup st bid with
  | none => st
  | some b =>
    let index := FastLookupIndexForAddress b.effectiveAddress
    let st1 := { st with
      fast_block_map := fun i => if i = index then some bid else st.fast_block_map i }
    let st2 := updateBlock st1 bid fun b0 =>
      { b0 with fast_block_map_index := index, physical_addresses := physical_addresses }
    let st3 := setRangeLoop bid physical_addresses st2
    if block_link then LinkBlock tr (registerLinksLoop bid b.linkData st3) bid
    else st3

/-- Modelled from the spec: the output of the CodeEmitter collaborator — "a checked entry
point, a normal entry point, a size, and a set of branch exit descriptors"; the emitter
produces each exit initially unlinked with its branch site pointing at the dispatcher. -/
structure EmitResult where
  checkedEntry : Nat
  normalEntry : Nat
  codeSize : Nat
  exitAddresses : List Nat
deriving Repr, DecidableEq

/-- The owner's compile sequence for one guest address: `AllocateBlock`, then the emitter
fills the returned block's fields, then `FinalizeBlock`.  This is the only way blocks
enter the cache (the sequence is atomic from the cache's point of view: the core is
single-threaded and no cache operation runs between the three phases). -/
def compileBlock (tr : Nat → TranslateResult) (msr em_address : Nat) (emitted : EmitResult)
    (block_link : Bool) (physical_addresses : List Nat) (st : CacheState) : CacheState :=
  let p := AllocateBlock tr msr em_address st
  let st2 := updateBlock p.2 p.1 fun b =>
    { b with
      checkedEntry := emitted.checkedEntry
      normalEntry := emitted.normalEntry
      codeSize := emitted.codeSize
      linkData := emitted.exitAddresses.map fun a =>
        { exitAddress := a, linkStatus := false, patchedTo := none } }
  FinalizeBlock tr st2 p.1 block_link physical_addresses

/-- `JitBaseBlockCache::MoveBlockIntoFastCache`: store lookup, then drop the old fast-map
entry if it still points at the found block and install the block in the slot for `addr`,
updating its stored slot index. -/
def MoveBlockIntoFastCache (tr : Nat → TranslateResult) (st : CacheState)
    (addr msr : Nat) : Option Nat × CacheState :=
  match GetBlockFromStartAddress tr st addr msr with
  | none => (none, st)
  | some (bid, b) =>
    let st1 :=
      if st.fast_block_map b.fast_block_map_index = some bid then
        { st with
          fast_block_map := fun i =>
            if i = b.fast_block_map_index then none else st.fast_block_map i }
      else st
    let index := FastLookupIndexForAddress addr
    let st2 := { st1 with
      fast_block_map := fun i => if i = index then some bid else st1.fast_block_map i }
    (some bid, updateBlock st2 bid fun b0 => { b0 with fast_block_map_index := index })

/-- `JitBaseBlockCache::Dispatch`: read the fast-map slot for `PC`; if the occupant is
non-null with exactly matching `effectiveAddress` and `msrBits`, return its `normalEntry`;
otherwise fall back to `MoveBlockIntoFastCache(PC, MSR.Hex & JIT_CACHE_MSR_MASK)`.
Returns the host entry (`block->normalEntry`) or `none`.  A fast-map slot holding an id
with no live block would be a dangling pointer in the source; it cannot occur in
reachable states and is treated as a miss.  The fast-map probe (`dispatchFastHit`) is
split out of `Dispatch` for the proofs. -/
def dispatchFastHit (st : CacheState) (pc msr : Nat) : Option (Nat × JitBlock) :=
  match st.fast_block_map (FastLookupIndexForAddress pc) with
  | none => none
  | some bid =>
    match blockLookup st bid with
    | none => none
    | some b =>
      if b.effectiveAddress = pc ∧ b.msrBits = (msr &&& JIT_CACHE_MSR_MASK) then
        some (bid, b)
      else none

def Dispatch (tr : Nat → TranslateResult) (pc msr : Nat) (st : CacheState) :
    Option Nat × CacheState :=
  match dispatchFastHit st pc msr with
  | some p => (some p.2.normalEntry, st)
  | none =>
    match MoveBlockIntoFastCache tr st pc (msr &&& JIT_CACHE_MSR_MASK) with
    | (none, st') => (none, st')
    | (some bid, st') => ((blockLookup st' bid).map (·.normalEntry), st')

/-- The FIFO-write / paired-quantize cache clearing loop of `InvalidateICacheInternal`:
`for (u32 i = address; i < address + length; i += 4)` erase `i` from both address sets.
This is the notification to the external hot-path caches. -/
def eraseFifo (address length : Nat) (st : CacheState) : CacheState :=
  { st with
    fifoWriteAddresses := fun i =>
      if address ≤ i ∧ i < address + length ∧ (i - address) % 4 = 0 then false
      else st.fifoWriteAddresses i
    pairedQuantizeAddresses := fun i =>
      if address ≤ i ∧ i < address + length ∧ (i - address) % 4 = 0 then false
      else st.pairedQuantizeAddresses i }

/-- The cross-bucket removal step of `ErasePhysicalRange`: for every footprint address of
an overlapping block, remove the block from the macro-range bucket of that address unless
it is the bucket currently being scanned (key `k`).  In the source `block_range_map[...]`
may materialise an empty bucket ("this will leak empty macro blocks"); with total-function
buckets that leak is invisible. -/
def removeFromOtherRanges (bid k : Nat) (fp : List Nat) (st : CacheState) : CacheState :=
  fp.foldl
    (fun s addr =>
      if rangeAlign addr ≠ k then
        { s with
          block_range_map := fun j =>
            if j = rangeAlign addr then setErase (s.block_range_map j) bid
            else s.block_range_map j }
      else s)
    st

/-- The `block_map` removal loop of `ErasePhysicalRange`: walk the equal range of the
block's physical key and erase the entry that is this exact block.  Ids are unique, so
this erases the first (only) entry with this id. -/
def removeFromBlockMap (bid : Nat) (st : CacheState) : CacheState :=
  { st with block_map := st.block_map.eraseP fun e => e.1 == bid }

/-- The inner loop of `ErasePhysicalRange` over one macro-range bucket (key `k`),
`pending` being the bucket contents when the bucket is first entered.  An id whose block
is already gone would be a dangling `JitBlock*` in the source; it cannot occur in
reachable states and is skipped here. -/
def eraseBucketLoop (a len k : Nat) (st : CacheState) : List Nat → CacheState
  | [] => st
  | bid :: rest =>
    match blockLookup st bid with
    | none => eraseBucketLoop a len k st rest
    | some b =>
      if b.OverlapsPhysicalRange a len then
        let st1 := removeFromOtherRanges bid k b.physical_addresses st
        let st2 := DestroyBlock st1 bid
        let st3 := removeFromBlockMap bid st2
        let st4 := { st3 with
          block_range_map := fun j =>
            if j = k then setErase (st3.block_range_map j) bid
            else st3.block_range_map j }
        eraseBucketLoop a len k st4 rest
      else eraseBucketLoop a len k st rest

/-- The outer loop of `ErasePhysicalRange` over the macro-range keys `k` of
`block_range_map` with `rangeAlign address ≤ k < address + length` (the source walks from
`lower_bound(address & range_mask)` to `lower_bound(address + length)`; every key is a
multiple of `BLOCK_RANGE_MAP_ELEMENTS` by construction, so stepping k by that stride
visits them all; non-existent keys are empty buckets here and the visit is a no-op, and
dropping an emptied bucket is likewise a no-op).  The loop runs at most
`length / BLOCK_RANGE_MAP_ELEMENTS + 2` times; the recursion is driven by that explicit
iteration bound, whose sufficiency is proved in `ErasePhysicalRange_fuel_sufficient`. -/
def eraseRangeFuel (a len : Nat) : Nat → Nat → CacheState → CacheState
  | 0, _, st => st
  | fuel + 1, k, st =>
    if k < a + len then
      eraseRangeFuel a len fuel (k + BLOCK_RANGE_MAP_ELEMENTS)
        (eraseBucketLoop a len k st (st.block_range_map k))
    else st

/-- `JitBaseBlockCache::ErasePhysicalRange`. -/
def ErasePhysicalRange (address length : Nat) (st : CacheState) : CacheState :=
  eraseRangeFuel address length (length / BLOCK_RANGE_MAP_ELEMENTS + 2)
    (rangeAlign address) st

/-- The `if (destroy_block)` tail of `InvalidateICacheInternal`: erase the physical
range, then, unless `forced`, clear the FIFO-write / paired-quantize entries in the
written byte range. -/
def invalidateDestroy (physical_address address length : Nat) (forced : Bool)
    (st : CacheState) : CacheState :=
  let st1 := ErasePhysicalRange physical_address length st
  if forced then st1 else eraseFifo address length st1

/-- `JitBaseBlockCache::InvalidateICacheInternal`.  For a single aligned cache line
(`length == 32 && (physical_address & 0x1f) == 0`, with `& 0x1f = % 32`) consult the
validity bit: if clear, skip everything (`destroy_block = false`); if set, clear it and
destroy.  Otherwise, when `length > 32`, clear every validity bit fully covered by the
range, and destroy in any case. -/
def InvalidateICacheInternal (physical_address address length : Nat) (forced : Bool)
    (st : CacheState) : CacheState :=
  if length = 32 ∧ physical_address % 32 = 0 then
    if st.valid_block (physical_address / 32) = false then st
    else
      invalidateDestroy physical_address address length forced
        { st with
          valid_block := fun i =>
            if i = physical_address / 32 then false else st.valid_block i }
  else
    let st1 :=
      if 32 < length then
        { st with
          valid_block := fun i =>
            if (physical_address + 0x1f) / 32 ≤ i ∧ i < (physical_address + length) / 32
            then false else st.valid_block i }
      else st
    invalidateDestroy physical_address address length forced st1

/-- The per-iteration translation-unit shift of `InvalidateICache`:
`address_from_bat ? BAT_INDEX_SHIFT : HW_PAGE_INDEX_SHIFT` where
`address_from_bat = translated.valid && translated.translated && translated.from_bat`. -/
def unitShift (t : TranslateResult) : Nat :=
  if t.valid && t.translated && t.from_bat then BAT_INDEX_SHIFT else HW_PAGE_INDEX_SHIFT

/-- Alignment `a & mask` with `mask = ~((1u << s) - 1u)`: for a 32-bit value this aligns
`a` down to a multiple of `2 ^ s`. -/
def unitAlign (s a : Nat) : Nat := a - a % 2 ^ s

/-- The chunk length `length_this_page = end_of_page - first_address` of
`InvalidateICache`, where `end_of_page = (first_address + (1u << s)) & mask`; both the
addition and the subtraction are 32-bit (wrap-around) operations. -/
def lengthThisPage (s a : Nat) : Nat :=
  (unitAlign s ((a % 2 ^ 32 + 2 ^ s) % 2 ^ 32) + 2 ^ 32 - a % 2 ^ 32) % 2 ^ 32

/-- The translation-unit shift is one of the two granularities. -/
theorem unitShift_cases (t : TranslateResult) :
    unitShift t = BAT_INDEX_SHIFT ∨ unitShift t = HW_PAGE_INDEX_SHIFT := by
  unfold unitShift
  split <;> simp

/-- Closed form of the 32-bit chunk-length computation: for either granularity `s`, the
distance from `a` to the next `2 ^ s` boundary. -/
theorem lengthThisPage_eq (s a : Nat) (h1 : 0 < s) (h2 : s < 32) :
    lengthThisPage s a = 2 ^ s - a % 2 ^ s := by
  unfold lengthThisPage unitAlign
  have hs : (2 : Nat) ^ s ∣ 2 ^ 32 := pow_dvd_pow 2 (le_of_lt h2)
  have hspos : 0 < 2 ^ s := Nat.pos_pow_of_pos s (by norm_num)
  have h32 : (2 : Nat) ^ s ≤ 2 ^ 32 := Nat.pow_le_pow_right (by norm_num) (le_of_lt h2)
  have h32lt : (2 : Nat) ^ s < 2 ^ 32 := Nat.pow_lt_pow_right (by norm_num) h2
  set a' := a % 2 ^ 32 with ha'
  have ha'lt : a' < 2 ^ 32 := Nat.mod_lt _ (by positivity)
  have hr : a' % 2 ^ s = a % 2 ^ s := Nat.mod_mod_of_dvd a hs
  set r := a' % 2 ^ s with hrdef
  have hrlt : r < 2 ^ s := Nat.mod_lt _ hspos
  have hmod : (a' + 2 ^ s) % 2 ^ 32 % 2 ^ s = r := by
    rw [Nat.mod_mod_of_dvd _ hs, Nat.add_mod_right]
  rcases Nat.lt_or_ge (a' + 2 ^ s) (2 ^ 32) with hcase | hcase
  · rw [Nat.mod_eq_of_lt hcase] at hmod ⊢
    rw [hmod, ← hr]
    have hle : r ≤ a' := by rw [hrdef]; exact Nat.mod_le _ _
    rw [show a' + 2 ^ s - r + 2 ^ 32 - a' = 2 ^ s - r + 2 ^ 32 from by omega,
      Nat.add_mod_right, Nat.mod_eq_of_lt (by omega)]
  · have hlt : a' + 2 ^ s - 2 ^ 32 < 2 ^ 32 := by omega
    have heq : (a' + 2 ^ s) % 2 ^ 32 = a' + 2 ^ s - 2 ^ 32 := by
      have h2s : a' + 2 ^ s - 2 ^ 32 + 2 ^ 32 = a' + 2 ^ s := by omega
      calc (a' + 2 ^ s) % 2 ^ 32 = (a' + 2 ^ s - 2 ^ 32 + 2 ^ 32) % 2 ^ 32 := by rw [h2s]
        _ = (a' + 2 ^ s - 2 ^ 32) % 2 ^ 32 := Nat.add_mod_right _ _
        _ = a' + 2 ^ s - 2 ^ 32 := Nat.mod_eq_of_lt hlt
    rw [heq] at hmod ⊢
    rw [hmod, ← hr]
    have hle : r ≤ a' + 2 ^ s - 2 ^ 32 := by rw [← hmod]; exact Nat.mod_le _ _
    rw [show a' + 2 ^ s - 2 ^ 32 - r + 2 ^ 32 - a' = 2 ^ s - r from by omega,
      Nat.mod_eq_of_lt (by omega)]

/-- The chunk length is strictly positive (for either granularity). -/
theorem lengthThisPage_pos (s a : Nat) (h1 : 0 < s) (h2 : s < 32) :
    0 < lengthThisPage s a := by
  rw [lengthThisPage_eq s a h1 h2]
  have hspos : 0 < 2 ^ s := Nat.pos_pow_of_pos s (by norm_num)
  have : a % 2 ^ s < 2 ^ s := Nat.mod_lt _ hspos
  omega

/-- Positivity of the chunk length for the shift actually used by the loop. -/
theorem lengthThisPage_unitShift_pos (t : TranslateResult) (a : Nat) :
    0 < lengthThisPage (unitShift t) a := by
  rcases unitShift_cases t with h | h <;> rw [h] <;>
    exact lengthThisPage_pos _ _ (by norm_num [BAT_INDEX_SHIFT, HW_PAGE_INDEX_SHIFT])
      (by norm_num [BAT_INDEX_SHIFT, HW_PAGE_INDEX_SHIFT])

/-- The body of the `InvalidateICache` range-splitting loop, producing the list of
`(address, length)` sub-ranges it hands to `InvalidateICacheInternal`.  The loop condition
`(first_address & mask) == (last_address & mask)` with
`last_address = address + (length - 1u)` (32-bit additions) decides whether the whole
remaining range lies in one translation unit.  Each straddling iteration strictly
decreases `length` (`lengthThisPage` is positive, see `lengthThisPage_unitShift_pos`),
so `length` bounds the number of iterations; the recursion is driven by that explicit
bound (first argument), whose sufficiency is proved in `invalidateChunks_fuel`. -/
def chunksFuel (tr : Nat → TranslateResult) : Nat → Nat → Nat → List (Nat × Nat)
  | 0, _, _ => []
  | _ + 1, _, 0 => []
  | fuel + 1, address, length =>
    let s := unitShift (tr address)
    if unitAlign s (address % 2 ^ 32) = unitAlign s ((address + (length - 1)) % 2 ^ 32) then
      [(address, length)]
    else
      let ltp := lengthThisPage s address
      (address, ltp) :: chunksFuel tr fuel ((address + ltp) % 2 ^ 32) (length - ltp)

/-- The sub-ranges processed by `InvalidateICache(initial_address, initial_length, _)`. -/
def invalidateChunks (tr : Nat → TranslateResult) (address length : Nat) :
    List (Nat × Nat) :=
  chunksFuel tr length address length

/-- `JitBaseBlockCache::InvalidateICache`: split the requested range at the translation
unit boundaries applying to each sub-range's first address, and run
`InvalidateICacheInternal` on each sub-range whose translation is valid (unmapped
sub-ranges are skipped). -/
def InvalidateICache (tr : Nat → TranslateResult) (initial_address initial_length : Nat)
    (forced : Bool) (st : CacheState) : CacheState :=
  (invalidateChunks tr initial_address initial_length).foldl
    (fun s c =>
      if (tr c.1).valid then InvalidateICacheInternal (tr c.1).address c.1 c.2 forced s
      else s)
    st

/-- `JitBaseBlockCache::InvalidateICacheLine`: align down to the 32-byte cache line
(`address & ~0x1f`), translate, and invalidate the single line when mapped. -/
def InvalidateICacheLine (tr : Nat → TranslateResult) (address : Nat) (st : CacheState) :
    CacheState :=
  let cache_line_address := address - address % 32
  if (tr cache_line_address).valid then
    InvalidateICacheInternal (tr cache_line_address).address cache_line_address 32 false st
  else st

/-- `JitBaseBlockCache::Clear`: clear the two `m_jit.js` address sets, destroy every
block (the map itself is cleared afterwards, as are all the indices), and reset the
validity bitmap and the fast map. -/
def ClearCache (st : CacheState) : CacheState :=
  let st1 := { st with
    fifoWriteAddresses := fun _ => false
    pairedQuantizeAddresses := fun _ => false }
  let st2 := (st1.block_map.map Prod.fst).foldl DestroyBlock st1
  { st2 with
    block_map := []
    links_to := fun _ => []
    block_range_map := fun _ => []
    valid_block := fun _ => false
    fast_block_map := fun _ => none }

/-- One externally triggered operation of the cache, per the exposed interface: the
owner's compile sequence (AllocateBlock + emitter + FinalizeBlock), a dispatch, the two
invalidation entry points, and the full clear (`Init`/`Reset` reduce to `Clear`).  The
translator function, live `MSR`/`PC` values and emitter output are arbitrary at each
step. -/
inductive Step : CacheState → CacheState → Prop
  | compile (st : CacheState) (tr : Nat → TranslateResult) (msr em : Nat)
      (emitted : EmitResult) (block_link : Bool) (fp : List Nat) :
      Step st (compileBlock tr msr em emitted block_link fp st)
  | dispatch (st : CacheState) (tr : Nat → TranslateResult) (pc msr : Nat) :
      Step st (Dispatch tr pc msr st).2
  | invalidate (st : CacheState) (tr : Nat → TranslateResult) (a len : Nat)
      (forced : Bool) :
      Step st (InvalidateICache tr a len forced st)
  | invalidateLine (st : CacheState) (tr : Nat → TranslateResult) (a : Nat) :
      Step st (InvalidateICacheLine tr a st)
  | clear (st : CacheState) : Step st (ClearCache st)

/-- The cache states reachable from the freshly initialised cache. -/
inductive Reachable : CacheState → Prop
  | init : Reachable initState
  | step {st st' : CacheState} : Reachable st → Step st st' → Reachable st'

/-! ### Basic facts about the store and the index updates -/

/-- A successful association lookup yields a member. -/
theorem assocLookup_mem {l : List (Nat × JitBlock)} {bid : Nat} {b : JitBlock}
    (h : assocLookup l bid = some b) : (bid, b) ∈ l := by
  induction l with
  | nil => simp [assocLookup] at h
  | cons a rest ih =>
    obtain ⟨a1, a2⟩ := a
    unfold assocLookup at h
    by_cases ha : a1 = bid
    · subst ha
      rw [if_pos rfl] at h
      cases h
      exact List.mem_cons_self _ _
    · rw [if_neg ha] at h
      exact List.mem_cons_of_mem _ (ih h)

/-- A successful dereference yields an entry of the owning store. -/
theorem blockLookup_some_mem {st : CacheState} {bid : Nat} {b : JitBlock}
    (h : blockLookup st bid = some b) : (bid, b) ∈ st.block_map :=
  assocLookup_mem h

/-- Generic preservation of a predicate along a left fold. -/
theorem foldl_preserves {α σ : Type} (P : σ → Prop) (step : σ → α → σ)
    (h : ∀ s a, P s → P (step s a)) :
    ∀ (l : List α) (s : σ), P s → P (l.foldl step s) := by
  intro l
  induction l with
  | nil => intro s hs; exact hs
  | cons a rest ih => intro s hs; exact ih (step s a) (h s a hs)

/-- Effect of the `updateBlock` entry rewrite on the association lookup. -/
theorem assocLookup_update (l : List (Nat × JitBlock)) (bid c : Nat) (f : JitBlock → JitBlock) :
    assocLookup (l.map fun e => if e.1 = bid then (e.1, f e.2) else e) c =
      if c = bid then (assocLookup l c).map f else assocLookup l c := by
  induction l with
  | nil => by_cases h : c = bid <;> simp [assocLookup, h]
  | cons a rest ih =>
    obtain ⟨a1, a2⟩ := a
    by_cases hab : a1 = bid
    · by_cases hac : a1 = c
      · have hcb : c = bid := by rw [← hac, hab]
        simp [assocLookup, hab, hac, hcb]
      · have hcb : c ≠ bid := fun h => hac (hab.trans h.symm)
        simp only [List.map_cons, if_pos hab, assocLookup, if_neg hac, ih, if_neg hcb]
    · by_cases hac : a1 = c
      · have hcb : c ≠ bid := fun h => hab (hac.trans h)
        simp [assocLookup, hab, hac, hcb]
      · simp only [List.map_cons, if_neg hab, assocLookup, if_neg hac, ih]

/-- Dereference after `updateBlock`: the targeted id sees the mutation, others do not. -/
theorem blockLookup_updateBlock (st : CacheState) (bid c : Nat) (f : JitBlock → JitBlock) :
    blockLookup (updateBlock st bid f) c =
      if c = bid then (blockLookup st c).map f else blockLookup st c :=
  assocLookup_update st.block_map bid c f

/-- `updateBlock` preserves the list of ids. -/
theorem updateBlock_ids (st : CacheState) (bid : Nat) (f : JitBlock → JitBlock) :
    (updateBlock st bid f).block_map.map Prod.fst = st.block_map.map Prod.fst := by
  unfold updateBlock
  simp only [List.map_map]
  apply List.map_congr_left
  intro e _
  by_cases h : e.1 = bid <;> simp [h]

/-- Characterisation of a successful store lookup: the result is a stored entry whose
`effectiveAddress` and masked `msrBits` match the request exactly, stored under the
translated physical key. -/
theorem GetBlockFromStartAddress_some {tr : Nat → TranslateResult} {st : CacheState}
    {addr msr : Nat} {p : Nat × JitBlock}
    (h : GetBlockFromStartAddress tr st addr msr = some p) :
    p ∈ st.block_map ∧ p.2.effectiveAddress = addr ∧
      p.2.msrBits = msr &&& JIT_CACHE_MSR_MASK ∧
      p.2.physicalAddress = (if msr &&& MSR_IR_BIT ≠ 0 then (tr addr).address else addr) := by
  unfold GetBlockFromStartAddress at h
  split at h
  · simp at h
  · simp only [] at h
    have hm := List.mem_of_find?_eq_some h
    have hp := List.find?_some h
    simp only [Bool.and_eq_true, beq_iff_eq] at hp
    exact ⟨hm, hp.1.2, hp.2, hp.1.1⟩

/-- On instruction-translation failure the store lookup reports not-found. -/
theorem GetBlockFromStartAddress_invalid {tr : Nat → TranslateResult} {st : CacheState}
    {addr msr : Nat} (h1 : msr &&& MSR_IR_BIT ≠ 0) (h2 : (tr addr).valid = false) :
    GetBlockFromStartAddress tr st addr msr = none := by
  unfold GetBlockFromStartAddress
  rw [if_pos ⟨h1, h2⟩]

/-- A translator whose translation is the identity (a direct mapping). -/
def trIdent : Nat → TranslateResult := fun a =>
  { valid := true, translated := true, from_bat := false, address := a }

/-- A translator reporting every address as unmapped. -/
def trInvalid : Nat → TranslateResult := fun _ =>
  { valid := false, translated := false, from_bat := false, address := 0 }

/-- A translator sending every effective address to physical address 0x1000 (physical-key
collisions between different effective addresses). -/
def trColl : Nat → TranslateResult := fun _ =>
  { valid := true, translated := true, from_bat := false, address := 0x1000 }

/-- C1: `GetBlockFromStartAddress` (Find) performs an exact-match scan of the multimap
bucket at the translated physical key: any returned block is a stored entry whose
`effectiveAddress` equals the requested address and whose stored `msrBits` equals the
requested mode bits masked by `JIT_CACHE_MSR_MASK`; if the requested mode has instruction
translation (IR) enabled and translation fails, it returns not-found; consequently, for
two stored blocks with different `(effectiveAddress, msrBits)` identity (the stored mode
bits being already masked), looking up the first never returns the second. -/
theorem C1_find_exact_match (tr : Nat → TranslateResult) (st : CacheState)
    (addr msr : Nat) :
    (∀ p : Nat × JitBlock, GetBlockFromStartAddress tr st addr msr = some p →
        p ∈ st.block_map ∧ p.2.effectiveAddress = addr ∧
          p.2.msrBits = msr &&& JIT_CACHE_MSR_MASK) ∧
    (msr &&& MSR_IR_BIT ≠ 0 → (tr addr).valid = false →
        GetBlockFromStartAddress tr st addr msr = none) ∧
    (∀ b1 b2 : Nat × JitBlock, b1 ∈ st.block_map → b2 ∈ st.block_map →
        b1.2.msrBits &&& JIT_CACHE_MSR_MASK = b1.2.msrBits →
        (b1.2.effectiveAddress, b1.2.msrBits) ≠ (b2.2.effectiveAddress, b2.2.msrBits) →
        GetBlockFromStartAddress tr st b1.2.effectiveAddress b1.2.msrBits ≠ some b2) := by
  refine ⟨fun p h => ?_, fun h1 h2 => GetBlockFromStartAddress_invalid h1 h2,
    fun b1 b2 _ _ hmask hne heq => ?_⟩
  · obtain ⟨hm, hea, hmsr, _⟩ := GetBlockFromStartAddress_some h
    exact ⟨hm, hea, hmsr⟩
  · obtain ⟨_, hea, hmsr, _⟩ := GetBlockFromStartAddress_some heq
    refine hne ?_
    rw [Prod.mk.injEq]
    exact ⟨hea.symm, (hmsr.trans hmask).symm⟩

/-- Witness for C1: with IR enabled and a failing translation the lookup is not-found. -/
theorem C1_find_exact_match_witness :
    GetBlockFromStartAddress trInvalid initState 0x1000 0x30 = none :=
  (C1_find_exact_match trInvalid initState 0x1000 0x30).2.1 (by decide) (by decide)

/-- C2 counterexample: `AllocateBlock` does not consult the translation's `valid` flag.
With a translator reporting 0x1000 as unmapped, the store nevertheless grows by one
block. -/
theorem C2_counterexample :
    (trInvalid 0x1000).valid = false ∧
      (AllocateBlock trInvalid 0 0x1000 initState).2.block_map.length = 1 := by
  decide

/-- C2 (amended): `AllocateBlock` unconditionally inserts a new block keyed by the
`address` field of the translation result — also when the translation is reported
invalid.  (Rejecting unmapped addresses is the caller's responsibility; nothing in
`AllocateBlock` fails the request.) -/
theorem C2_allocate_always_inserts (tr : Nat → TranslateResult) (msr em : Nat)
    (st : CacheState) :
    (AllocateBlock tr msr em st).2.block_map.length = st.block_map.length + 1 ∧
    (st.next_id,
      ({ effectiveAddress := em
         physicalAddress := (tr em).address
         msrBits := msr &&& JIT_CACHE_MSR_MASK
         physical_addresses := []
         checkedEntry := 0
         normalEntry := 0
         codeSize := 0
         linkData := []
         fast_block_map_index := 0 } : JitBlock)) ∈
      (AllocateBlock tr msr em st).2.block_map := by
  constructor
  · simp [AllocateBlock]
  · simp [AllocateBlock]

/-- C7: for an aligned single-cache-line invalidation whose validity bit is clear,
`InvalidateICacheInternal` leaves the entire cache state unchanged — no block is
destroyed, the range index is never scanned, and no notification is emitted. -/
theorem C7_fast_reject (pa addr : Nat) (forced : Bool) (st : CacheState)
    (h1 : pa % 32 = 0) (h2 : st.valid_block (pa / 32) = false) :
    InvalidateICacheInternal pa addr 32 forced st = st := by
  unfold InvalidateICacheInternal
  rw [if_pos ⟨rfl, h1⟩, if_pos h2]

/-- Witness for C7 at a concrete aligned line with a clear validity bit. -/
theorem C7_fast_reject_witness :
    InvalidateICacheInternal 0x1000 0x1000 32 false initState = initState :=
  C7_fast_reject 0x1000 0x1000 false initState (by decide) (by decide)

/-! ### The invalidation path never touches the hot-path address sets except through
`eraseFifo` -/

/-- `UnlinkBlock` does not touch the hot-path address sets. -/
theorem UnlinkBlock_fifo (st : CacheState) (bid : Nat) :
    (UnlinkBlock st bid).fifoWriteAddresses = st.fifoWriteAddresses ∧
      (UnlinkBlock st bid).pairedQuantizeAddresses = st.pairedQuantizeAddresses := by
  unfold UnlinkBlock
  split
  · exact ⟨rfl, rfl⟩
  · refine foldl_preserves
      (fun (s : CacheState) => s.fifoWriteAddresses = st.fifoWriteAddresses ∧
        s.pairedQuantizeAddresses = st.pairedQuantizeAddresses) _ ?_ _ _ ⟨rfl, rfl⟩
    intro s a hs
    cases hl : blockLookup s a with
    | none => simpa [hl] using hs
    | some bb =>
      simp only [hl]
      split
      · exact hs
      · exact hs

/-- `DestroyBlock` does not touch the hot-path address sets. -/
theorem DestroyBlock_fifo (st : CacheState) (bid : Nat) :
    (DestroyBlock st bid).fifoWriteAddresses = st.fifoWriteAddresses ∧
      (DestroyBlock st bid).pairedQuantizeAddresses = st.pairedQuantizeAddresses := by
  unfold DestroyBlock
  split
  · exact ⟨rfl, rfl⟩
  · rename_i b _
    refine foldl_preserves
      (fun (s : CacheState) => s.fifoWriteAddresses = st.fifoWriteAddresses ∧
        s.pairedQuantizeAddresses = st.pairedQuantizeAddresses) _ ?_ _ _ ?_
    · intro s a hs
      exact hs
    · have h1 := UnlinkBlock_fifo
        (if st.fast_block_map b.fast_block_map_index = some bid then
          { st with
            fast_block_map := fun i =>
              if i = b.fast_block_map_index then none else st.fast_block_map i }
         else st) bid
      rcases h1 with ⟨ha, hb⟩
      constructor
      · rw [ha]; split <;> rfl
      · rw [hb]; split <;> rfl

/-- The inner bucket loop of `ErasePhysicalRange` does not touch the hot-path sets. -/
theorem eraseBucketLoop_fifo (a len k : Nat) :
    ∀ (pending : List Nat) (st : CacheState),
      (eraseBucketLoop a len k st pending).fifoWriteAddresses = st.fifoWriteAddresses ∧
        (eraseBucketLoop a len k st pending).pairedQuantizeAddresses =
          st.pairedQuantizeAddresses := by
  intro pending
  induction pending with
  | nil => intro st; exact ⟨rfl, rfl⟩
  | cons bid rest ih =>
    intro st
    unfold eraseBucketLoop
    cases hl : blockLookup st bid with
    | none => exact ih st
    | some b =>
      simp only []
      split
      · rename_i hov
        have hro : ∀ (fp : List Nat) (s : CacheState),
            (removeFromOtherRanges bid k fp s).fifoWriteAddresses = s.fifoWriteAddresses ∧
              (removeFromOtherRanges bid k fp s).pairedQuantizeAddresses =
                s.pairedQuantizeAddresses := by
          intro fp s
          refine foldl_preserves
            (fun (t : CacheState) => t.fifoWriteAddresses = s.fifoWriteAddresses ∧
              t.pairedQuantizeAddresses = s.pairedQuantizeAddresses) _ ?_ _ _ ⟨rfl, rfl⟩
          intro t addr ht
          split
          · exact ht
          · exact ht
        have hd := DestroyBlock_fifo (removeFromOtherRanges bid k b.physical_addresses st) bid
        have := ih ({ removeFromBlockMap bid
            (DestroyBlock (removeFromOtherRanges bid k b.physical_addresses st) bid) with
          block_range_map := fun j =>
            if j = k then
              setErase ((removeFromBlockMap bid
                (DestroyBlock (removeFromOtherRanges bid k b.physical_addresses st) bid)).block_range_map j) bid
            else (removeFromBlockMap bid
              (DestroyBlock (removeFromOtherRanges bid k b.physical_addresses st) bid)).block_range_map j })
        rcases this with ⟨h1, h2⟩
        rcases hd with ⟨h3, h4⟩
        rcases hro b.physical_addresses st with ⟨h5, h6⟩
        exact ⟨h1.trans (h3.trans h5), h2.trans (h4.trans h6)⟩
      · exact ih st

/-- `ErasePhysicalRange` does not touch the hot-path address sets. -/
theorem ErasePhysicalRange_fifo (a len : Nat) (st : CacheState) :
    (ErasePhysicalRange a len st).fifoWriteAddresses = st.fifoWriteAddresses ∧
      (ErasePhysicalRange a len st).pairedQuantizeAddresses =
        st.pairedQuantizeAddresses := by
  unfold ErasePhysicalRange
  generalize rangeAlign a = k
  generalize len / BLOCK_RANGE_MAP_ELEMENTS + 2 = fuel
  induction fuel generalizing k st with
  | zero => exact ⟨rfl, rfl⟩
  | succ n ih =>
    unfold eraseRangeFuel
    split
    · rcases ih (eraseBucketLoop a len k st (st.block_range_map k))
        (k + BLOCK_RANGE_MAP_ELEMENTS) with ⟨h1, h2⟩
      rcases eraseBucketLoop_fifo a len k (st.block_range_map k) st with ⟨h3, h4⟩
      exact ⟨h1.trans h3, h2.trans h4⟩
    · exact ⟨rfl, rfl⟩

/-- Reduction of the destroy tail under `forced = true`: no notification. -/
theorem invalidateDestroy_forced (pa addr len : Nat) (st : CacheState) :
    invalidateDestroy pa addr len true st = ErasePhysicalRange pa len st := by
  unfold invalidateDestroy
  exact if_pos rfl

/-- Reduction of the destroy tail under `forced = false`: erase, then notify. -/
theorem invalidateDestroy_unforced (pa addr len : Nat) (st : CacheState) :
    invalidateDestroy pa addr len false st =
      eraseFifo addr len (ErasePhysicalRange pa len st) := by
  unfold invalidateDestroy
  exact if_neg (by simp)

/-- C8 (amended): the hot-path-cache notification — the clearing of the word-granularity
`fifoWriteAddresses` / `pairedQuantizeAddresses` entries in the written byte range — is
performed if and only if `forced` is false and the single-aligned-cache-line fast reject
did not trigger (`destroy_block` stayed true); it does NOT require that any block was
actually destroyed.  Concretely: with `forced = true` both sets are unchanged; when the
fast reject triggers the whole state is unchanged; otherwise, with `forced = false`,
every word-aligned entry inside `[address, address + length)` is cleared. -/
theorem C8_notification (pa addr len : Nat) (forced : Bool) (st : CacheState) :
    (forced = true →
      (InvalidateICacheInternal pa addr len forced st).fifoWriteAddresses =
          st.fifoWriteAddresses ∧
        (InvalidateICacheInternal pa addr len forced st).pairedQuantizeAddresses =
          st.pairedQuantizeAddresses) ∧
    (len = 32 → pa % 32 = 0 → st.valid_block (pa / 32) = false →
      InvalidateICacheInternal pa addr len forced st = st) ∧
    (forced = false → ¬(len = 32 ∧ pa % 32 = 0 ∧ st.valid_block (pa / 32) = false) →
      ∀ i, addr ≤ i → i < addr + len → (i - addr) % 4 = 0 →
        (InvalidateICacheInternal pa addr len forced st).fifoWriteAddresses i = false ∧
          (InvalidateICacheInternal pa addr len forced st).pairedQuantizeAddresses i
            = false) := by
  refine ⟨fun hf => ?_, fun h1 h2 h3 => by
      unfold InvalidateICacheInternal
      rw [if_pos ⟨h1, h2⟩, if_pos h3], fun hf hno i hi1 hi2 hi4 => ?_⟩
  · subst hf
    unfold InvalidateICacheInternal
    split
    · split
      · exact ⟨rfl, rfl⟩
      · rw [invalidateDestroy_forced]
        exact ErasePhysicalRange_fifo _ _ _
    · rw [invalidateDestroy_forced]
      constructor
      · rw [(ErasePhysicalRange_fifo _ _ _).1]
        split <;> rfl
      · rw [(ErasePhysicalRange_fifo _ _ _).2]
        split <;> rfl
  · subst hf
    unfold InvalidateICacheInternal
    have hgoal : ∀ s : CacheState,
        (eraseFifo addr len s).fifoWriteAddresses i = false ∧
          (eraseFifo addr len s).pairedQuantizeAddresses i = false := by
      intro s
      unfold eraseFifo
      exact ⟨if_pos ⟨hi1, hi2, hi4⟩, if_pos ⟨hi1, hi2, hi4⟩⟩
    split
    · rename_i hline
      split
      · rename_i hbit
        exact absurd ⟨hline.1, hline.2, hbit⟩ hno
      · rw [invalidateDestroy_unforced]
        exact hgoal _
    · rw [invalidateDestroy_unforced]
      exact hgoal _

/-- A cache state with one hot-path cache entry at 0x100 and no blocks at all. -/
def c8State : CacheState :=
  { initState with fifoWriteAddresses := fun i => i == 0x100 }

/-- C8 counterexample: invalidating 64 bytes in a completely empty cache destroys no
block, yet with `forced = false` the notification is performed (the hot-path entry at
0x100 is cleared) — refuting "performed only if at least one Block was actually
destroyed". -/
theorem C8_counterexample :
    c8State.block_map = [] ∧
      (InvalidateICacheInternal 0x100 0x100 64 false c8State).block_map = [] ∧
      c8State.fifoWriteAddresses 0x100 = true ∧
      (InvalidateICacheInternal 0x100 0x100 64 false c8State).fifoWriteAddresses 0x100
        = false := by
  refine ⟨rfl, ?_, rfl, ?_⟩ <;> decide

/-- Witness for C8 at a concrete state and input: the notification is performed although
nothing was destroyed. -/
theorem C8_notification_witness :
    (InvalidateICacheInternal 0x100 0x100 64 false c8State).fifoWriteAddresses 0x100
        = false ∧
      (InvalidateICacheInternal 0x100 0x100 64 false c8State).pairedQuantizeAddresses 0x100
        = false :=
  (C8_notification 0x100 0x100 64 false c8State).2.2 rfl (by decide) 0x100 (by decide)
    (by decide) (by decide)

/-! ### The range-splitting loop of `InvalidateICache` (C10) -/

/-- In a straddling iteration (the remaining range crosses the translation-unit boundary
of its first address) the chunk length is strictly less than the remaining length. -/
theorem chunk_lt_of_straddle (s a len : Nat)
    (hs : s = BAT_INDEX_SHIFT ∨ s = HW_PAGE_INDEX_SHIFT) (ha : a < 2 ^ 32) (hlen : 0 < len)
    (hne : unitAlign s (a % 2 ^ 32) ≠ unitAlign s ((a + (len - 1)) % 2 ^ 32)) :
    lengthThisPage s a < len := by
  rcases hs with h | h
  · subst h
    rw [lengthThisPage_eq _ _ (by norm_num [BAT_INDEX_SHIFT]) (by norm_num [BAT_INDEX_SHIFT])]
    unfold unitAlign at hne
    simp only [BAT_INDEX_SHIFT] at hne ⊢
    norm_num at hne ⊢
    omega
  · subst h
    rw [lengthThisPage_eq _ _ (by norm_num [HW_PAGE_INDEX_SHIFT])
      (by norm_num [HW_PAGE_INDEX_SHIFT])]
    unfold unitAlign at hne
    simp only [HW_PAGE_INDEX_SHIFT] at hne ⊢
    norm_num at hne ⊢
    omega

/-- Executable check that a chunk list starts at a given address and is consecutive:
each chunk begins where the previous one ended (with 32-bit wrap-around). -/
def chunksChainB : Nat → List (Nat × Nat) → Bool
  | _, [] => true
  | a, c :: rest => c.1 == a && chunksChainB ((a + c.2) % 2 ^ 32) rest

/-- Any sufficient iteration bound makes `chunksFuel` a partition of the requested range:
the chunk lengths are positive and sum to the total, and the chunks are consecutive. -/
theorem chunksFuel_spec (tr : Nat → TranslateResult) :
    ∀ (fuel a len : Nat), len ≤ fuel → a < 2 ^ 32 →
      ((chunksFuel tr fuel a len).map (·.2)).sum = len ∧
        chunksChainB a (chunksFuel tr fuel a len) = true ∧
        ∀ c ∈ chunksFuel tr fuel a len, 0 < c.2 := by
  intro fuel
  induction fuel with
  | zero =>
    intro a len hle ha
    have : len = 0 := Nat.le_zero.mp hle
    subst this
    exact ⟨rfl, rfl, by simp [chunksFuel]⟩
  | succ n ih =>
    intro a len hle ha
    cases len with
    | zero => exact ⟨rfl, rfl, by simp [chunksFuel]⟩
    | succ m =>
      simp only [chunksFuel]
      split
      · refine ⟨by simp, ?_, by simp⟩
        simp [chunksChainB]
      · rename_i hne
        have hpos := lengthThisPage_unitShift_pos (tr a) a
        have hlt : lengthThisPage (unitShift (tr a)) a < m + 1 :=
          chunk_lt_of_straddle _ _ _ (unitShift_cases (tr a)) ha (Nat.succ_pos m) hne
        have hrec := ih ((a + lengthThisPage (unitShift (tr a)) a) % 2 ^ 32)
          (m + 1 - lengthThisPage (unitShift (tr a)) a) (by omega)
          (Nat.mod_lt _ (by positivity))
        refine ⟨?_, ?_, ?_⟩
        · simp only [List.map_cons, List.sum_cons, hrec.1]
          omega
        · simp only [chunksChainB, hrec.2.1, Bool.and_true, beq_self_eq_true]
        · intro c hc
          rcases List.mem_cons.mp hc with h | h
          · subst h; exact hpos
          · exact hrec.2.2 c h

/-- The iteration bound is irrelevant once sufficient: the loop terminates with the same
chunk list for every bound at least `length`. -/
theorem chunksFuel_irrel (tr : Nat → TranslateResult) :
    ∀ f1 f2 a len, len ≤ f1 → len ≤ f2 →
      chunksFuel tr f1 a len = chunksFuel tr f2 a len := by
  intro f1
  induction f1 with
  | zero =>
    intro f2 a len h1 _
    have : len = 0 := Nat.le_zero.mp h1
    subst this
    cases f2 <;> rfl
  | succ n ih =>
    intro f2 a len h1 h2
    cases len with
    | zero => cases f2 <;> rfl
    | succ m =>
      cases f2 with
      | zero => omega
      | succ n2 =>
        simp only [chunksFuel]
        split
        · rfl
        · have hpos := lengthThisPage_unitShift_pos (tr a) a
          rw [ih n2 _ _ (by omega) (by omega)]

/-- C10: the range-splitting loop of `InvalidateICache` terminates for every starting
address and length: in every straddling iteration the computed per-unit chunk length is
strictly positive and strictly less than the remaining length, so the remaining length
strictly decreases; and the processed chunks exactly partition the requested byte range
(positive lengths summing to the total, each chunk starting where the previous ended,
with 32-bit wrap-around).  The explicit iteration bound `length` used to drive the
recursion is sufficient, and any larger bound yields the same chunks. -/
theorem C10_invalidate_range_splitting (tr : Nat → TranslateResult) (a len : Nat)
    (ha : a < 2 ^ 32) :
    ((invalidateChunks tr a len).map (·.2)).sum = len ∧
      (∀ c ∈ invalidateChunks tr a len, 0 < c.2) ∧
      chunksChainB a (invalidateChunks tr a len) = true ∧
      (∀ fuel, len ≤ fuel → chunksFuel tr fuel a len = invalidateChunks tr a len) ∧
      (∀ a' len', a' < 2 ^ 32 → 0 < len' →
        unitAlign (unitShift (tr a')) (a' % 2 ^ 32) ≠
          unitAlign (unitShift (tr a')) ((a' + (len' - 1)) % 2 ^ 32) →
        0 < lengthThisPage (unitShift (tr a')) a' ∧
          lengthThisPage (unitShift (tr a')) a' < len') := by
  obtain ⟨h1, h2, h3⟩ := chunksFuel_spec tr len a len le_rfl ha
  exact ⟨h1, h3, h2, fun fuel hf => chunksFuel_irrel tr fuel len a len hf le_rfl,
    fun a' len' ha' hl' hne =>
      ⟨lengthThisPage_unitShift_pos (tr a') a',
        chunk_lt_of_straddle _ _ _ (unitShift_cases (tr a')) ha' hl' hne⟩⟩

/-- Witness for C10 at a concrete split: invalidating 0x20 bytes at 0xFF0 under an
identity page-table translation straddles the 4 KiB page boundary and is split into two
positive consecutive chunks summing to 0x20. -/
theorem C10_invalidate_range_splitting_witness :
    ((invalidateChunks trIdent 0xFF0 0x20).map (·.2)).sum = 0x20 ∧
      chunksChainB 0xFF0 (invalidateChunks trIdent 0xFF0 0x20) = true :=
  ⟨(C10_invalidate_range_splitting trIdent 0xFF0 0x20 (by decide)).1,
    (C10_invalidate_range_splitting trIdent 0xFF0 0x20 (by decide)).2.2.1⟩

/-! ### Dispatch (C6) -/

/-- Masking twice with `JIT_CACHE_MSR_MASK` is the same as masking once. -/
theorem mask_idem (x : Nat) :
    x &&& JIT_CACHE_MSR_MASK &&& JIT_CACHE_MSR_MASK = x &&& JIT_CACHE_MSR_MASK := by
  rw [Nat.land_assoc,
    show JIT_CACHE_MSR_MASK &&& JIT_CACHE_MSR_MASK = JIT_CACHE_MSR_MASK from by decide]

/-- With distinct ids, membership determines the association lookup. -/
theorem assocLookup_of_mem_nodup {l : List (Nat × JitBlock)}
    (hnd : (l.map Prod.fst).Nodup) {bid : Nat} {b : JitBlock} (h : (bid, b) ∈ l) :
    assocLookup l bid = some b := by
  induction l with
  | nil => cases h
  | cons a rest ih =>
    rw [List.map_cons, List.nodup_cons] at hnd
    rcases List.mem_cons.mp h with h | h
    · subst h
      unfold assocLookup
      rw [if_pos rfl]
    · unfold assocLookup
      have hne : a.1 ≠ bid := by
        intro he
        exact hnd.1 (he ▸ (List.mem_map.mpr ⟨(bid, b), h, rfl⟩))
      rw [if_neg hne]
      exact ih hnd.2 h

/-- Characterisation of a fast-map probe hit. -/
theorem dispatchFastHit_some {st : CacheState} {pc msr : Nat} {p : Nat × JitBlock}
    (h : dispatchFastHit st pc msr = some p) :
    st.fast_block_map (FastLookupIndexForAddress pc) = some p.1 ∧
      blockLookup st p.1 = some p.2 ∧ p.2.effectiveAddress = pc ∧
      p.2.msrBits = msr &&& JIT_CACHE_MSR_MASK := by
  unfold dispatchFastHit at h
  split at h
  · simp at h
  · rename_i bid hslot
    split at h
    · simp at h
    · rename_i b hlk
      split at h
      · rename_i hcond
        obtain rfl := Option.some.inj h
        exact ⟨hslot, hlk, hcond.1, hcond.2⟩
      · simp at h

/-- Characterisation of a successful `MoveBlockIntoFastCache`: the returned block is a
live block exactly matching the request, now installed in the fast-map slot for `addr`;
the set of stored ids is unchanged. -/
theorem MoveBlockIntoFastCache_some {tr : Nat → TranslateResult} {st : CacheState}
    {addr msr bid : Nat} {st' : CacheState}
    (hnd : (st.block_map.map Prod.fst).Nodup)
    (h : MoveBlockIntoFastCache tr st addr msr = (some bid, st')) :
    ∃ b : JitBlock, blockLookup st' bid = some b ∧ b.effectiveAddress = addr ∧
      b.msrBits = msr &&& JIT_CACHE_MSR_MASK ∧
      st'.fast_block_map (FastLookupIndexForAddress addr) = some bid ∧
      st'.block_map.map Prod.fst = st.block_map.map Prod.fst := by
  unfold MoveBlockIntoFastCache at h
  split at h
  · rw [Prod.mk.injEq] at h
    simp at h
  · rename_i pid pb hg
    obtain ⟨hm, hea, hmsr, _⟩ := GetBlockFromStartAddress_some hg
    rw [Prod.mk.injEq] at h
    obtain ⟨h1, h2⟩ := h
    obtain rfl := Option.some.inj h1
    have hlkst : blockLookup st pid = some pb := assocLookup_of_mem_nodup hnd hm
    subst h2
    refine ⟨{ pb with fast_block_map_index := FastLookupIndexForAddress addr },
      ?_, hea, hmsr, ?_, ?_⟩
    · rw [blockLookup_updateBlock, if_pos rfl]
      have hbm : (if st.fast_block_map pb.fast_block_map_index = some pid then
          { st with
            fast_block_map := fun i =>
              if i = pb.fast_block_map_index then none else st.fast_block_map i }
        else st).block_map = st.block_map := by
        split <;> rfl
      show (blockLookup _ pid).map _ = _
      unfold blockLookup
      rw [show (∀ (x : CacheState) (g : Nat → Option Nat),
          ({ x with fast_block_map := g } : CacheState).block_map = x.block_map)
        from fun _ _ => rfl]
      rw [hbm]
      rw [show assocLookup st.block_map pid = blockLookup st pid from rfl, hlkst]
      rfl
    · show (fun i => if i = FastLookupIndexForAddress addr then some pid else _)
          (FastLookupIndexForAddress addr) = some pid
      exact if_pos rfl
    · rw [updateBlock_ids]
      show (if st.fast_block_map pb.fast_block_map_index = some pid then
          { st with
            fast_block_map := fun i =>
              if i = pb.fast_block_map_index then none else st.fast_block_map i }
        else st).block_map.map Prod.fst = st.block_map.map Prod.fst
      split <;> rfl

/-- Soundness of `Dispatch`: a returned entry is the `normalEntry` of a stored block
exactly matching `(pc, msr & JIT_CACHE_MSR_MASK)`, and that block now occupies the
fast-map slot hashed from `pc`. -/
theorem Dispatch_some {tr : Nat → TranslateResult} {pc msr : Nat} {st : CacheState}
    {entry : Nat} {st1 : CacheState}
    (hnd : (st.block_map.map Prod.fst).Nodup)
    (h : Dispatch tr pc msr st = (some entry, st1)) :
    ∃ p : Nat × JitBlock, p ∈ st1.block_map ∧ p.2.effectiveAddress = pc ∧
      p.2.msrBits = msr &&& JIT_CACHE_MSR_MASK ∧ p.2.normalEntry = entry ∧
      st1.fast_block_map (FastLookupIndexForAddress pc) = some p.1 := by
  unfold Dispatch at h
  split at h
  · rename_i p hfh
    obtain ⟨hslot, hlk, hea, hmsr⟩ := dispatchFastHit_some hfh
    rw [Prod.mk.injEq] at h
    obtain ⟨h1, h2⟩ := h
    obtain rfl := Option.some.inj h1
    subst h2
    exact ⟨p, blockLookup_some_mem hlk, hea, hmsr, rfl, hslot⟩
  · rename_i hfh
    split at h
    · rename_i st2 hmov
      rw [Prod.mk.injEq] at h
      simp at h
    · rename_i bid st2 hmov
      obtain ⟨b, hlk, hea, hmsr, hfast, _⟩ := MoveBlockIntoFastCache_some hnd hmov
      rw [Prod.mk.injEq] at h
      obtain ⟨h1, h2⟩ := h
      subst h2
      rw [hlk] at h1
      obtain rfl := Option.some.inj h1
      exact ⟨(bid, b), blockLookup_some_mem hlk, hea, (mask_idem msr) ▸ hmsr, rfl, hfast⟩

/-- Completeness of the miss: when no stored block matches `(pc, msr)` exactly,
`Dispatch` reports not-found. -/
theorem Dispatch_none_of_no_match {tr : Nat → TranslateResult} {pc msr : Nat}
    {st : CacheState}
    (hno : ∀ p : Nat × JitBlock, p ∈ st.block_map →
      ¬(p.2.effectiveAddress = pc ∧ p.2.msrBits = msr &&& JIT_CACHE_MSR_MASK)) :
    (Dispatch tr pc msr st).1 = none := by
  unfold Dispatch
  split
  · rename_i p hfh
    obtain ⟨_, hlk, hea, hmsr⟩ := dispatchFastHit_some hfh
    exact absurd ⟨hea, hmsr⟩ (hno p (blockLookup_some_mem hlk))
  · rename_i hfh
    split
    · rfl
    · rename_i bid st2 hmov
      exfalso
      unfold MoveBlockIntoFastCache at hmov
      split at hmov
      · rw [Prod.mk.injEq] at hmov
        simp at hmov
      · rename_i pid pb hg
        obtain ⟨hm, hea, hmsr, _⟩ := GetBlockFromStartAddress_some hg
        exact hno (pid, pb) hm ⟨hea, (mask_idem msr) ▸ hmsr⟩

/-- The scenario state of C6: one block compiled at effective = physical = 0x1000 under
mode bits 0, with `normalEntry = 7`, footprint `{0x1000}`. -/
def c6State : CacheState :=
  compileBlock trIdent 0 0x1000
    { checkedEntry := 5, normalEntry := 7, codeSize := 4, exitAddresses := [] }
    true [0x1000] initState

/-- C6: `Dispatch` at guest address `pc` under mode `msr` returns the `normalEntry` of a
live block whose `effectiveAddress` equals `pc` and whose stored mode bits equal
`msr & JIT_CACHE_MSR_MASK` — found in the fast-map slot at `(pc >> 2) & mask` or via the
exact-match store lookup, which installs the block in that slot — and returns not-found
when no such block exists.  In the concrete scenario, after compiling at
effective = physical = 0x1000 under mode 0, dispatch at 0x1000 under mode 0 returns the
block's normalEntry 7, and under the different mode 0x10 returns not-found. -/
theorem C6_dispatch (tr : Nat → TranslateResult) (pc msr : Nat) (st : CacheState)
    (hnd : (st.block_map.map Prod.fst).Nodup) :
    (∀ entry st1, Dispatch tr pc msr st = (some entry, st1) →
      ∃ p : Nat × JitBlock, p ∈ st1.block_map ∧ p.2.effectiveAddress = pc ∧
        p.2.msrBits = msr &&& JIT_CACHE_MSR_MASK ∧ p.2.normalEntry = entry ∧
        st1.fast_block_map (FastLookupIndexForAddress pc) = some p.1) ∧
    ((∀ p : Nat × JitBlock, p ∈ st.block_map →
        ¬(p.2.effectiveAddress = pc ∧ p.2.msrBits = msr &&& JIT_CACHE_MSR_MASK)) →
      (Dispatch tr pc msr st).1 = none) ∧
    ((Dispatch trIdent 0x1000 0 c6State).1 = some 7 ∧
      (Dispatch trIdent 0x1000 0x10 c6State).1 = none) :=
  ⟨fun _ _ h => Dispatch_some hnd h, fun hno => Dispatch_none_of_no_match hno,
    by decide, by decide⟩

/-- Witness for C6: the scenario instance, with the nodup hypothesis discharged on the
concrete state. -/
theorem C6_dispatch_witness :
    (Dispatch trIdent 0x1000 0 c6State).1 = some 7 ∧
      (Dispatch trIdent 0x1000 0x10 c6State).1 = none :=
  (C6_dispatch trIdent 0x1000 0 c6State (by decide)).2.2

/-! ### List and bucket infrastructure for the state invariant -/

/-- Lookup distributes over the `emplace` of a new entry at the end. -/
theorem assocLookup_append (l : List (Nat × JitBlock)) (n : Nat) (nb : JitBlock) (c : Nat) :
    assocLookup (l ++ [(n, nb)]) c =
      match assocLookup l c with
      | some b => some b
      | none => if n = c then some nb else none := by
  induction l with
  | nil => rfl
  | cons a rest ih =>
    by_cases ha : a.1 = c
    · have h1 : assocLookup ((a :: rest) ++ [(n, nb)]) c = some a.2 := by
        show (if a.1 = c then some a.2 else _) = _
        rw [if_pos ha]
      have h2 : assocLookup (a :: rest) c = some a.2 := by
        show (if a.1 = c then some a.2 else _) = _
        rw [if_pos ha]
      rw [h1, h2]
    · have h1 : assocLookup ((a :: rest) ++ [(n, nb)]) c =
          assocLookup (rest ++ [(n, nb)]) c := by
        show (if a.1 = c then some a.2 else _) = _
        rw [if_neg ha]
        rfl
      have h2 : assocLookup (a :: rest) c = assocLookup rest c := by
        show (if a.1 = c then some a.2 else _) = _
        rw [if_neg ha]
      rw [h1, h2, ih]

/-- Lookup fails exactly on ids that are not stored. -/
theorem assocLookup_eq_none_iff (l : List (Nat × JitBlock)) (c : Nat) :
    assocLookup l c = none ↔ c ∉ l.map Prod.fst := by
  induction l with
  | nil => simp [assocLookup]
  | cons a rest ih =>
    show (if a.1 = c then some a.2 else assocLookup rest c) = none ↔ _
    by_cases ha : a.1 = c
    · rw [if_pos ha]
      simp [ha]
    · rw [if_neg ha, ih]
      simp only [List.map_cons, List.mem_cons, not_or]
      exact ⟨fun h => ⟨fun he => ha he.symm, h⟩, fun h => h.2⟩

/-- An entry-rewriting map that touches no stored id is the identity. -/
theorem map_update_id (l : List (Nat × JitBlock)) (bid : Nat) (f : JitBlock → JitBlock)
    (h : ∀ p ∈ l, p.1 ≠ bid) :
    (l.map fun e => if e.1 = bid then (e.1, f e.2) else e) = l := by
  induction l with
  | nil => rfl
  | cons a rest ih =>
    rw [List.map_cons, if_neg (h a (List.mem_cons_self a rest)), ih]
    intro p hp
    exact h p (List.mem_cons_of_mem a hp)

/-- Erasure of one entry never affects lookups of other ids. -/
theorem assocLookup_eraseP_ne (l : List (Nat × JitBlock)) (bid c : Nat) (h : c ≠ bid) :
    assocLookup (l.eraseP fun e => e.1 == bid) c = assocLookup l c := by
  induction l with
  | nil => rfl
  | cons a rest ih =>
    by_cases hab : a.1 = bid
    · rw [List.eraseP_cons_of_pos (by simpa using hab)]
      show _ = if a.1 = c then some a.2 else assocLookup rest c
      rw [if_neg (fun he => h (he.symm.trans hab))]
    · rw [List.eraseP_cons_of_neg (by simpa using hab)]
      show (if a.1 = c then some a.2 else assocLookup (rest.eraseP fun e => e.1 == bid) c)
        = if a.1 = c then some a.2 else assocLookup rest c
      by_cases hac : a.1 = c
      · rw [if_pos hac, if_pos hac]
      · rw [if_neg hac, if_neg hac, ih]

/-- With distinct ids, erasing the entry of an id makes its lookup fail. -/
theorem assocLookup_eraseP_self (l : List (Nat × JitBlock)) (bid : Nat)
    (hnd : (l.map Prod.fst).Nodup) :
    assocLookup (l.eraseP fun e => e.1 == bid) bid = none := by
  induction l with
  | nil => rfl
  | cons a rest ih =>
    rw [List.map_cons, List.nodup_cons] at hnd
    by_cases hab : a.1 = bid
    · rw [List.eraseP_cons_of_pos (by simpa using hab)]
      rw [assocLookup_eq_none_iff]
      intro hmem
      exact hnd.1 (hab ▸ hmem)
    · rw [List.eraseP_cons_of_neg (by simpa using hab)]
      show (if a.1 = bid then some a.2 else _) = none
      rw [if_neg hab]
      exact ih hnd.2

/-- The ids of the erased store form a sublist of the original ids. -/
theorem eraseP_ids_sublist (l : List (Nat × JitBlock)) (bid : Nat) :
    ((l.eraseP fun e => e.1 == bid).map Prod.fst).Sublist (l.map Prod.fst) :=
  (List.eraseP_sublist l).map Prod.fst

/-- Membership in a bucket after a set insertion. -/
theorem mem_setInsert (l : List Nat) (x c : Nat) :
    c ∈ setInsert l x ↔ c ∈ l ∨ c = x := by
  unfold setInsert
  split
  · rename_i hx
    constructor
    · exact fun h => Or.inl h
    · rintro (h | rfl)
      · exact h
      · exact hx
  · simp

/-- Membership in a bucket after a set erasure. -/
theorem mem_setErase (l : List Nat) (x c : Nat) :
    c ∈ setErase l x ↔ c ∈ l ∧ c ≠ x := by
  unfold setErase
  simp [List.mem_filter]

/-! ### The reachable-state invariant -/

/-- Ids are distinct and bounded by the id supply. -/
def IdsOk (st : CacheState) : Prop :=
  (st.block_map.map Prod.fst).Nodup ∧ ∀ p ∈ st.block_map, p.1 < st.next_id

/-- Every stored block's mode bits are already masked. -/
def MsrMasked (st : CacheState) : Prop :=
  ∀ p ∈ st.block_map, p.2.msrBits &&& JIT_CACHE_MSR_MASK = p.2.msrBits

/-- Every occupied fast-map slot points back: its occupant is live, stores this slot as
its `fast_block_map_index`, and the slot is the hash of its effective address. -/
def FastConsistent (st : CacheState) : Prop :=
  ∀ i bid, st.fast_block_map i = some bid →
    ∃ b, blockLookup st bid = some b ∧ b.fast_block_map_index = i ∧
      i = FastLookupIndexForAddress b.effectiveAddress

/-- Every `links_to` bucket member is live and has an exit targeting the bucket key. -/
def LinksLive (st : CacheState) : Prop :=
  ∀ t bid, bid ∈ st.links_to t →
    ∃ b, blockLookup st bid = some b ∧ ∃ e ∈ b.linkData, e.exitAddress = t

/-- Registration is all-or-nothing: a block recorded in any `links_to` bucket is recorded
in the buckets of all of its exit targets. -/
def LinksAll (st : CacheState) : Prop :=
  ∀ t bid, bid ∈ st.links_to t → ∀ b, blockLookup st bid = some b →
    ∀ e ∈ b.linkData, bid ∈ st.links_to e.exitAddress

/-- A linked exit of a live block is registered under its target. -/
def StatusReg (st : CacheState) : Prop :=
  ∀ bid b, blockLookup st bid = some b → ∀ e ∈ b.linkData,
    e.linkStatus = true → bid ∈ st.links_to e.exitAddress

/-- A patched (non-trampoline) branch site of a live block has its linked flag set. -/
def PatchReg (st : CacheState) : Prop :=
  ∀ bid b, blockLookup st bid = some b → ∀ e ∈ b.linkData,
    e.patchedTo ≠ none → e.linkStatus = true

/-- Every range-map bucket member is live and has a footprint address in the bucket. -/
def RangeLive (st : CacheState) : Prop :=
  ∀ k bid, bid ∈ st.block_range_map k →
    ∃ b, blockLookup st bid = some b ∧ ∃ p ∈ b.physical_addresses, rangeAlign p = k

/-- Every live block is recorded in the range-map bucket of each footprint address. -/
def RangeCover (st : CacheState) : Prop :=
  ∀ bid b, blockLookup st bid = some b → ∀ p ∈ b.physical_addresses,
    bid ∈ st.block_range_map (rangeAlign p)

/-- The inductive invariant of the cache, holding in every reachable state. -/
structure CacheInv (st : CacheState) : Prop where
  ids : IdsOk st
  msr : MsrMasked st
  fastc : FastConsistent st
  linksLive : LinksLive st
  linksAll : LinksAll st
  statusReg : StatusReg st
  patchReg : PatchReg st
  rangeLive : RangeLive st
  rangeCover : RangeCover st

/-- Identity of a block up to link flags and branch-site contents: everything except
`linkData` agrees, and the exit targets agree position-wise. -/
def BlockShape (b b' : JitBlock) : Prop :=
  b'.effectiveAddress = b.effectiveAddress ∧ b'.physicalAddress = b.physicalAddress ∧
    b'.msrBits = b.msrBits ∧ b'.physical_addresses = b.physical_addresses ∧
    b'.fast_block_map_index = b.fast_block_map_index ∧
    b'.linkData.map (·.exitAddress) = b.linkData.map (·.exitAddress)

theorem BlockShape_refl (b : JitBlock) : BlockShape b b :=
  ⟨rfl, rfl, rfl, rfl, rfl, rfl⟩

theorem BlockShape_trans {a b c : JitBlock} (h1 : BlockShape a b) (h2 : BlockShape b c) :
    BlockShape a c :=
  ⟨h2.1.trans h1.1, h2.2.1.trans h1.2.1, h2.2.2.1.trans h1.2.2.1,
    h2.2.2.2.1.trans h1.2.2.2.1, h2.2.2.2.2.1.trans h1.2.2.2.2.1,
    h2.2.2.2.2.2.trans h1.2.2.2.2.2⟩

/-- A state transformation of the "link phase" kind: only link flags and branch sites of
stored blocks change; every index structure and the id list are untouched. -/
def LinkPhase (st st' : CacheState) : Prop :=
  st'.next_id = st.next_id ∧ st'.fast_block_map = st.fast_block_map ∧
    st'.links_to = st.links_to ∧ st'.block_range_map = st.block_range_map ∧
    st'.block_map.map Prod.fst = st.block_map.map Prod.fst ∧
    ∀ c b', blockLookup st' c = some b' →
      ∃ b, blockLookup st c = some b ∧ BlockShape b b'

theorem LinkPhase_refl (st : CacheState) : LinkPhase st st :=
  ⟨rfl, rfl, rfl, rfl, rfl, fun _ b' h => ⟨b', h, BlockShape_refl b'⟩⟩

theorem LinkPhase_trans {s1 s2 s3 : CacheState} (h1 : LinkPhase s1 s2)
    (h2 : LinkPhase s2 s3) : LinkPhase s1 s3 := by
  obtain ⟨a1, a2, a3, a4, a5, a6⟩ := h1
  obtain ⟨b1, b2, b3, b4, b5, b6⟩ := h2
  refine ⟨b1.trans a1, b2.trans a2, b3.trans a3, b4.trans a4, b5.trans a5, ?_⟩
  intro c b' h
  obtain ⟨bm, hm, hs⟩ := b6 c b' h
  obtain ⟨b0, h0, hs0⟩ := a6 c bm hm
  exact ⟨b0, h0, BlockShape_trans hs0 hs⟩

/-- An exit transformation of `LinkBlockExits` preserves the exit target. -/
theorem linkTransform_exitAddress (tr : Nat → TranslateResult) (s : CacheState)
    (msrBits : Nat) (e : JitBlockLinkData) :
    (if e.linkStatus = false then
        match GetBlockFromStartAddress tr s e.exitAddress msrBits with
        | some (did, _) => { WriteLinkBlock e (some did) with linkStatus := true }
        | none => e
      else e).exitAddress = e.exitAddress := by
  split
  · split
    · rfl
    · rfl
  · rfl

/-- `LinkBlockExits` is a link-phase transformation. -/
theorem LinkBlockExits_linkPhase (tr : Nat → TranslateResult) (st : CacheState)
    (bid : Nat) : LinkPhase st (LinkBlockExits tr st bid) := by
  unfold LinkBlockExits
  split
  · exact LinkPhase_refl st
  · rename_i b hb
    refine ⟨rfl, rfl, rfl, rfl, updateBlock_ids st bid _, ?_⟩
    intro c b' h
    rw [blockLookup_updateBlock] at h
    by_cases hc : c = bid
    · rw [if_pos hc] at h
      cases hlk : blockLookup st c with
      | none => rw [hlk] at h; simp at h
      | some b0 =>
        rw [hlk] at h
        simp only [Option.map_some] at h
        obtain rfl := Option.some.inj h
        refine ⟨b0, rfl, rfl, rfl, rfl, rfl, rfl, ?_⟩
        dsimp only
        rw [List.map_map]
        apply List.map_congr_left
        intro e _
        exact linkTransform_exitAddress tr st b.msrBits e
    · rw [if_neg hc] at h
      exact ⟨b', h, BlockShape_refl b'⟩

/-- A stored id can be dereferenced. -/
theorem blockLookup_exists_of_mem_ids {st : CacheState} {bid : Nat}
    (h : bid ∈ st.block_map.map Prod.fst) : ∃ b, blockLookup st bid = some b := by
  cases hl : blockLookup st bid with
  | none => exact absurd h ((assocLookup_eq_none_iff st.block_map bid).mp hl)
  | some b => exact ⟨b, rfl⟩

/-- An `updateBlock` whose transformation preserves the block shape is a link-phase
transformation. -/
theorem updateBlock_linkPhase (st : CacheState) (bid : Nat) (f : JitBlock → JitBlock)
    (hf : ∀ b, BlockShape b (f b)) : LinkPhase st (updateBlock st bid f) := by
  refine ⟨rfl, rfl, rfl, rfl, updateBlock_ids st bid f, ?_⟩
  intro c b' h
  rw [blockLookup_updateBlock] at h
  by_cases hc : c = bid
  · rw [if_pos hc] at h
    cases hlk : blockLookup st c with
    | none => rw [hlk] at h; simp at h
    | some b0 =>
      rw [hlk] at h
      obtain rfl : f b0 = b' := by simpa using h
      exact ⟨b0, rfl, hf b0⟩
  · rw [if_neg hc] at h
    exact ⟨b', h, BlockShape_refl b'⟩

/-- `UnlinkBlock` is a link-phase transformation. -/
theorem UnlinkBlock_linkPhase (st : CacheState) (bid : Nat) :
    LinkPhase st (UnlinkBlock st bid) := by
  unfold UnlinkBlock
  split
  · exact LinkPhase_refl st
  · rename_i b hb
    refine foldl_preserves (fun s => LinkPhase st s) _ ?_ _ _ ?_
    · intro s a hs
      cases hl : blockLookup s a with
      | none => exact hs
      | some sbb =>
        simp only [hl]
        split
        · exact hs
        · refine LinkPhase_trans hs (updateBlock_linkPhase s a _ ?_)
          intro b0
          refine ⟨rfl, rfl, rfl, rfl, rfl, ?_⟩
          dsimp only
          rw [List.map_map]
          apply List.map_congr_left
          intro e _
          dsimp only [Function.comp]
          split
          · rfl
          · rfl
    · refine updateBlock_linkPhase st bid _ ?_
      intro b0
      refine ⟨rfl, rfl, rfl, rfl, rfl, ?_⟩
      dsimp only
      rw [List.map_map]
      apply List.map_congr_left
      intro e _
      rfl

/-- `LinkBlock` is a link-phase transformation. -/
theorem LinkBlock_linkPhase (tr : Nat → TranslateResult) (st : CacheState) (bid : Nat) :
    LinkPhase st (LinkBlock tr st bid) := by
  unfold LinkBlock
  have h1 := LinkBlockExits_linkPhase tr st bid
  split
  · exact h1
  · refine foldl_preserves (fun s => LinkPhase st s) _ ?_ _ _ h1
    intro s a hs
    cases hl : blockLookup s a with
    | none => exact hs
    | some bb =>
      simp only [hl]
      split
      · exact LinkPhase_trans hs (LinkBlockExits_linkPhase tr s a)
      · exact hs

/-- A link-phase transformation that keeps linked exits registered and patched exits
flagged preserves the whole invariant. -/
theorem CacheInv_of_linkPhase {st st' : CacheState} (hlp : LinkPhase st st')
    (hstatus : StatusReg st') (hpatch : PatchReg st') (hinv : CacheInv st) :
    CacheInv st' := by
  obtain ⟨hnext, hfast, hlinks, hrange, hids, hcorr⟩ := hlp
  have hnd' : (st'.block_map.map Prod.fst).Nodup := by rw [hids]; exact hinv.ids.1
  have hlkex : ∀ bid b, blockLookup st bid = some b →
      ∃ b', blockLookup st' bid = some b' ∧ BlockShape b b' := by
    intro bid b hb
    have hmem : bid ∈ st'.block_map.map Prod.fst := by
      rw [hids]
      exact List.mem_map.mpr ⟨(bid, b), blockLookup_some_mem hb, rfl⟩
    obtain ⟨b', hb'⟩ := blockLookup_exists_of_mem_ids hmem
    obtain ⟨b0, hb0, hs⟩ := hcorr bid b' hb'
    rw [hb] at hb0
    cases hb0
    exact ⟨b', hb', hs⟩
  refine ⟨⟨hnd', ?_⟩, ?_, ?_, ?_, ?_, hstatus, hpatch, ?_, ?_⟩
  · intro p hp
    have hmem : p.1 ∈ st.block_map.map Prod.fst := by
      rw [← hids]
      exact List.mem_map.mpr ⟨p, hp, rfl⟩
    obtain ⟨q, hq, hq1⟩ := List.mem_map.mp hmem
    rw [hnext, ← hq1]
    exact hinv.ids.2 q hq
  · intro p hp
    have hlk : blockLookup st' p.1 = some p.2 := assocLookup_of_mem_nodup hnd' hp
    obtain ⟨b, hb, hs⟩ := hcorr p.1 p.2 hlk
    rw [hs.2.2.1]
    exact hinv.msr (p.1, b) (blockLookup_some_mem hb)
  · intro i bid h
    rw [hfast] at h
    obtain ⟨b, hb, hidx, hhash⟩ := hinv.fastc i bid h
    obtain ⟨b', hb', hs⟩ := hlkex bid b hb
    exact ⟨b', hb', hs.2.2.2.2.1.trans hidx, by rw [hs.1]; exact hhash⟩
  · intro t bid h
    rw [hlinks] at h
    obtain ⟨b, hb, e, he, het⟩ := hinv.linksLive t bid h
    obtain ⟨b', hb', hs⟩ := hlkex bid b hb
    have : t ∈ b'.linkData.map (·.exitAddress) := by
      rw [hs.2.2.2.2.2]
      exact List.mem_map.mpr ⟨e, he, het⟩
    obtain ⟨e', he', het'⟩ := List.mem_map.mp this
    exact ⟨b', hb', e', he', het'⟩
  · intro t bid h b' hb' e' he'
    rw [hlinks] at h
    obtain ⟨b, hb, hs⟩ := hcorr bid b' hb'
    have : e'.exitAddress ∈ b.linkData.map (·.exitAddress) := by
      rw [← hs.2.2.2.2.2]
      exact List.mem_map.mpr ⟨e', he', rfl⟩
    obtain ⟨e, he, het⟩ := List.mem_map.mp this
    rw [hlinks, ← het]
    exact hinv.linksAll t bid h b hb e he
  · intro k bid h
    rw [hrange] at h
    obtain ⟨b, hb, p, hp, hpk⟩ := hinv.rangeLive k bid h
    obtain ⟨b', hb', hs⟩ := hlkex bid b hb
    exact ⟨b', hb', p, by rw [hs.2.2.2.1]; exact hp, hpk⟩
  · intro bid b' hb' p hp
    obtain ⟨b, hb, hs⟩ := hcorr bid b' hb'
    rw [hrange]
    exact hinv.rangeCover bid b hb p (by rw [← hs.2.2.2.1]; exact hp)

/-- Fold preservation with membership of the element in the folded list. -/
theorem foldl_preserves_mem {α σ : Type} (P : σ → Prop) (step : σ → α → σ)
    (l : List α) (h : ∀ s a, a ∈ l → P s → P (step s a)) :
    ∀ s, P s → P (l.foldl step s) := by
  induction l with
  | nil => intro s hs; exact hs
  | cons a rest ih =>
    intro s hs
    exact ih (fun s' a' ha' hs' => h s' a' (List.mem_cons_of_mem a ha') hs') _
      (h s a (List.mem_cons_self a rest) hs)

/-- All-or-nothing registration transfers along a link-phase transformation. -/
theorem LinksAll_of_linkPhase {st st' : CacheState} (hlp : LinkPhase st st')
    (h : LinksAll st) : LinksAll st' := by
  obtain ⟨_, _, hlinks, _, _, hcorr⟩ := hlp
  intro t bid hmem b' hb' e' he'
  rw [hlinks] at hmem
  obtain ⟨b, hb, hs⟩ := hcorr bid b' hb'
  have : e'.exitAddress ∈ b.linkData.map (·.exitAddress) := by
    rw [← hs.2.2.2.2.2]
    exact List.mem_map.mpr ⟨e', he', rfl⟩
  obtain ⟨e, he, het⟩ := List.mem_map.mp this
  rw [hlinks, ← het]
  exact h t bid hmem b hb e he

/-- Blocks recorded anywhere in the link graph are registered at all their targets. -/
def RegOk (st : CacheState) (bid : Nat) : Prop :=
  ∀ b, blockLookup st bid = some b → ∀ e ∈ b.linkData, bid ∈ st.links_to e.exitAddress

/-- Status registration survives an `updateBlock` whose transformation keeps newly or
still linked exits registered. -/
theorem updateBlock_statusReg (st : CacheState) (bid : Nat) (f : JitBlock → JitBlock)
    (hst : StatusReg st)
    (hf : ∀ b, blockLookup st bid = some b → ∀ e' ∈ (f b).linkData,
      e'.linkStatus = true → bid ∈ st.links_to e'.exitAddress) :
    StatusReg (updateBlock st bid f) := by
  intro c b' hlk' e' he' hes
  rw [blockLookup_updateBlock] at hlk'
  by_cases hc : c = bid
  · subst hc
    rw [if_pos rfl] at hlk'
    cases hlk : blockLookup st c with
    | none => rw [hlk] at hlk'; simp at hlk'
    | some b =>
      rw [hlk] at hlk'
      obtain rfl : f b = b' := by simpa using hlk'
      exact hf b hlk e' he' hes
  · rw [if_neg hc] at hlk'
    exact hst c b' hlk' e' he' hes

/-- Patch registration survives an `updateBlock` whose transformation keeps patched
exits flagged. -/
theorem updateBlock_patchReg (st : CacheState) (bid : Nat) (f : JitBlock → JitBlock)
    (hpr : PatchReg st)
    (hf : ∀ b, blockLookup st bid = some b → ∀ e' ∈ (f b).linkData,
      e'.patchedTo ≠ none → e'.linkStatus = true) :
    PatchReg (updateBlock st bid f) := by
  intro c b' hlk' e' he' hep
  rw [blockLookup_updateBlock] at hlk'
  by_cases hc : c = bid
  · subst hc
    rw [if_pos rfl] at hlk'
    cases hlk : blockLookup st c with
    | none => rw [hlk] at hlk'; simp at hlk'
    | some b =>
      rw [hlk] at hlk'
      obtain rfl : f b = b' := by simpa using hlk'
      exact hf b hlk e' he' hep
  · rw [if_neg hc] at hlk'
    exact hpr c b' hlk' e' he' hep

/-- `LinkBlockExits` keeps linked exits registered, provided the block itself is
registered at all its exit targets. -/
theorem LinkBlockExits_statusReg (tr : Nat → TranslateResult) (st : CacheState)
    (bid : Nat) (hst : StatusReg st) (hreg : RegOk st bid) :
    StatusReg (LinkBlockExits tr st bid) := by
  unfold LinkBlockExits
  split
  · exact hst
  · rename_i b hb
    refine updateBlock_statusReg st bid _ hst ?_
    intro b0 hb0 e' he' hes
    obtain ⟨e, he, hge⟩ := List.mem_map.mp he'
    subst hge
    by_cases hstat : e.linkStatus = false
    · rw [if_pos hstat] at hes ⊢
      cases hdest : GetBlockFromStartAddress tr st e.exitAddress b.msrBits with
      | none =>
        rw [hdest] at hes
        exact absurd (show e.linkStatus = true from hes) (by simp [hstat])
      | some q =>
        obtain ⟨did, dd⟩ := q
        show bid ∈ st.links_to e.exitAddress
        exact hreg b0 hb0 e he
    · rw [if_neg hstat] at hes ⊢
      exact hst bid b0 hb0 e he hes

/-- `LinkBlockExits` keeps patched exits flagged. -/
theorem LinkBlockExits_patchReg (tr : Nat → TranslateResult) (st : CacheState)
    (bid : Nat) (hpr : PatchReg st) : PatchReg (LinkBlockExits tr st bid) := by
  unfold LinkBlockExits
  split
  · exact hpr
  · rename_i b hb
    refine updateBlock_patchReg st bid _ hpr ?_
    intro b0 hb0 e' he' hep
    obtain ⟨e, he, hge⟩ := List.mem_map.mp he'
    subst hge
    by_cases hstat : e.linkStatus = false
    · rw [if_pos hstat] at hep ⊢
      cases hdest : GetBlockFromStartAddress tr st e.exitAddress b.msrBits with
      | none =>
        rw [hdest] at hep
        show e.linkStatus = true
        exact hpr bid b0 hb0 e he (show e.patchedTo ≠ none from hep)
      | some q =>
        obtain ⟨did, dd⟩ := q
        rfl
    · rw [if_neg hstat] at hep ⊢
      exact hpr bid b0 hb0 e he hep

/-- `LinkBlock` keeps linked exits registered: its own exits via its registration, other
blocks' exits via their all-or-nothing registration. -/
theorem LinkBlock_statusReg (tr : Nat → TranslateResult) (st : CacheState) (bid : Nat)
    (hst : StatusReg st) (hall : LinksAll st) (hreg : RegOk st bid) :
    StatusReg (LinkBlock tr st bid) := by
  have hx := LinkBlockExits_linkPhase tr st bid
  have hstx : StatusReg (LinkBlockExits tr st bid) :=
    LinkBlockExits_statusReg tr st bid hst hreg
  have hallx : LinksAll (LinkBlockExits tr st bid) := LinksAll_of_linkPhase hx hall
  unfold LinkBlock
  split
  · exact hstx
  · rename_i b hb
    have hfold := foldl_preserves_mem
      (fun s => StatusReg s ∧ LinksAll s ∧ s.links_to = st.links_to)
      (fun s b2 =>
        match blockLookup s b2 with
        | some bb => if b.msrBits = bb.msrBits then LinkBlockExits tr s b2 else s
        | none => s)
      ((LinkBlockExits tr st bid).links_to b.effectiveAddress) ?_
      (LinkBlockExits tr st bid) ⟨hstx, hallx, hx.2.2.1⟩
    · exact hfold.1
    · intro s a ha hs
      dsimp only
      cases hl : blockLookup s a with
      | none => exact hs
      | some bb =>
        simp only [hl]
        split
        · have hmem : a ∈ s.links_to b.effectiveAddress := by
            rw [hs.2.2]
            rw [hx.2.2.1] at ha
            exact ha
          have hrega : RegOk s a := fun b' hb' e he =>
            hs.2.1 b.effectiveAddress a hmem b' hb' e he
          have hlp := LinkBlockExits_linkPhase tr s a
          exact ⟨LinkBlockExits_statusReg tr s a hs.1 hrega,
            LinksAll_of_linkPhase hlp hs.2.1, hlp.2.2.1.trans hs.2.2⟩
        · exact hs

/-- `LinkBlock` keeps patched exits flagged. -/
theorem LinkBlock_patchReg (tr : Nat → TranslateResult) (st : CacheState) (bid : Nat)
    (hpr : PatchReg st) : PatchReg (LinkBlock tr st bid) := by
  have hprx : PatchReg (LinkBlockExits tr st bid) := LinkBlockExits_patchReg tr st bid hpr
  unfold LinkBlock
  split
  · exact hprx
  · rename_i b hb
    refine foldl_preserves (fun s => PatchReg s) _ ?_ _ _ hprx
    intro s a hs
    cases hl : blockLookup s a with
    | none => exact hs
    | some bb =>
      simp only [hl]
      split
      · exact LinkBlockExits_patchReg tr s a hs
      · exact hs

/-- `UnlinkBlock` keeps linked exits registered (no exit ever becomes newly linked, and
the link graph is untouched). -/
theorem UnlinkBlock_statusReg (st : CacheState) (bid : Nat) (hst : StatusReg st) :
    StatusReg (UnlinkBlock st bid) := by
  unfold UnlinkBlock
  split
  · exact hst
  · rename_i b hb
    refine foldl_preserves (fun s => StatusReg s ∧ s.links_to = st.links_to) _ ?_ _ _ ?_
      |>.1
    · intro s a hs
      cases hl : blockLookup s a with
      | none => exact hs
      | some sbb =>
        simp only [hl]
        split
        · exact hs
        · refine ⟨updateBlock_statusReg s a _ hs.1 ?_, hs.2⟩
          intro b0 hb0 e' he' hes
          obtain ⟨e, he, hge⟩ := List.mem_map.mp he'
          subst hge
          by_cases hcond : e.exitAddress = b.effectiveAddress
          · rw [if_pos hcond] at hes
            cases hes
          · rw [if_neg hcond] at hes ⊢
            exact hs.1 a b0 hb0 e he hes
    · refine ⟨updateBlock_statusReg st bid _ hst ?_, rfl⟩
      intro b0 hb0 e' he' hes
      obtain ⟨e, he, hge⟩ := List.mem_map.mp he'
      subst hge
      exact hst bid b0 hb0 e he hes

/-- `UnlinkBlock` keeps patched exits flagged (branch sites are only reset to the
trampoline). -/
theorem UnlinkBlock_patchReg (st : CacheState) (bid : Nat) (hpr : PatchReg st) :
    PatchReg (UnlinkBlock st bid) := by
  unfold UnlinkBlock
  split
  · exact hpr
  · rename_i b hb
    refine foldl_preserves (fun s => PatchReg s) _ ?_ _ _ ?_
    · intro s a hs
      cases hl : blockLookup s a with
      | none => exact hs
      | some sbb =>
        simp only [hl]
        split
        · exact hs
        · refine updateBlock_patchReg s a _ hs ?_
          intro b0 hb0 e' he' hep
          obtain ⟨e, he, hge⟩ := List.mem_map.mp he'
          subst hge
          by_cases hcond : e.exitAddress = b.effectiveAddress
          · rw [if_pos hcond] at hep
            exact absurd rfl hep
          · rw [if_neg hcond] at hep ⊢
            exact hs a b0 hb0 e he hep
    · refine updateBlock_patchReg st bid _ hpr ?_
      intro b0 hb0 e' he' hep
      obtain ⟨e, he, hge⟩ := List.mem_map.mp he'
      subst hge
      exact absurd rfl hep

/-- `CacheInv` is preserved by `LinkBlock` on a fully registered block. -/
theorem CacheInv_LinkBlock {tr : Nat → TranslateResult} {st : CacheState} {bid : Nat}
    (hinv : CacheInv st) (hreg : RegOk st bid) : CacheInv (LinkBlock tr st bid) :=
  CacheInv_of_linkPhase (LinkBlock_linkPhase tr st bid)
    (LinkBlock_statusReg tr st bid hinv.statusReg hinv.linksAll hreg)
    (LinkBlock_patchReg tr st bid hinv.patchReg) hinv

/-- `CacheInv` is preserved by `UnlinkBlock`. -/
theorem CacheInv_UnlinkBlock {st : CacheState} {bid : Nat} (hinv : CacheInv st) :
    CacheInv (UnlinkBlock st bid) :=
  CacheInv_of_linkPhase (UnlinkBlock_linkPhase st bid)
    (UnlinkBlock_statusReg st bid hinv.statusReg)
    (UnlinkBlock_patchReg st bid hinv.patchReg) hinv

/-- Inserting twice is inserting once. -/
theorem setInsert_idem (l : List Nat) (x : Nat) :
    setInsert (setInsert l x) x = setInsert l x := by
  unfold setInsert
  split
  · rfl
  · rw [if_pos (by simp)]

/-- Characterisation of the footprint loop: bucket membership after `setRangeLoop`. -/
theorem setRangeLoop_range (bid : Nat) (fp : List Nat) :
    ∀ (s : CacheState) (k c : Nat),
      (c ∈ (setRangeLoop bid fp s).block_range_map k ↔
        c ∈ s.block_range_map k ∨ (c = bid ∧ ∃ p ∈ fp, rangeAlign p = k)) := by
  induction fp with
  | nil => intro s k c; simp [setRangeLoop]
  | cons p rest ih =>
    intro s k c
    show c ∈ (setRangeLoop bid rest _).block_range_map k ↔ _
    rw [ih]
    by_cases hk : k = rangeAlign p
    · subst hk
      show c ∈ (if rangeAlign p = rangeAlign p then setInsert _ bid else _) ∨ _ ↔ _
      rw [if_pos rfl, mem_setInsert]
      constructor
      · rintro ((h | rfl) | ⟨rfl, q, hq, hqa⟩)
        · exact Or.inl h
        · exact Or.inr ⟨rfl, p, List.mem_cons_self p rest, rfl⟩
        · exact Or.inr ⟨rfl, q, List.mem_cons_of_mem p hq, hqa⟩
      · rintro (h | ⟨rfl, q, hq, hqa⟩)
        · exact Or.inl (Or.inl h)
        · rcases List.mem_cons.mp hq with rfl | hq'
          · exact Or.inl (Or.inr rfl)
          · exact Or.inr ⟨rfl, q, hq', hqa⟩
    · show c ∈ (if k = rangeAlign p then _ else s.block_range_map k) ∨ _ ↔ _
      rw [if_neg hk]
      constructor
      · rintro (h | ⟨rfl, q, hq, hqa⟩)
        · exact Or.inl h
        · exact Or.inr ⟨rfl, q, List.mem_cons_of_mem p hq, hqa⟩
      · rintro (h | ⟨rfl, q, hq, hqa⟩)
        · exact Or.inl h
        · rcases List.mem_cons.mp hq with rfl | hq'
          · exact absurd hqa.symm hk
          · exact Or.inr ⟨rfl, q, hq', hqa⟩

/-- The footprint loop touches only the validity bitmap and the range map. -/
theorem setRangeLoop_fields (bid : Nat) (fp : List Nat) (s : CacheState) :
    (setRangeLoop bid fp s).block_map = s.block_map ∧
      (setRangeLoop bid fp s).next_id = s.next_id ∧
      (setRangeLoop bid fp s).fast_block_map = s.fast_block_map ∧
      (setRangeLoop bid fp s).links_to = s.links_to := by
  refine foldl_preserves
    (fun (t : CacheState) => t.block_map = s.block_map ∧ t.next_id = s.next_id ∧
      t.fast_block_map = s.fast_block_map ∧ t.links_to = s.links_to) _ ?_ fp s
    ⟨rfl, rfl, rfl, rfl⟩
  intro t a ht
  exact ht

/-- Characterisation of the registration loop: bucket membership after
`registerLinksLoop`. -/
theorem registerLinksLoop_links (bid : Nat) (ld : List JitBlockLinkData) :
    ∀ (s : CacheState) (t c : Nat),
      (c ∈ (registerLinksLoop bid ld s).links_to t ↔
        c ∈ s.links_to t ∨ (c = bid ∧ ∃ e ∈ ld, e.exitAddress = t)) := by
  induction ld with
  | nil => intro s t c; simp [registerLinksLoop]
  | cons e rest ih =>
    intro s t c
    show c ∈ (registerLinksLoop bid rest _).links_to t ↔ _
    rw [ih]
    by_cases ht : t = e.exitAddress
    · subst ht
      show c ∈ (if e.exitAddress = e.exitAddress then setInsert _ bid else _) ∨ _ ↔ _
      rw [if_pos rfl, mem_setInsert]
      constructor
      · rintro ((h | rfl) | ⟨rfl, q, hq, hqa⟩)
        · exact Or.inl h
        · exact Or.inr ⟨rfl, e, List.mem_cons_self e rest, rfl⟩
        · exact Or.inr ⟨rfl, q, List.mem_cons_of_mem e hq, hqa⟩
      · rintro (h | ⟨rfl, q, hq, hqa⟩)
        · exact Or.inl (Or.inl h)
        · rcases List.mem_cons.mp hq with rfl | hq'
          · exact Or.inl (Or.inr rfl)
          · exact Or.inr ⟨rfl, q, hq', hqa⟩
    · show c ∈ (if t = e.exitAddress then _ else s.links_to t) ∨ _ ↔ _
      rw [if_neg ht]
      constructor
      · rintro (h | ⟨rfl, q, hq, hqa⟩)
        · exact Or.inl h
        · exact Or.inr ⟨rfl, q, List.mem_cons_of_mem e hq, hqa⟩
      · rintro (h | ⟨rfl, q, hq, hqa⟩)
        · exact Or.inl h
        · rcases List.mem_cons.mp hq with rfl | hq'
          · exact absurd hqa.symm ht
          · exact Or.inr ⟨rfl, q, hq', hqa⟩

/-- The registration loop touches only the link graph. -/
theorem registerLinksLoop_fields (bid : Nat) (ld : List JitBlockLinkData)
    (s : CacheState) :
    (registerLinksLoop bid ld s).block_map = s.block_map ∧
      (registerLinksLoop bid ld s).next_id = s.next_id ∧
      (registerLinksLoop bid ld s).fast_block_map = s.fast_block_map ∧
      (registerLinksLoop bid ld s).block_range_map = s.block_range_map := by
  refine foldl_preserves
    (fun (t : CacheState) => t.block_map = s.block_map ∧ t.next_id = s.next_id ∧
      t.fast_block_map = s.fast_block_map ∧ t.block_range_map = s.block_range_map)
    _ ?_ ld s ⟨rfl, rfl, rfl, rfl⟩
  intro t a ht
  exact ht

/-- Characterisation of the cleanup loop: bucket membership after `eraseLinksLoop`. -/
theorem eraseLinksLoop_links (bid : Nat) (ld : List JitBlockLinkData) :
    ∀ (s : CacheState) (t c : Nat),
      (c ∈ (eraseLinksLoop bid ld s).links_to t ↔
        c ∈ s.links_to t ∧ ¬(c = bid ∧ ∃ e ∈ ld, e.exitAddress = t)) := by
  induction ld with
  | nil => intro s t c; simp [eraseLinksLoop]
  | cons e rest ih =>
    intro s t c
    show c ∈ (eraseLinksLoop bid rest _).links_to t ↔ _
    rw [ih]
    by_cases ht : t = e.exitAddress
    · subst ht
      show (c ∈ (if e.exitAddress = e.exitAddress then setErase _ bid else _) ∧ _) ↔ _
      rw [if_pos rfl, mem_setErase]
      constructor
      · rintro ⟨⟨h1, h2⟩, h3⟩
        refine ⟨h1, ?_⟩
        rintro ⟨rfl, _, _, _⟩
        exact h2 rfl
      · rintro ⟨h1, h2⟩
        refine ⟨⟨h1, ?_⟩, ?_⟩
        · rintro rfl
          exact h2 ⟨rfl, e, List.mem_cons_self e rest, rfl⟩
        · rintro ⟨rfl, q, hq, hqa⟩
          exact h2 ⟨rfl, q, List.mem_cons_of_mem e hq, hqa⟩
    · show (c ∈ (if t = e.exitAddress then _ else s.links_to t) ∧ _) ↔ _
      rw [if_neg ht]
      constructor
      · rintro ⟨h1, h2⟩
        refine ⟨h1, ?_⟩
        rintro ⟨rfl, q, hq, hqa⟩
        rcases List.mem_cons.mp hq with rfl | hq'
        · exact ht hqa.symm
        · exact h2 ⟨rfl, q, hq', hqa⟩
      · rintro ⟨h1, h2⟩
        refine ⟨h1, ?_⟩
        rintro ⟨rfl, q, hq, hqa⟩
        exact h2 ⟨rfl, q, List.mem_cons_of_mem e hq, hqa⟩

/-- The cleanup loop touches only the link graph. -/
theorem eraseLinksLoop_fields (bid : Nat) (ld : List JitBlockLinkData) (s : CacheState) :
    (eraseLinksLoop bid ld s).block_map = s.block_map ∧
      (eraseLinksLoop bid ld s).next_id = s.next_id ∧
      (eraseLinksLoop bid ld s).fast_block_map = s.fast_block_map ∧
      (eraseLinksLoop bid ld s).block_range_map = s.block_range_map := by
  refine foldl_preserves
    (fun (t : CacheState) => t.block_map = s.block_map ∧ t.next_id = s.next_id ∧
      t.fast_block_map = s.fast_block_map ∧ t.block_range_map = s.block_range_map)
    _ ?_ ld s ⟨rfl, rfl, rfl, rfl⟩
  intro t a ht
  exact ht

/-- Rewriting the fresh entry appended by `AllocateBlock`. -/
theorem map_update_append (l : List (Nat × JitBlock)) (n : Nat) (b : JitBlock)
    (f : JitBlock → JitBlock) (h : ∀ p ∈ l, p.1 ≠ n) :
    ((l ++ [(n, b)]).map fun e => if e.1 = n then (e.1, f e.2) else e) =
      l ++ [(n, f b)] := by
  rw [List.map_append, map_update_id l n f h]
  simp

/-- The block as stored after the full compile sequence (allocation stamping, emitter
output, finalization footprint and fast-slot index). -/
def compiledBlock (tr : Nat → TranslateResult) (msr em : Nat) (emitted : EmitResult)
    (fp : List Nat) : JitBlock where
  effectiveAddress := em
  physicalAddress := (tr em).address
  msrBits := msr &&& JIT_CACHE_MSR_MASK
  physical_addresses := fp
  checkedEntry := emitted.checkedEntry
  normalEntry := emitted.normalEntry
  codeSize := emitted.codeSize
  linkData := emitted.exitAddresses.map fun a =>
    { exitAddress := a, linkStatus := false, patchedTo := none }
  fast_block_map_index := FastLookupIndexForAddress em

/-- The cache state after the compile sequence, before the footprint loop, the link
registration and `LinkBlock`. -/
def compiledPre (tr : Nat → TranslateResult) (msr em : Nat) (emitted : EmitResult)
    (fp : List Nat) (st : CacheState) : CacheState :=
  { st with
    block_map := st.block_map ++ [(st.next_id, compiledBlock tr msr em emitted fp)]
    next_id := st.next_id + 1
    fast_block_map := fun i =>
      if i = FastLookupIndexForAddress em then some st.next_id
      else st.fast_block_map i }

/-- Rewriting `updateBlock` of the freshly appended entry. -/
theorem updateBlock_fresh (s : CacheState) (n : Nat) (b : JitBlock)
    (f : JitBlock → JitBlock) (l : List (Nat × JitBlock)) (hbm : s.block_map = l ++ [(n, b)])
    (h : ∀ p ∈ l, p.1 ≠ n) :
    updateBlock s n f = { s with block_map := l ++ [(n, f b)] } := by
  unfold updateBlock
  rw [hbm, map_update_append l n b f h]

/-- Unfolding of the compile sequence into the explicit post-state (fresh-id store). -/
theorem compileBlock_eq (tr : Nat → TranslateResult) (msr em : Nat)
    (emitted : EmitResult) (block_link : Bool) (fp : List Nat) (st : CacheState)
    (hne : ∀ p ∈ st.block_map, p.1 ≠ st.next_id) :
    compileBlock tr msr em emitted block_link fp st =
      if block_link then
        LinkBlock tr
          (registerLinksLoop st.next_id
            (emitted.exitAddresses.map fun a =>
              { exitAddress := a, linkStatus := false, patchedTo := none })
            (setRangeLoop st.next_id fp (compiledPre tr msr em emitted fp st)))
          st.next_id
      else setRangeLoop st.next_id fp (compiledPre tr msr em emitted fp st) := by
  have hnotin : st.next_id ∉ st.block_map.map Prod.fst := by
    intro h
    obtain ⟨p, hp, hp1⟩ := List.mem_map.mp h
    exact hne p hp hp1
  have h1 : compileBlock tr msr em emitted block_link fp st =
      FinalizeBlock tr
        { st with
          block_map := st.block_map ++
            [(st.next_id,
              { effectiveAddress := em
                physicalAddress := (tr em).address
                msrBits := msr &&& JIT_CACHE_MSR_MASK
                physical_addresses := []
                checkedEntry := emitted.checkedEntry
                normalEntry := emitted.normalEntry
                codeSize := emitted.codeSize
                linkData := emitted.exitAddresses.map fun a =>
                  { exitAddress := a, linkStatus := false, patchedTo := none }
                fast_block_map_index := 0 })]
          next_id := st.next_id + 1 }
        st.next_id block_link fp := by
    unfold compileBlock AllocateBlock
    dsimp only
    rw [updateBlock_fresh _ st.next_id _ _ st.block_map rfl hne]
  rw [h1]
  unfold FinalizeBlock
  rw [show blockLookup
      { st with
        block_map := st.block_map ++
          [(st.next_id,
            ({ effectiveAddress := em
               physicalAddress := (tr em).address
               msrBits := msr &&& JIT_CACHE_MSR_MASK
               physical_addresses := []
               checkedEntry := emitted.checkedEntry
               normalEntry := emitted.normalEntry
               codeSize := emitted.codeSize
               linkData := emitted.exitAddresses.map fun a =>
                 { exitAddress := a, linkStatus := false, patchedTo := none }
               fast_block_map_index := 0 } : JitBlock))]
        next_id := st.next_id + 1 } st.next_id =
      some
        { effectiveAddress := em
          physicalAddress := (tr em).address
          msrBits := msr &&& JIT_CACHE_MSR_MASK
          physical_addresses := []
          checkedEntry := emitted.checkedEntry
          normalEntry := emitted.normalEntry
          codeSize := emitted.codeSize
          linkData := emitted.exitAddresses.map fun a =>
            { exitAddress := a, linkStatus := false, patchedTo := none }
          fast_block_map_index := 0 }
    from by
      show assocLookup (st.block_map ++ [_]) st.next_id = _
      rw [assocLookup_append, (assocLookup_eq_none_iff _ _).mpr hnotin, if_pos rfl]]
  dsimp only
  rw [updateBlock_fresh _ st.next_id _ _ st.block_map rfl hne]
  rfl

/-- The invariant survives the compile sequence up to (and without) link registration. -/
theorem CacheInv_compiledRange (tr : Nat → TranslateResult) (msr em : Nat)
    (emitted : EmitResult) (fp : List Nat) {st : CacheState} (hinv : CacheInv st) :
    CacheInv (setRangeLoop st.next_id fp (compiledPre tr msr em emitted fp st)) := by
  have hnotin : st.next_id ∉ st.block_map.map Prod.fst := by
    intro h
    obtain ⟨p, hp, hp1⟩ := List.mem_map.mp h
    exact absurd (hp1 ▸ hinv.ids.2 p hp) (lt_irrefl _)
  obtain ⟨hbm, hnext, hfast, hlinks⟩ :=
    setRangeLoop_fields st.next_id fp (compiledPre tr msr em emitted fp st)
  have hbm' : (setRangeLoop st.next_id fp (compiledPre tr msr em emitted fp st)).block_map
      = st.block_map ++ [(st.next_id, compiledBlock tr msr em emitted fp)] := hbm
  have hnext' :
      (setRangeLoop st.next_id fp (compiledPre tr msr em emitted fp st)).next_id =
        st.next_id + 1 := hnext
  have hfast' :
      (setRangeLoop st.next_id fp (compiledPre tr msr em emitted fp st)).fast_block_map =
        fun i => if i = FastLookupIndexForAddress em then some st.next_id
          else st.fast_block_map i := hfast
  have hlinks' :
      (setRangeLoop st.next_id fp (compiledPre tr msr em emitted fp st)).links_to =
        st.links_to := hlinks
  have hlkN : ∀ c,
      blockLookup (setRangeLoop st.next_id fp (compiledPre tr msr em emitted fp st)) c =
        match blockLookup st c with
        | some b => some b
        | none => if st.next_id = c then some (compiledBlock tr msr em emitted fp) else none := by
    intro c
    show assocLookup _ c = _
    rw [hbm']
    exact assocLookup_append _ _ _ _
  have hlk_none : blockLookup st st.next_id = none :=
    (assocLookup_eq_none_iff _ _).mpr hnotin
  have hlk_new :
      blockLookup (setRangeLoop st.next_id fp (compiledPre tr msr em emitted fp st))
        st.next_id = some (compiledBlock tr msr em emitted fp) := by
    rw [hlkN _, hlk_none]
    show (if st.next_id = st.next_id then _ else none) = _
    rw [if_pos rfl]
  have hlk_old : ∀ {c b}, blockLookup st c = some b →
      blockLookup (setRangeLoop st.next_id fp (compiledPre tr msr em emitted fp st)) c
        = some b := by
    intro c b h
    rw [hlkN c, h]
  have hlk_inv : ∀ {c b},
      blockLookup (setRangeLoop st.next_id fp (compiledPre tr msr em emitted fp st)) c
        = some b →
      (c = st.next_id ∧ b = compiledBlock tr msr em emitted fp) ∨
        blockLookup st c = some b := by
    intro c b h
    rw [hlkN c] at h
    cases hc : blockLookup st c with
    | none =>
      rw [hc] at h
      by_cases hcn : st.next_id = c
      · refine Or.inl ⟨hcn.symm, ?_⟩
        have : (if st.next_id = c then some (compiledBlock tr msr em emitted fp) else none)
            = some b := h
        rw [if_pos hcn] at this
        exact (Option.some.inj this).symm
      · have : (if st.next_id = c then some (compiledBlock tr msr em emitted fp) else none)
            = some b := h
        rw [if_neg hcn] at this
        cases this
    | some b0 =>
      rw [hc] at h
      obtain rfl : b0 = b := Option.some.inj h
      exact Or.inr rfl
  have hold_ne : ∀ {c b}, blockLookup st c = some b → c ≠ st.next_id := by
    intro c b h he
    subst he
    rw [hlk_none] at h
    cases h
  have hrange : ∀ k c,
      (c ∈ (setRangeLoop st.next_id fp
          (compiledPre tr msr em emitted fp st)).block_range_map k ↔
        c ∈ st.block_range_map k ∨ (c = st.next_id ∧ ∃ p ∈ fp, rangeAlign p = k)) := by
    intro k c
    exact setRangeLoop_range st.next_id fp (compiledPre tr msr em emitted fp st) k c
  refine ⟨⟨?_, ?_⟩, ?_, ?_, ?_, ?_, ?_, ?_, ?_, ?_⟩
  · rw [hbm', List.map_append, List.nodup_append]
    exact ⟨hinv.ids.1, List.nodup_singleton _, by
      intro a ha hb
      simp only [List.map_cons, List.map_nil, List.mem_singleton] at hb
      exact absurd (hb ▸ ha) hnotin⟩
  · intro p hp
    rw [hbm'] at hp
    rw [hnext']
    rcases List.mem_append.mp hp with h | h
    · exact Nat.lt_succ_of_lt (hinv.ids.2 p h)
    · simp only [List.mem_singleton] at h
      subst h
      exact Nat.lt_succ_self _
  · intro p hp
    rw [hbm'] at hp
    rcases List.mem_append.mp hp with h | h
    · exact hinv.msr p h
    · simp only [List.mem_singleton] at h
      subst h
      exact mask_idem msr
  · intro i bid h
    rw [hfast'] at h
    dsimp only at h
    by_cases hi : i = FastLookupIndexForAddress em
    · rw [if_pos hi] at h
      obtain rfl := Option.some.inj h
      exact ⟨compiledBlock tr msr em emitted fp, hlk_new, by rw [hi]; rfl, by rw [hi]; rfl⟩
    · rw [if_neg hi] at h
      obtain ⟨b, hb, hidx, hhash⟩ := hinv.fastc i bid h
      exact ⟨b, hlk_old hb, hidx, hhash⟩
  · intro t bid h
    rw [hlinks'] at h
    obtain ⟨b, hb, e, he, het⟩ := hinv.linksLive t bid h
    exact ⟨b, hlk_old hb, e, he, het⟩
  · intro t bid h b' hb' e' he'
    rw [hlinks'] at h
    rw [hlinks']
    rcases hlk_inv hb' with ⟨rfl, rfl⟩ | hb0
    · obtain ⟨b0, hb0, _⟩ := hinv.linksLive t st.next_id h
      rw [hlk_none] at hb0
      cases hb0
    · exact hinv.linksAll t bid h b' hb0 e' he'
  · intro bid b hb e he hes
    rw [hlinks']
    rcases hlk_inv hb with ⟨rfl, rfl⟩ | hb0
    · obtain ⟨a, ha, hae⟩ := List.mem_map.mp he
      rw [← hae] at hes
      cases hes
    · exact hinv.statusReg bid b hb0 e he hes
  · intro bid b hb e he hep
    rcases hlk_inv hb with ⟨rfl, rfl⟩ | hb0
    · obtain ⟨a, ha, hae⟩ := List.mem_map.mp he
      rw [← hae] at hep
      exact absurd rfl hep
    · exact hinv.patchReg bid b hb0 e he hep
  · intro k bid h
    rcases (hrange k bid).mp h with h0 | ⟨rfl, p, hp, hpa⟩
    · obtain ⟨b, hb, p, hp, hpa⟩ := hinv.rangeLive k bid h0
      exact ⟨b, hlk_old hb, p, hp, hpa⟩
    · exact ⟨compiledBlock tr msr em emitted fp, hlk_new, p, hp, hpa⟩
  · intro bid b hb p hp
    rcases hlk_inv hb with ⟨rfl, rfl⟩ | hb0
    · exact (hrange _ _).mpr (Or.inr ⟨rfl, p, hp, rfl⟩)
    · exact (hrange _ _).mpr (Or.inl (hinv.rangeCover bid b hb0 p hp))

/-- The invariant survives exit registration of the new block, which is then fully
registered. -/
theorem CacheInv_compiledReg (tr : Nat → TranslateResult) (msr em : Nat)
    (emitted : EmitResult) (fp : List Nat) {st : CacheState} (hinv : CacheInv st) :
    CacheInv (registerLinksLoop st.next_id
        (emitted.exitAddresses.map fun a =>
          { exitAddress := a, linkStatus := false, patchedTo := none })
        (setRangeLoop st.next_id fp (compiledPre tr msr em emitted fp st))) ∧
      RegOk (registerLinksLoop st.next_id
        (emitted.exitAddresses.map fun a =>
          { exitAddress := a, linkStatus := false, patchedTo := none })
        (setRangeLoop st.next_id fp (compiledPre tr msr em emitted fp st)))
        st.next_id := by
  have hN := CacheInv_compiledRange tr msr em emitted fp hinv
  obtain ⟨hbm, hnext, hfast, hrange⟩ := registerLinksLoop_fields st.next_id
    (emitted.exitAddresses.map fun a =>
      { exitAddress := a, linkStatus := false, patchedTo := none })
    (setRangeLoop st.next_id fp (compiledPre tr msr em emitted fp st))
  have hlinks := registerLinksLoop_links st.next_id
    (emitted.exitAddresses.map fun a =>
      { exitAddress := a, linkStatus := false, patchedTo := none })
    (setRangeLoop st.next_id fp (compiledPre tr msr em emitted fp st))
  have hlkR : ∀ c, blockLookup (registerLinksLoop st.next_id
      (emitted.exitAddresses.map fun a =>
        { exitAddress := a, linkStatus := false, patchedTo := none })
      (setRangeLoop st.next_id fp (compiledPre tr msr em emitted fp st))) c =
      blockLookup (setRangeLoop st.next_id fp (compiledPre tr msr em emitted fp st)) c := by
    intro c
    show assocLookup _ c = assocLookup _ c
    rw [hbm]
  have hlk_new :
      blockLookup (setRangeLoop st.next_id fp (compiledPre tr msr em emitted fp st))
        st.next_id = some (compiledBlock tr msr em emitted fp) := by
    have hnotin : st.next_id ∉ st.block_map.map Prod.fst := by
      intro h
      obtain ⟨p, hp, hp1⟩ := List.mem_map.mp h
      exact absurd (hp1 ▸ hinv.ids.2 p hp) (lt_irrefl _)
    show assocLookup _ st.next_id = _
    rw [(setRangeLoop_fields st.next_id fp (compiledPre tr msr em emitted fp st)).1]
    show assocLookup (st.block_map ++ [(st.next_id, compiledBlock tr msr em emitted fp)])
      st.next_id = _
    rw [assocLookup_append, (assocLookup_eq_none_iff _ _).mpr hnotin, if_pos rfl]
  have hregok : RegOk (registerLinksLoop st.next_id
      (emitted.exitAddresses.map fun a =>
        { exitAddress := a, linkStatus := false, patchedTo := none })
      (setRangeLoop st.next_id fp (compiledPre tr msr em emitted fp st))) st.next_id := by
    intro b hb e he
    rw [hlkR, hlk_new] at hb
    obtain rfl := Option.some.inj hb
    refine (hlinks _ _).mpr (Or.inr ⟨rfl, e, ?_, rfl⟩)
    exact he
  refine ⟨⟨?_, ?_, ?_, ?_, ?_, ?_, ?_, ?_, ?_⟩, hregok⟩
  · exact ⟨by rw [hbm]; exact hN.ids.1, by rw [hnext]; intro p hp; exact hN.ids.2 p (by rwa [hbm] at hp)⟩
  · intro p hp
    exact hN.msr p (by rwa [hbm] at hp)
  · intro i bid h
    rw [hfast] at h
    obtain ⟨b, hb, hidx, hhash⟩ := hN.fastc i bid h
    exact ⟨b, by rw [hlkR]; exact hb, hidx, hhash⟩
  · intro t bid h
    rcases (hlinks _ _).mp h with h0 | ⟨rfl, e, he, het⟩
    · obtain ⟨b, hb, e, he, het⟩ := hN.linksLive t bid h0
      exact ⟨b, by rw [hlkR]; exact hb, e, he, het⟩
    · refine ⟨compiledBlock tr msr em emitted fp, by rw [hlkR]; exact hlk_new, e, he, het⟩
  · intro t bid h b' hb' e' he'
    rw [hlkR] at hb'
    by_cases hc : bid = st.next_id
    · subst hc
      rw [hlk_new] at hb'
      obtain rfl := Option.some.inj hb'
      exact (hlinks _ _).mpr (Or.inr ⟨rfl, e', he', rfl⟩)
    · rcases (hlinks _ _).mp h with h0 | ⟨he0, _⟩
      · exact (hlinks _ _).mpr (Or.inl (hN.linksAll t bid h0 b' hb' e' he'))
      · exact absurd he0 hc
  · intro bid b hb e he hes
    rw [hlkR] at hb
    have := hN.statusReg bid b hb e he hes
    exact (hlinks _ _).mpr (Or.inl this)
  · intro bid b hb e he hep
    rw [hlkR] at hb
    exact hN.patchReg bid b hb e he hep
  · intro k bid h
    rw [hrange] at h
    obtain ⟨b, hb, p, hp, hpa⟩ := hN.rangeLive k bid h
    exact ⟨b, by rw [hlkR]; exact hb, p, hp, hpa⟩
  · intro bid b hb p hp
    rw [hlkR] at hb
    rw [hrange]
    exact hN.rangeCover bid b hb p hp

/-- The invariant is preserved by the owner's full compile sequence. -/
theorem CacheInv_compileBlock (tr : Nat → TranslateResult) (msr em : Nat)
    (emitted : EmitResult) (block_link : Bool) (fp : List Nat) {st : CacheState}
    (hinv : CacheInv st) : CacheInv (compileBlock tr msr em emitted block_link fp st) := by
  have hne : ∀ p ∈ st.block_map, p.1 ≠ st.next_id := fun p hp he =>
    absurd (he ▸ hinv.ids.2 p hp) (lt_irrefl _)
  rw [compileBlock_eq tr msr em emitted block_link fp st hne]
  split
  · obtain ⟨h1, h2⟩ := CacheInv_compiledReg tr msr em emitted fp hinv
    exact CacheInv_LinkBlock h1 h2
  · exact CacheInv_compiledRange tr msr em emitted fp hinv

/-- The invariant is preserved by `MoveBlockIntoFastCache`. -/
theorem CacheInv_MoveBlockIntoFastCache {tr : Nat → TranslateResult} {st : CacheState}
    {addr msr : Nat} {o : Option Nat} {st' : CacheState} (hinv : CacheInv st)
    (h : MoveBlockIntoFastCache tr st addr msr = (o, st')) : CacheInv st' := by
  unfold MoveBlockIntoFastCache at h
  split at h
  · rw [Prod.mk.injEq] at h
    rw [← h.2]
    exact hinv
  · rename_i pid pb hg
    obtain ⟨hm, hea, hmsr2, _⟩ := GetBlockFromStartAddress_some hg
    have hlkst : blockLookup st pid = some pb := assocLookup_of_mem_nodup hinv.ids.1 hm
    rw [Prod.mk.injEq] at h
    obtain ⟨h1, h2⟩ := h
    rw [← h2]
    set s1 := (if st.fast_block_map pb.fast_block_map_index = some pid then
        ({ st with
          fast_block_map := fun i =>
            if i = pb.fast_block_map_index then none
            else st.fast_block_map i } : CacheState)
      else st) with hs1
    set s2 := ({ s1 with
        fast_block_map := fun i =>
          if i = FastLookupIndexForAddress addr then some pid
          else s1.fast_block_map i } : CacheState) with hs2
    set stU := updateBlock s2 pid (fun b0 =>
        { b0 with fast_block_map_index := FastLookupIndexForAddress addr }) with hstU
    have hbm1 : s1.block_map = st.block_map := by
      rw [hs1]; split <;> rfl
    have hlinks1 : s1.links_to = st.links_to := by
      rw [hs1]; split <;> rfl
    have hrange1 : s1.block_range_map = st.block_range_map := by
      rw [hs1]; split <;> rfl
    have hnext1 : s1.next_id = st.next_id := by
      rw [hs1]; split <;> rfl
    have hlinksU : stU.links_to = st.links_to := by
      show s1.links_to = st.links_to
      exact hlinks1
    have hrangeU : stU.block_range_map = st.block_range_map := by
      show s1.block_range_map = st.block_range_map
      exact hrange1
    have hnextU : stU.next_id = st.next_id := by
      show s1.next_id = st.next_id
      exact hnext1
    have hfastU : ∀ i, stU.fast_block_map i =
        if i = FastLookupIndexForAddress addr then some pid else s1.fast_block_map i :=
      fun _ => rfl
    have hlk2 : ∀ c, blockLookup s2 c = blockLookup st c := by
      intro c
      show assocLookup s1.block_map c = blockLookup st c
      rw [hbm1]
      rfl
    have hlkU : ∀ c, blockLookup stU c =
        if c = pid then
          some { pb with fast_block_map_index := FastLookupIndexForAddress addr }
        else blockLookup st c := by
      intro c
      rw [hstU, blockLookup_updateBlock, hlk2 c]
      by_cases hc : c = pid
      · rw [if_pos hc, if_pos hc, hc, hlkst]
        rfl
      · rw [if_neg hc, if_neg hc]
    have hidsU : stU.block_map.map Prod.fst = st.block_map.map Prod.fst := by
      rw [hstU, updateBlock_ids]
      show s1.block_map.map Prod.fst = _
      rw [hbm1]
    constructor
    case ids =>
      constructor
      · rw [hidsU]
        exact hinv.ids.1
      · intro p hp
        have : p.1 ∈ st.block_map.map Prod.fst := by
          rw [← hidsU]
          exact List.mem_map.mpr ⟨p, hp, rfl⟩
        obtain ⟨q, hq, hq1⟩ := List.mem_map.mp this
        rw [hnextU, ← hq1]
        exact hinv.ids.2 q hq
    case msr =>
      intro p hp
      have hnd' : (stU.block_map.map Prod.fst).Nodup := by
        rw [hidsU]; exact hinv.ids.1
      have hlkp : blockLookup stU p.1 = some p.2 := assocLookup_of_mem_nodup hnd' hp
      rw [hlkU p.1] at hlkp
      by_cases hc : p.1 = pid
      · rw [if_pos hc] at hlkp
        rw [(Option.some.inj hlkp).symm]
        show pb.msrBits &&& JIT_CACHE_MSR_MASK = pb.msrBits
        exact hinv.msr (pid, pb) hm
      · rw [if_neg hc] at hlkp
        exact hinv.msr (p.1, p.2) (blockLookup_some_mem hlkp)
    case fastc =>
      intro i c h
      rw [hfastU i] at h
      by_cases hi : i = FastLookupIndexForAddress addr
      · rw [if_pos hi] at h
        obtain rfl := Option.some.inj h
        refine ⟨{ pb with fast_block_map_index := FastLookupIndexForAddress addr },
          by rw [hlkU, if_pos rfl], hi.symm, ?_⟩
        show i = FastLookupIndexForAddress pb.effectiveAddress
        rw [hea, hi]
      · rw [if_neg hi] at h
        by_cases hcond : st.fast_block_map pb.fast_block_map_index = some pid
        · rw [hs1, if_pos hcond] at h
          dsimp only at h
          by_cases hip : i = pb.fast_block_map_index
          · rw [if_pos hip] at h
            cases h
          · rw [if_neg hip] at h
            obtain ⟨b, hb, hidx, hhash⟩ := hinv.fastc i c h
            have hcp : c ≠ pid := by
              intro he
              subst he
              rw [hlkst] at hb
              obtain rfl := Option.some.inj hb
              exact hip hidx.symm
            exact ⟨b, by rw [hlkU, if_neg hcp]; exact hb, hidx, hhash⟩
        · rw [hs1, if_neg hcond] at h
          obtain ⟨b, hb, hidx, hhash⟩ := hinv.fastc i c h
          have hcp : c ≠ pid := by
            intro he
            subst he
            rw [hlkst] at hb
            obtain rfl := Option.some.inj hb
            rw [hidx] at hcond
            exact hcond h
          exact ⟨b, by rw [hlkU, if_neg hcp]; exact hb, hidx, hhash⟩
    case linksLive =>
      intro t c hmem
      rw [hlinksU] at hmem
      obtain ⟨b, hb, e, he, het⟩ := hinv.linksLive t c hmem
      by_cases hc : c = pid
      · subst hc
        rw [hlkst] at hb
        obtain rfl := Option.some.inj hb
        exact ⟨{ pb with fast_block_map_index := FastLookupIndexForAddress addr },
          by rw [hlkU, if_pos rfl], e, he, het⟩
      · exact ⟨b, by rw [hlkU, if_neg hc]; exact hb, e, he, het⟩
    case linksAll =>
      intro t c hmem b' hb' e' he'
      rw [hlinksU] at hmem
      rw [hlinksU]
      rw [hlkU c] at hb'
      by_cases hc : c = pid
      · rw [if_pos hc] at hb'
        obtain rfl := (Option.some.inj hb').symm
        subst hc
        exact hinv.linksAll t c hmem pb hlkst e' he'
      · rw [if_neg hc] at hb'
        exact hinv.linksAll t c hmem b' hb' e' he'
    case statusReg =>
      intro c b' hb' e' he' hes
      rw [hlinksU]
      rw [hlkU c] at hb'
      by_cases hc : c = pid
      · rw [if_pos hc] at hb'
        obtain rfl := (Option.some.inj hb').symm
        subst hc
        exact hinv.statusReg c pb hlkst e' he' hes
      · rw [if_neg hc] at hb'
        exact hinv.statusReg c b' hb' e' he' hes
    case patchReg =>
      intro c b' hb' e' he' hep
      rw [hlkU c] at hb'
      by_cases hc : c = pid
      · rw [if_pos hc] at hb'
        obtain rfl := (Option.some.inj hb').symm
        subst hc
        exact hinv.patchReg c pb hlkst e' he' hep
      · rw [if_neg hc] at hb'
        exact hinv.patchReg c b' hb' e' he' hep
    case rangeLive =>
      intro k c hmem
      rw [hrangeU] at hmem
      obtain ⟨b, hb, p, hp, hpa⟩ := hinv.rangeLive k c hmem
      by_cases hc : c = pid
      · subst hc
        rw [hlkst] at hb
        obtain rfl := Option.some.inj hb
        exact ⟨{ pb with fast_block_map_index := FastLookupIndexForAddress addr },
          by rw [hlkU, if_pos rfl], p, hp, hpa⟩
      · exact ⟨b, by rw [hlkU, if_neg hc]; exact hb, p, hp, hpa⟩
    case rangeCover =>
      intro c b' hb' p hp
      rw [hrangeU]
      rw [hlkU c] at hb'
      by_cases hc : c = pid
      · rw [if_pos hc] at hb'
        obtain rfl := (Option.some.inj hb').symm
        subst hc
        exact hinv.rangeCover c pb hlkst p hp
      · rw [if_neg hc] at hb'
        exact hinv.rangeCover c b' hb' p hp

/-- The invariant is preserved by `Dispatch`. -/
theorem CacheInv_Dispatch {tr : Nat → TranslateResult} {pc msr : Nat} {st : CacheState}
    (hinv : CacheInv st) : CacheInv (Dispatch tr pc msr st).2 := by
  unfold Dispatch
  split
  · exact hinv
  · split
    · rename_i st2 hmov
      exact CacheInv_MoveBlockIntoFastCache hinv hmov
    · rename_i bid st2 hmov
      exact CacheInv_MoveBlockIntoFastCache hinv hmov

/-! ### Invariant preservation along the invalidation path -/

/-- The cross-bucket removal loop touches only the range map. -/
theorem removeFromOtherRanges_fields (bid k : Nat) (fp : List Nat) (st : CacheState) :
    (removeFromOtherRanges bid k fp st).block_map = st.block_map ∧
      (removeFromOtherRanges bid k fp st).next_id = st.next_id ∧
      (removeFromOtherRanges bid k fp st).fast_block_map = st.fast_block_map ∧
      (removeFromOtherRanges bid k fp st).links_to = st.links_to := by
  refine foldl_preserves
    (fun (t : CacheState) => t.block_map = st.block_map ∧ t.next_id = st.next_id ∧
      t.fast_block_map = st.fast_block_map ∧ t.links_to = st.links_to) _ ?_ fp st
    ⟨rfl, rfl, rfl, rfl⟩
  intro t a ht
  dsimp only
  split
  · exact ht
  · exact ht

/-- Characterisation of the cross-bucket removal: range-bucket membership after
`removeFromOtherRanges`. -/
theorem removeFromOtherRanges_range (bid k : Nat) (fp : List Nat) :
    ∀ (s : CacheState) (j c : Nat),
      (c ∈ (removeFromOtherRanges bid k fp s).block_range_map j ↔
        c ∈ s.block_range_map j ∧
          ¬(c = bid ∧ j ≠ k ∧ ∃ p ∈ fp, rangeAlign p = j)) := by
  induction fp with
  | nil => intro s j c; simp [removeFromOtherRanges]
  | cons p rest ih =>
    intro s j c
    show c ∈ (removeFromOtherRanges bid k rest _).block_range_map j ↔ _
    rw [ih]
    by_cases hpk : rangeAlign p ≠ k
    · by_cases hj : j = rangeAlign p
      · show (c ∈ (if rangeAlign p ≠ k then _ else s).block_range_map j ∧ _) ↔ _
        rw [if_pos hpk]
        show (c ∈ (if j = rangeAlign p then setErase (s.block_range_map j) bid
          else s.block_range_map j) ∧ _) ↔ _
        rw [if_pos hj, mem_setErase]
        constructor
        · rintro ⟨⟨h1, h2⟩, _⟩
          refine ⟨h1, ?_⟩
          rintro ⟨rfl, _, _⟩
          exact h2 rfl
        · rintro ⟨h1, h2⟩
          refine ⟨⟨h1, ?_⟩, ?_⟩
          · rintro rfl
            exact h2 ⟨rfl, fun he => hpk (hj.symm.trans he), p,
              List.mem_cons_self p rest, hj.symm⟩
          · rintro ⟨rfl, hk, q, hq, hqa⟩
            exact h2 ⟨rfl, hk, q, List.mem_cons_of_mem p hq, hqa⟩
      · show (c ∈ (if rangeAlign p ≠ k then _ else s).block_range_map j ∧ _) ↔ _
        rw [if_pos hpk]
        show (c ∈ (if j = rangeAlign p then _ else s.block_range_map j) ∧ _) ↔ _
        rw [if_neg hj]
        constructor
        · rintro ⟨h1, h2⟩
          refine ⟨h1, ?_⟩
          rintro ⟨rfl, hk, q, hq, hqa⟩
          rcases List.mem_cons.mp hq with rfl | hq'
          · exact hj hqa.symm
          · exact h2 ⟨rfl, hk, q, hq', hqa⟩
        · rintro ⟨h1, h2⟩
          refine ⟨h1, ?_⟩
          rintro ⟨rfl, hk, q, hq, hqa⟩
          exact h2 ⟨rfl, hk, q, List.mem_cons_of_mem p hq, hqa⟩
    · show (c ∈ (if rangeAlign p ≠ k then _ else s).block_range_map j ∧ _) ↔ _
      rw [if_neg hpk]
      constructor
      · rintro ⟨h1, h2⟩
        refine ⟨h1, ?_⟩
        rintro ⟨rfl, hk, q, hq, hqa⟩
        rcases List.mem_cons.mp hq with rfl | hq'
        · exact hpk (fun he => hk (hqa ▸ he))
        · exact h2 ⟨rfl, hk, q, hq', hqa⟩
      · rintro ⟨h1, h2⟩
        refine ⟨h1, ?_⟩
        rintro ⟨rfl, hk, q, hq, hqa⟩
        exact h2 ⟨rfl, hk, q, List.mem_cons_of_mem p hq, hqa⟩

/-- Removing one id from one range-map bucket (the bucket-under-iteration cleanup of
`ErasePhysicalRange`). -/
def bucketErase (k bid : Nat) (st : CacheState) : CacheState :=
  { st with
    block_range_map := fun j =>
      if j = k then setErase (st.block_range_map j) bid else st.block_range_map j }

/-- The full removal performed by one destroying iteration of the inner
`ErasePhysicalRange` loop: cross-bucket cleanup, `DestroyBlock`, `block_map` erasure,
and the current-bucket erasure. -/
def destroyStep (k bid : Nat) (b : JitBlock) (st : CacheState) : CacheState :=
  bucketErase k bid
    (removeFromBlockMap bid
      (DestroyBlock (removeFromOtherRanges bid k b.physical_addresses st) bid))

/-- Unfolding `DestroyBlock` on a live block. -/
theorem DestroyBlock_eq (st : CacheState) (bid : Nat) (b : JitBlock)
    (hlk : blockLookup st bid = some b) :
    DestroyBlock st bid =
      eraseLinksLoop bid b.linkData (UnlinkBlock
        (if st.fast_block_map b.fast_block_map_index = some bid then
          { st with
            fast_block_map := fun i =>
              if i = b.fast_block_map_index then none else st.fast_block_map i }
        else st) bid) := by
  unfold DestroyBlock
  rw [hlk]

/-- Core preservation argument for one destroying iteration of the inner
`ErasePhysicalRange` loop: for any post-`UnlinkBlock` state `sC` whose stores and
indices relate to the scanned state `st` as stated, the remaining composite — the
`links_to` cleanup over the destroyed block's exits, the `block_map` erasure, and the
current-bucket range-map erasure — re-establishes the invariant. -/
theorem CacheInv_destroyCore (st sC : CacheState) (k bid : Nat) (b : JitBlock)
    (hinv : CacheInv st) (hlk : blockLookup st bid = some b)
    (hnextC : sC.next_id = st.next_id)
    (hidsC : sC.block_map.map Prod.fst = st.block_map.map Prod.fst)
    (hlinksC : sC.links_to = st.links_to)
    (hrangeC : ∀ j c, c ∈ sC.block_range_map j ↔
      c ∈ st.block_range_map j ∧
        ¬(c = bid ∧ j ≠ k ∧ ∃ p ∈ b.physical_addresses, rangeAlign p = j))
    (hfastC : ∀ i c, sC.fast_block_map i = some c →
      st.fast_block_map i = some c ∧ c ≠ bid)
    (hcorrC : ∀ c b', blockLookup sC c = some b' →
      ∃ b0, blockLookup st c = some b0 ∧ BlockShape b0 b')
    (hstC : StatusReg sC) (hprC : PatchReg sC) :
    CacheInv (bucketErase k bid (removeFromBlockMap bid
      (eraseLinksLoop bid b.linkData sC))) := by
  set S := bucketErase k bid (removeFromBlockMap bid (eraseLinksLoop bid b.linkData sC))
    with hSdef
  have hndC : (sC.block_map.map Prod.fst).Nodup := by rw [hidsC]; exact hinv.ids.1
  have hSbm : S.block_map = sC.block_map.eraseP (fun e => e.1 == bid) := by
    show ((eraseLinksLoop bid b.linkData sC).block_map).eraseP _ = _
    rw [(eraseLinksLoop_fields bid b.linkData sC).1]
  have hSnext : S.next_id = st.next_id := by
    show (eraseLinksLoop bid b.linkData sC).next_id = _
    rw [(eraseLinksLoop_fields bid b.linkData sC).2.1, hnextC]
  have hSfast : S.fast_block_map = sC.fast_block_map := by
    show (eraseLinksLoop bid b.linkData sC).fast_block_map = _
    exact (eraseLinksLoop_fields bid b.linkData sC).2.2.1
  have hSlinks : ∀ t c, c ∈ S.links_to t ↔
      c ∈ st.links_to t ∧ ¬(c = bid ∧ ∃ e ∈ b.linkData, e.exitAddress = t) := by
    intro t c
    show c ∈ (eraseLinksLoop bid b.linkData sC).links_to t ↔ _
    rw [eraseLinksLoop_links bid b.linkData sC t c, hlinksC]
  have hSrange : ∀ j c, c ∈ S.block_range_map j ↔
      c ∈ sC.block_range_map j ∧ (j = k → c ≠ bid) := by
    intro j c
    show c ∈ (if j = k then
        setErase ((eraseLinksLoop bid b.linkData sC).block_range_map j) bid
      else (eraseLinksLoop bid b.linkData sC).block_range_map j) ↔ _
    rw [(eraseLinksLoop_fields bid b.linkData sC).2.2.2]
    by_cases hj : j = k
    · rw [if_pos hj, mem_setErase]
      constructor
      · rintro ⟨h1, h2⟩
        exact ⟨h1, fun _ => h2⟩
      · rintro ⟨h1, h2⟩
        exact ⟨h1, h2 hj⟩
    · rw [if_neg hj]
      constructor
      · intro h1
        exact ⟨h1, fun he => absurd he hj⟩
      · rintro ⟨h1, _⟩
        exact h1
  have hSlkbid : blockLookup S bid = none := by
    show assocLookup S.block_map bid = none
    rw [hSbm]
    exact assocLookup_eraseP_self sC.block_map bid hndC
  have hSlkne : ∀ c, c ≠ bid → blockLookup S c = blockLookup sC c := by
    intro c hc
    show assocLookup S.block_map c = _
    rw [hSbm]
    exact assocLookup_eraseP_ne sC.block_map bid c hc
  have hlkexC : ∀ cid b0, blockLookup st cid = some b0 →
      ∃ b', blockLookup sC cid = some b' ∧ BlockShape b0 b' := by
    intro cid b0 hb0
    have hmem : cid ∈ sC.block_map.map Prod.fst := by
      rw [hidsC]
      exact List.mem_map.mpr ⟨(cid, b0), blockLookup_some_mem hb0, rfl⟩
    obtain ⟨b', hb'⟩ := blockLookup_exists_of_mem_ids hmem
    obtain ⟨b1, hb1, hs⟩ := hcorrC cid b' hb'
    rw [hb0] at hb1
    cases hb1
    exact ⟨b', hb', hs⟩
  constructor
  case ids =>
    constructor
    · rw [hSbm]
      exact (eraseP_ids_sublist sC.block_map bid).nodup hndC
    · intro p hp
      rw [hSnext]
      have hp' : p ∈ sC.block_map := (List.eraseP_sublist sC.block_map).subset (hSbm ▸ hp)
      have hmem : p.1 ∈ st.block_map.map Prod.fst := by
        rw [← hidsC]
        exact List.mem_map.mpr ⟨p, hp', rfl⟩
      obtain ⟨q, hq, hq1⟩ := List.mem_map.mp hmem
      rw [← hq1]
      exact hinv.ids.2 q hq
  case msr =>
    intro p hp
    have hp' : p ∈ sC.block_map := (List.eraseP_sublist sC.block_map).subset (hSbm ▸ hp)
    have hlkp : blockLookup sC p.1 = some p.2 := assocLookup_of_mem_nodup hndC hp'
    obtain ⟨b0, hb0, hs⟩ := hcorrC p.1 p.2 hlkp
    rw [hs.2.2.1]
    exact hinv.msr (p.1, b0) (blockLookup_some_mem hb0)
  case fastc =>
    intro i c h
    rw [hSfast] at h
    obtain ⟨hfst, hcb⟩ := hfastC i c h
    obtain ⟨b0, hb0, hidx, hhash⟩ := hinv.fastc i c hfst
    obtain ⟨b', hb', hs⟩ := hlkexC c b0 hb0
    refine ⟨b', ?_, hs.2.2.2.2.1.trans hidx, ?_⟩
    · rw [hSlkne c hcb]
      exact hb'
    · rw [hs.1]
      exact hhash
  case linksLive =>
    intro t c hmem
    obtain ⟨hstm, hnot⟩ := (hSlinks t c).mp hmem
    obtain ⟨b0, hb0, e, he, het⟩ := hinv.linksLive t c hstm
    have hcb : c ≠ bid := by
      rintro rfl
      rw [hlk] at hb0
      obtain rfl := Option.some.inj hb0
      exact hnot ⟨rfl, e, he, het⟩
    obtain ⟨b', hb', hs⟩ := hlkexC c b0 hb0
    have hmemt : t ∈ b'.linkData.map (fun e => e.exitAddress) := by
      rw [hs.2.2.2.2.2]
      exact List.mem_map.mpr ⟨e, he, het⟩
    obtain ⟨e', he', het'⟩ := List.mem_map.mp hmemt
    exact ⟨b', by rw [hSlkne c hcb]; exact hb', e', he', het'⟩
  case linksAll =>
    intro t c hmem b'' hb'' e'' he''
    have hcb : c ≠ bid := by
      rintro rfl
      rw [hSlkbid] at hb''
      cases hb''
    rw [hSlkne c hcb] at hb''
    obtain ⟨hstm, _⟩ := (hSlinks t c).mp hmem
    obtain ⟨b0, hb0, hs⟩ := hcorrC c b'' hb''
    have hmemt : e''.exitAddress ∈ b0.linkData.map (fun e => e.exitAddress) := by
      rw [← hs.2.2.2.2.2]
      exact List.mem_map.mpr ⟨e'', he'', rfl⟩
    obtain ⟨e0, he0, het0⟩ := List.mem_map.mp hmemt
    refine (hSlinks e''.exitAddress c).mpr ⟨?_, ?_⟩
    · rw [← het0]
      exact hinv.linksAll t c hstm b0 hb0 e0 he0
    · rintro ⟨rfl, _⟩
      exact hcb rfl
  case statusReg =>
    intro c b'' hb'' e'' he'' hes
    have hcb : c ≠ bid := by
      rintro rfl
      rw [hSlkbid] at hb''
      cases hb''
    rw [hSlkne c hcb] at hb''
    have hreg := hstC c b'' hb'' e'' he'' hes
    rw [hlinksC] at hreg
    refine (hSlinks e''.exitAddress c).mpr ⟨hreg, ?_⟩
    rintro ⟨rfl, _⟩
    exact hcb rfl
  case patchReg =>
    intro c b'' hb'' e'' he'' hep
    have hcb : c ≠ bid := by
      rintro rfl
      rw [hSlkbid] at hb''
      cases hb''
    rw [hSlkne c hcb] at hb''
    exact hprC c b'' hb'' e'' he'' hep
  case rangeLive =>
    intro j c hmem
    obtain ⟨hmC, hjk⟩ := (hSrange j c).mp hmem
    obtain ⟨hstm, hnot⟩ := (hrangeC j c).mp hmC
    have hcb : c ≠ bid := by
      rintro rfl
      obtain ⟨b0, hb0, p, hp, hpj⟩ := hinv.rangeLive j c hstm
      rw [hlk] at hb0
      obtain rfl := Option.some.inj hb0
      by_cases hj : j = k
      · exact hjk hj rfl
      · exact hnot ⟨rfl, hj, p, hp, hpj⟩
    obtain ⟨b0, hb0, p, hp, hpj⟩ := hinv.rangeLive j c hstm
    obtain ⟨b', hb', hs⟩ := hlkexC c b0 hb0
    refine ⟨b', by rw [hSlkne c hcb]; exact hb', p, ?_, hpj⟩
    rw [hs.2.2.2.1]
    exact hp
  case rangeCover =>
    intro c b'' hb'' p hp
    have hcb : c ≠ bid := by
      rintro rfl
      rw [hSlkbid] at hb''
      cases hb''
    rw [hSlkne c hcb] at hb''
    obtain ⟨b0, hb0, hs⟩ := hcorrC c b'' hb''
    have hp0 : p ∈ b0.physical_addresses := by
      rw [← hs.2.2.2.1]
      exact hp
    have hstm := hinv.rangeCover c b0 hb0 p hp0
    refine (hSrange (rangeAlign p) c).mpr ⟨?_, fun _ => hcb⟩
    exact (hrangeC (rangeAlign p) c).mpr
      ⟨hstm, by rintro ⟨rfl, _⟩; exact hcb rfl⟩

/-- One destroying iteration of the inner `ErasePhysicalRange` loop preserves the
invariant. -/
theorem CacheInv_destroyStep {st : CacheState} {k bid : Nat} {b : JitBlock}
    (hinv : CacheInv st) (hlk : blockLookup st bid = some b) :
    CacheInv (destroyStep k bid b st) := by
  unfold destroyStep
  have h1 := removeFromOtherRanges_fields bid k b.physical_addresses st
  have h2 := removeFromOtherRanges_range bid k b.physical_addresses st
  revert h1 h2
  generalize removeFromOtherRanges bid k b.physical_addresses st = s1
  intro h1 h2
  obtain ⟨hbm1, hnext1, hfast1, hlinks1⟩ := h1
  have hlk1 : blockLookup s1 bid = some b := by
    show assocLookup s1.block_map bid = some b
    rw [hbm1]
    exact hlk
  rw [DestroyBlock_eq s1 bid b hlk1]
  set sB := (if s1.fast_block_map b.fast_block_map_index = some bid then
      ({ s1 with
        fast_block_map := fun i =>
          if i = b.fast_block_map_index then none else s1.fast_block_map i } : CacheState)
    else s1) with hsBdef
  have hbmB : sB.block_map = st.block_map := by
    rw [hsBdef]
    split
    · exact hbm1
    · exact hbm1
  have hlinksB : sB.links_to = st.links_to := by
    rw [hsBdef]
    split
    · exact hlinks1
    · exact hlinks1
  have hrangeB : sB.block_range_map = s1.block_range_map := by
    rw [hsBdef]
    split <;> rfl
  have hnextB : sB.next_id = st.next_id := by
    rw [hsBdef]
    split
    · exact hnext1
    · exact hnext1
  have hfastB : ∀ i c, sB.fast_block_map i = some c →
      st.fast_block_map i = some c ∧ c ≠ bid := by
    intro i c h
    rw [hsBdef] at h
    by_cases hcond : s1.fast_block_map b.fast_block_map_index = some bid
    · rw [if_pos hcond] at h
      dsimp only at h
      by_cases hib : i = b.fast_block_map_index
      · rw [if_pos hib] at h
        cases h
      · rw [if_neg hib] at h
        rw [hfast1] at h
        refine ⟨h, ?_⟩
        rintro rfl
        obtain ⟨b0, hb0, hidx, _⟩ := hinv.fastc i c h
        rw [hlk] at hb0
        obtain rfl := Option.some.inj hb0
        exact hib hidx.symm
    · rw [if_neg hcond] at h
      rw [hfast1] at h
      refine ⟨h, ?_⟩
      rintro rfl
      obtain ⟨b0, hb0, hidx, _⟩ := hinv.fastc i c h
      rw [hlk] at hb0
      obtain rfl := Option.some.inj hb0
      rw [hfast1, hidx] at hcond
      exact hcond h
  obtain ⟨hnextU, hfastU, hlinksU, hrangeU, hidsU, hcorrU⟩ := UnlinkBlock_linkPhase sB bid
  have hlkBeq : ∀ c, blockLookup sB c = blockLookup st c := by
    intro c
    show assocLookup sB.block_map c = _
    rw [hbmB]
    rfl
  have hstB : StatusReg sB := by
    intro c b0 hlkb e he hes
    rw [hlkBeq c] at hlkb
    rw [hlinksB]
    exact hinv.statusReg c b0 hlkb e he hes
  have hprB : PatchReg sB := by
    intro c b0 hlkb e he hep
    rw [hlkBeq c] at hlkb
    exact hinv.patchReg c b0 hlkb e he hep
  refine CacheInv_destroyCore st (UnlinkBlock sB bid) k bid b hinv hlk ?_ ?_ ?_ ?_ ?_ ?_
    ?_ ?_
  · rw [hnextU, hnextB]
  · rw [hidsU, hbmB]
  · rw [hlinksU, hlinksB]
  · intro j c
    rw [hrangeU, hrangeB]
    exact h2 j c
  · intro i c h
    rw [hfastU] at h
    exact hfastB i c h
  · intro c b' hb'
    obtain ⟨b0, hb0, hs⟩ := hcorrU c b' hb'
    rw [hlkBeq c] at hb0
    exact ⟨b0, hb0, hs⟩
  · exact UnlinkBlock_statusReg sB bid hstB
  · exact UnlinkBlock_patchReg sB bid hprB

/-- The inner bucket loop of `ErasePhysicalRange` preserves the invariant. -/
theorem CacheInv_eraseBucketLoop (a len k : Nat) (pending : List Nat) :
    ∀ st, CacheInv st → CacheInv (eraseBucketLoop a len k st pending) := by
  induction pending with
  | nil => intro st h; exact h
  | cons bid rest ih =>
    intro st h
    cases hlk : blockLookup st bid with
    | none =>
      have he : eraseBucketLoop a len k st (bid :: rest) = eraseBucketLoop a len k st rest := by
        show (match blockLookup st bid with
          | none => eraseBucketLoop a len k st rest
          | some b =>
            if b.OverlapsPhysicalRange a len then
              eraseBucketLoop a len k (destroyStep k bid b st) rest
            else eraseBucketLoop a len k st rest) = _
        rw [hlk]
      rw [he]
      exact ih st h
    | some b =>
      by_cases hov : b.OverlapsPhysicalRange a len = true
      · have he : eraseBucketLoop a len k st (bid :: rest) =
            eraseBucketLoop a len k (destroyStep k bid b st) rest := by
          show (match blockLookup st bid with
            | none => eraseBucketLoop a len k st rest
            | some b =>
              if b.OverlapsPhysicalRange a len then
                eraseBucketLoop a len k (destroyStep k bid b st) rest
              else eraseBucketLoop a len k st rest) = _
          rw [hlk]
          exact if_pos hov
        rw [he]
        exact ih _ (CacheInv_destroyStep h hlk)
      · have he : eraseBucketLoop a len k st (bid :: rest) =
            eraseBucketLoop a len k st rest := by
          show (match blockLookup st bid with
            | none => eraseBucketLoop a len k st rest
            | some b =>
              if b.OverlapsPhysicalRange a len then
                eraseBucketLoop a len k (destroyStep k bid b st) rest
              else eraseBucketLoop a len k st rest) = _
          rw [hlk]
          exact if_neg hov
        rw [he]
        exact ih st h

/-- The outer loop of `ErasePhysicalRange` preserves the invariant. -/
theorem CacheInv_eraseRangeFuel (a len : Nat) :
    ∀ (fuel k : Nat) (st : CacheState), CacheInv st →
      CacheInv (eraseRangeFuel a len fuel k st) := by
  intro fuel
  induction fuel with
  | zero => intro k st h; exact h
  | succ n ih =>
    intro k st h
    show CacheInv (if k < a + len then
      eraseRangeFuel a len n (k + BLOCK_RANGE_MAP_ELEMENTS)
        (eraseBucketLoop a len k st (st.block_range_map k))
      else st)
    split
    · exact ih _ _ (CacheInv_eraseBucketLoop a len k _ st h)
    · exact h

/-- `ErasePhysicalRange` preserves the invariant. -/
theorem CacheInv_ErasePhysicalRange (address length : Nat) {st : CacheState}
    (h : CacheInv st) : CacheInv (ErasePhysicalRange address length st) :=
  CacheInv_eraseRangeFuel address length _ _ st h

/-- Clearing notification entries does not affect the invariant. -/
theorem CacheInv_eraseFifo (address length : Nat) {st : CacheState} (h : CacheInv st) :
    CacheInv (eraseFifo address length st) :=
  ⟨h.ids, h.msr, h.fastc, h.linksLive, h.linksAll, h.statusReg, h.patchReg, h.rangeLive,
    h.rangeCover⟩

/-- Clearing validity bits does not affect the invariant. -/
theorem CacheInv_validUpdate (f : Nat → Bool) {st : CacheState} (h : CacheInv st) :
    CacheInv { st with valid_block := f } :=
  ⟨h.ids, h.msr, h.fastc, h.linksLive, h.linksAll, h.statusReg, h.patchReg, h.rangeLive,
    h.rangeCover⟩

/-- The destroy tail of `InvalidateICacheInternal` preserves the invariant. -/
theorem CacheInv_invalidateDestroy (pa addr len : Nat) (forced : Bool) {st : CacheState}
    (h : CacheInv st) : CacheInv (invalidateDestroy pa addr len forced st) := by
  unfold invalidateDestroy
  split
  · exact CacheInv_ErasePhysicalRange pa len h
  · exact CacheInv_eraseFifo addr len (CacheInv_ErasePhysicalRange pa len h)

/-- `InvalidateICacheInternal` preserves the invariant. -/
theorem CacheInv_InvalidateICacheInternal (pa addr len : Nat) (forced : Bool)
    {st : CacheState} (h : CacheInv st) :
    CacheInv (InvalidateICacheInternal pa addr len forced st) := by
  unfold InvalidateICacheInternal
  split
  · split
    · exact h
    · exact CacheInv_invalidateDestroy pa addr len forced (CacheInv_validUpdate _ h)
  · split
    · exact CacheInv_invalidateDestroy pa addr len forced (CacheInv_validUpdate _ h)
    · exact CacheInv_invalidateDestroy pa addr len forced h

/-- `InvalidateICache` preserves the invariant. -/
theorem CacheInv_InvalidateICache (tr : Nat → TranslateResult) (a len : Nat)
    (forced : Bool) {st : CacheState} (h : CacheInv st) :
    CacheInv (InvalidateICache tr a len forced st) := by
  unfold InvalidateICache
  refine foldl_preserves (fun (s : CacheState) => CacheInv s) _ ?_ _ st h
  intro s c hs
  dsimp only
  split
  · exact CacheInv_InvalidateICacheInternal _ _ _ forced hs
  · exact hs

/-- `InvalidateICacheLine` preserves the invariant. -/
theorem CacheInv_InvalidateICacheLine (tr : Nat → TranslateResult) (a : Nat)
    {st : CacheState} (h : CacheInv st) : CacheInv (InvalidateICacheLine tr a st) := by
  unfold InvalidateICacheLine
  show CacheInv (if (tr (a - a % 32)).valid = true then
    InvalidateICacheInternal (tr (a - a % 32)).address (a - a % 32) 32 false st else st)
  split
  · exact CacheInv_InvalidateICacheInternal _ _ _ false h
  · exact h

/-- `ClearCache` establishes the invariant outright: all stores and indices are empty. -/
theorem CacheInv_ClearCache (st : CacheState) : CacheInv (ClearCache st) := by
  refine ⟨⟨?_, ?_⟩, ?_, ?_, ?_, ?_, ?_, ?_, ?_, ?_⟩
  · show (([] : List (Nat × JitBlock)).map Prod.fst).Nodup
    simp
  · intro p hp
    exact absurd hp (List.not_mem_nil p)
  · intro p hp
    exact absurd hp (List.not_mem_nil p)
  · intro i c h
    exact Option.noConfusion h
  · intro t c h
    exact absurd h (List.not_mem_nil c)
  · intro t c h
    exact absurd h (List.not_mem_nil c)
  · intro c b hb e he hes
    exact Option.noConfusion hb
  · intro c b hb e he hep
    exact Option.noConfusion hb
  · intro j c h
    exact absurd h (List.not_mem_nil c)
  · intro c b hb p hp
    exact Option.noConfusion hb

/-- Every step of the cache preserves the invariant. -/
theorem CacheInv_Step {st st' : CacheState} (h : Step st st') (hinv : CacheInv st) :
    CacheInv st' := by
  cases h with
  | compile tr msr em emitted block_link fp =>
    exact CacheInv_compileBlock tr msr em emitted block_link fp hinv
  | dispatch tr pc msr => exact CacheInv_Dispatch hinv
  | invalidate tr a len forced => exact CacheInv_InvalidateICache tr a len forced hinv
  | invalidateLine tr a => exact CacheInv_InvalidateICacheLine tr a hinv
  | clear => exact CacheInv_ClearCache st

/-- The freshly initialised cache satisfies the invariant. -/
theorem CacheInv_initState : CacheInv initState := by
  refine ⟨⟨?_, ?_⟩, ?_, ?_, ?_, ?_, ?_, ?_, ?_, ?_⟩
  · show (([] : List (Nat × JitBlock)).map Prod.fst).Nodup
    simp
  · intro p hp
    exact absurd hp (List.not_mem_nil p)
  · intro p hp
    exact absurd hp (List.not_mem_nil p)
  · intro i c h
    exact Option.noConfusion h
  · intro t c h
    exact absurd h (List.not_mem_nil c)
  · intro t c h
    exact absurd h (List.not_mem_nil c)
  · intro c b hb e he hes
    exact Option.noConfusion hb
  · intro c b hb e he hep
    exact Option.noConfusion hb
  · intro j c h
    exact absurd h (List.not_mem_nil c)
  · intro c b hb p hp
    exact Option.noConfusion hb

/-- The invariant holds in every reachable cache state. -/
theorem CacheInv_reachable {st : CacheState} (h : Reachable st) : CacheInv st := by
  induction h with
  | init => exact CacheInv_initState
  | step _ hstep ih => exact CacheInv_Step hstep ih

/-! ### C3: link-graph registration vs. the linked flag -/

/-- A reachable state with a block whose exit is registered in `links_to` while its
linked flag is still false: compiling a block with `block_link` registers every exit
target, but the flag is set only when the destination block exists. -/
def c3State : CacheState :=
  compileBlock trIdent 0 0x1000 ⟨5, 7, 4, [0x2000]⟩ true [0x1000] initState

/-- C3 counterexample: in the reachable state `c3State` the only block sits in the
`links_to` bucket of its exit target `0x2000`, yet that exit's linked flag is false —
registration is performed for every exit at finalisation, independent of the flag, so
the "only if" direction of the claimed invariant fails. -/
theorem C3_counterexample :
    Reachable c3State ∧
      0 ∈ c3State.links_to 0x2000 ∧
      (blockLookup c3State 0).map
          (fun b => b.linkData.map fun e => (e.exitAddress, e.linkStatus)) =
        some [(0x2000, false)] :=
  ⟨Reachable.step Reachable.init
      (Step.compile initState trIdent 0 0x1000 ⟨5, 7, 4, [0x2000]⟩ true [0x1000]),
   by decide, rfl⟩

/-- C3 (corrected): over all reachable cache states only the forward direction of the
claimed equivalence holds — a linked exit of a live block is always registered in the
`links_to` bucket of its target, but a registered block may still have the exit's
linked flag false (see the counterexample). -/
theorem C3_link_flag_registration (st : CacheState) (h : Reachable st)
    (bid : Nat) (b : JitBlock) (hb : blockLookup st bid = some b)
    (e : JitBlockLinkData) (he : e ∈ b.linkData) (hes : e.linkStatus = true) :
    bid ∈ st.links_to e.exitAddress :=
  (CacheInv_reachable h).statusReg bid b hb e he hes

/-- A reachable state with a genuinely linked exit: the destination at `0x2000` is
compiled first, so linking the second block's exit succeeds. -/
def c3WitState : CacheState :=
  compileBlock trIdent 0 0x1000 ⟨5, 7, 4, [0x2000]⟩ true [0x1000]
    (compileBlock trIdent 0 0x2000 ⟨1, 2, 3, []⟩ true [0x2000] initState)

theorem C3_link_flag_registration_witness :
    1 ∈ c3WitState.links_to 0x2000 :=
  C3_link_flag_registration c3WitState
    (Reachable.step
      (Reachable.step Reachable.init
        (Step.compile initState trIdent 0 0x2000 ⟨1, 2, 3, []⟩ true [0x2000]))
      (Step.compile _ trIdent 0 0x1000 ⟨5, 7, 4, [0x2000]⟩ true [0x1000]))
    1 ⟨0x1000, 0x1000, 0, [0x1000], 5, 7, 4, [⟨0x2000, true, some 0⟩], 0x400⟩ rfl
    ⟨0x2000, true, some 0⟩ (List.mem_singleton.mpr rfl) rfl

/-! ### C4: the fast-map slot index of a live block -/

/-- A reachable state with a fast-slot collision: `0x1000` and `0x41000` hash to the
same fast-map index `0x400`, so finalising the second block evicts the first from the
slot while the first block's stored index still names it. -/
def c4State : CacheState :=
  compileBlock trIdent 0 0x41000 ⟨8, 9, 4, []⟩ true [0x41000]
    (compileBlock trIdent 0 0x1000 ⟨5, 7, 4, []⟩ true [0x1000] initState)

/-- C4 counterexample: in the reachable state `c4State` the live block `0` stores the
fast-map index `0x400`, but the slot at that index holds block `1` — an evicted block's
stored slot index does keep pointing at a slot occupied by a different block, so the
claimed invariant fails as stated. -/
theorem C4_counterexample :
    Reachable c4State ∧
      (blockLookup c4State 0).map (fun b => b.fast_block_map_index) = some 0x400 ∧
      c4State.fast_block_map 0x400 = some 1 :=
  ⟨Reachable.step
      (Reachable.step Reachable.init
        (Step.compile initState trIdent 0 0x1000 ⟨5, 7, 4, []⟩ true [0x1000]))
      (Step.compile _ trIdent 0 0x41000 ⟨8, 9, 4, []⟩ true [0x41000]),
   rfl, rfl⟩

/-- C4 (corrected): the direction that does hold over all reachable states — every
occupied fast-map slot's occupant is a live block that stores exactly this slot as its
index, and the slot is the hash of the occupant's effective address.  The claimed
direction (a live block's stored index always names a slot occupied by that block)
fails for evicted blocks, whose stale index is never repaired. -/
theorem C4_fast_slot_consistency (st : CacheState) (h : Reachable st) (i bid : Nat)
    (hslot : st.fast_block_map i = some bid) :
    ∃ b, blockLookup st bid = some b ∧ b.fast_block_map_index = i ∧
      i = FastLookupIndexForAddress b.effectiveAddress :=
  (CacheInv_reachable h).fastc i bid hslot

theorem C4_fast_slot_consistency_witness :
    ∃ b, blockLookup c4State 1 = some b ∧ b.fast_block_map_index = 0x400 ∧
      0x400 = FastLookupIndexForAddress b.effectiveAddress :=
  C4_fast_slot_consistency c4State
    (Reachable.step
      (Reachable.step Reachable.init
        (Step.compile initState trIdent 0 0x1000 ⟨5, 7, 4, []⟩ true [0x1000]))
      (Step.compile _ trIdent 0 0x41000 ⟨8, 9, 4, []⟩ true [0x41000]))
    0x400 1 rfl

/-! ### C5: Link followed by Unlink -/

/-- The body of `UnlinkBlock`'s source-block loop, parameterised by the unlinked
block's effective address and mode bits. -/
def unlinkStep (bEA msrB : Nat) (s : CacheState) (sb : Nat) : CacheState :=
  match blockLookup s sb with
  | none => s
  | some sbb =>
    if sbb.msrBits ≠ msrB then s
    else
      updateBlock s sb fun b0 =>
        { b0 with
          linkData := b0.linkData.map fun e =>
            if e.exitAddress = bEA then
              { WriteLinkBlock e none with linkStatus := false }
            else e }

/-- Unfolding `UnlinkBlock` on a live block as a fold of `unlinkStep`. -/
theorem UnlinkBlock_eq (st : CacheState) (bid : Nat) (b : JitBlock)
    (hlk : blockLookup st bid = some b) :
    UnlinkBlock st bid =
      ((updateBlock st bid fun b0 =>
          { b0 with
            linkData := b0.linkData.map fun e => WriteLinkBlock e none }).links_to
            b.effectiveAddress).foldl
        (unlinkStep b.effectiveAddress b.msrBits)
        (updateBlock st bid fun b0 =>
          { b0 with linkData := b0.linkData.map fun e => WriteLinkBlock e none }) := by
  unfold UnlinkBlock
  rw [hlk]
  rfl

/-- `unlinkStep` never touches the link graph. -/
theorem unlinkStep_links (bEA msrB : Nat) (s : CacheState) (sb : Nat) :
    (unlinkStep bEA msrB s sb).links_to = s.links_to := by
  unfold unlinkStep
  split
  · rfl
  · split
    · rfl
    · rfl

/-- `unlinkStep` never touches blocks other than its argument. -/
theorem unlinkStep_lookup_ne (bEA msrB : Nat) (s : CacheState) (sb c : Nat)
    (h : c ≠ sb) : blockLookup (unlinkStep bEA msrB s sb) c = blockLookup s c := by
  unfold unlinkStep
  split
  · rfl
  · split
    · rfl
    · rw [blockLookup_updateBlock, if_neg h]

/-- Exits cleared at the unlink target: either the block's mode bits do not match the
unlinked block's, or every exit targeting the unlinked address is back on the
trampoline with its flag cleared. -/
def ClearedAt (bEA msrB : Nat) (s : CacheState) (c : Nat) : Prop :=
  ∀ b', blockLookup s c = some b' →
    b'.msrBits ≠ msrB ∨
      ∀ e ∈ b'.linkData, e.exitAddress = bEA →
        e.patchedTo = none ∧ e.linkStatus = false

/-- Applying `unlinkStep` to a block establishes `ClearedAt` for it. -/
theorem unlinkStep_clears (bEA msrB : Nat) (s : CacheState) (sb : Nat) :
    ClearedAt bEA msrB (unlinkStep bEA msrB s sb) sb := by
  intro b' hb'
  cases hl : blockLookup s sb with
  | none =>
    have he : unlinkStep bEA msrB s sb = s := by
      unfold unlinkStep
      rw [hl]
    rw [he, hl] at hb'
    cases hb'
  | some sbb =>
    by_cases hmsr : sbb.msrBits ≠ msrB
    · have he : unlinkStep bEA msrB s sb = s := by
        unfold unlinkStep
        rw [hl]
        exact if_pos hmsr
      rw [he, hl] at hb'
      obtain rfl := Option.some.inj hb'
      left
      exact hmsr
    · have he : unlinkStep bEA msrB s sb =
          updateBlock s sb fun b0 =>
            { b0 with
              linkData := b0.linkData.map fun e =>
                if e.exitAddress = bEA then
                  { WriteLinkBlock e none with linkStatus := false }
                else e } := by
        unfold unlinkStep
        rw [hl]
        exact if_neg hmsr
      rw [he, blockLookup_updateBlock, if_pos rfl, hl] at hb'
      obtain rfl : _ = b' := by simpa using hb'
      right
      intro e he2 het
      dsimp only at he2
      obtain ⟨e0, _, he0⟩ := List.mem_map.mp he2
      by_cases ht : e0.exitAddress = bEA
      · rw [if_pos ht] at he0
        rw [← he0]
        exact ⟨rfl, rfl⟩
      · rw [if_neg ht] at he0
        rw [← he0] at het
        exact absurd het ht

/-- `ClearedAt` survives further `unlinkStep`s. -/
theorem unlinkStep_cleared_mono (bEA msrB : Nat) (s : CacheState) (sb c : Nat)
    (h : ClearedAt bEA msrB s c) : ClearedAt bEA msrB (unlinkStep bEA msrB s sb) c := by
  by_cases hc : c = sb
  · subst hc
    exact unlinkStep_clears bEA msrB s c
  · intro b' hb'
    rw [unlinkStep_lookup_ne bEA msrB s sb c hc] at hb'
    exact h b' hb'

/-- Every block recorded in the source list of `UnlinkBlock`'s loop ends up cleared at
the unlink target. -/
theorem unlinkFold_clears (bEA msrB : Nat) (L : List Nat) :
    ∀ (s : CacheState) (c : Nat), c ∈ L →
      ClearedAt bEA msrB (L.foldl (unlinkStep bEA msrB) s) c := by
  induction L with
  | nil => intro s c hc; cases hc
  | cons sb rest ih =>
    intro s c hc
    rcases List.mem_cons.mp hc with rfl | hc'
    · show ClearedAt bEA msrB (rest.foldl (unlinkStep bEA msrB) (unlinkStep bEA msrB s c)) c
      refine foldl_preserves (fun t => ClearedAt bEA msrB t c) _ ?_ rest _ ?_
      · intro t a ht
        exact unlinkStep_cleared_mono bEA msrB t a c ht
      · exact unlinkStep_clears bEA msrB s c
    · exact ih (unlinkStep bEA msrB s sb) c hc'

/-- Blocks not recorded in the source list are untouched by `UnlinkBlock`'s loop. -/
theorem unlinkFold_untouched (bEA msrB : Nat) (L : List Nat) :
    ∀ (s : CacheState) (c : Nat), c ∉ L →
      blockLookup (L.foldl (unlinkStep bEA msrB) s) c = blockLookup s c := by
  induction L with
  | nil => intro s c _; rfl
  | cons sb rest ih =>
    intro s c hc
    have h1 : c ∉ rest := fun hm => hc (List.mem_cons_of_mem sb hm)
    have h2 : c ≠ sb := fun hm => hc (hm ▸ List.mem_cons_self sb rest)
    rw [List.foldl_cons, ih (unlinkStep bEA msrB s sb) c h1,
      unlinkStep_lookup_ne bEA msrB s sb c h2]

/-- All branch sites of a block are back on the dispatcher trampoline. -/
def PatchedNone (s : CacheState) (bid : Nat) : Prop :=
  ∀ b', blockLookup s bid = some b' → ∀ e ∈ b'.linkData, e.patchedTo = none

/-- `unlinkStep` never re-patches a branch site away from the trampoline. -/
theorem unlinkStep_patchedNone (bEA msrB : Nat) (s : CacheState) (sb bid : Nat)
    (h : PatchedNone s bid) : PatchedNone (unlinkStep bEA msrB s sb) bid := by
  by_cases hc : bid = sb
  · subst hc
    intro b' hb' e he
    cases hl : blockLookup s bid with
    | none =>
      have heq : unlinkStep bEA msrB s bid = s := by
        unfold unlinkStep
        rw [hl]
      rw [heq, hl] at hb'
      cases hb'
    | some sbb =>
      by_cases hmsr : sbb.msrBits ≠ msrB
      · have heq : unlinkStep bEA msrB s bid = s := by
          unfold unlinkStep
          rw [hl]
          exact if_pos hmsr
        rw [heq] at hb'
        exact h b' hb' e he
      · have heq : unlinkStep bEA msrB s bid =
            updateBlock s bid fun b0 =>
              { b0 with
                linkData := b0.linkData.map fun e =>
                  if e.exitAddress = bEA then
                    { WriteLinkBlock e none with linkStatus := false }
                  else e } := by
          unfold unlinkStep
          rw [hl]
          exact if_neg hmsr
        rw [heq, blockLookup_updateBlock, if_pos rfl, hl] at hb'
        obtain rfl : _ = b' := by simpa using hb'
        dsimp only at he
        obtain ⟨e0, he0mem, he0⟩ := List.mem_map.mp he
        by_cases ht : e0.exitAddress = bEA
        · rw [if_pos ht] at he0
          rw [← he0]
          rfl
        · rw [if_neg ht] at he0
          rw [← he0]
          exact h sbb hl e0 he0mem
  · intro b' hb'
    rw [unlinkStep_lookup_ne bEA msrB s sb bid hc] at hb'
    exact h b' hb'

/-- The first loop of `UnlinkBlock` puts every branch site of the unlinked block back
on the trampoline. -/
theorem patchLoop_patchedNone (st : CacheState) (bid : Nat) :
    PatchedNone (updateBlock st bid fun b0 =>
      { b0 with linkData := b0.linkData.map fun e => WriteLinkBlock e none }) bid := by
  intro b' hb'
  rw [blockLookup_updateBlock, if_pos rfl] at hb'
  cases hl : blockLookup st bid with
  | none =>
    rw [hl] at hb'
    cases hb'
  | some b0 =>
    rw [hl] at hb'
    obtain rfl : _ = b' := by simpa using hb'
    intro e he
    dsimp only at he
    obtain ⟨e0, _, he0⟩ := List.mem_map.mp he
    rw [← he0]
    rfl

/-- C5 (corrected): from any reachable state, linking a live block and then unlinking it
puts every branch site of the block itself back on the dispatcher trampoline (its linked
flags, however, are not cleared — the block is taken by const reference, see the
counterexample), and every other surviving block with matching mode bits has each exit
targeting the block's effective address back on the trampoline with its linked flag
cleared. -/
theorem C5_link_unlink (tr : Nat → TranslateResult) (st : CacheState) (bid : Nat)
    (b : JitBlock) (h : Reachable st) (hreg : RegOk st bid)
    (hlk : blockLookup st bid = some b) :
    (∀ b', blockLookup (UnlinkBlock (LinkBlock tr st bid) bid) bid = some b' →
      ∀ e ∈ b'.linkData, e.patchedTo = none) ∧
    (∀ c, c ≠ bid → ∀ b',
      blockLookup (UnlinkBlock (LinkBlock tr st bid) bid) c = some b' →
      b'.msrBits = b.msrBits →
      ∀ e ∈ b'.linkData, e.exitAddress = b.effectiveAddress →
        e.patchedTo = none ∧ e.linkStatus = false) := by
  have hinv := CacheInv_reachable h
  have hinvL : CacheInv (LinkBlock tr st bid) := CacheInv_LinkBlock hinv hreg
  obtain ⟨hnextL, hfastL, hlinksL, hrangeL, hidsL, hcorrL⟩ := LinkBlock_linkPhase tr st bid
  have hmem : bid ∈ (LinkBlock tr st bid).block_map.map Prod.fst := by
    rw [hidsL]
    exact List.mem_map.mpr ⟨(bid, b), blockLookup_some_mem hlk, rfl⟩
  obtain ⟨b2, hb2⟩ := blockLookup_exists_of_mem_ids hmem
  obtain ⟨b0, hb0, hs2⟩ := hcorrL bid b2 hb2
  rw [hlk] at hb0
  obtain rfl := Option.some.inj hb0
  rw [UnlinkBlock_eq (LinkBlock tr st bid) bid b2 hb2]
  constructor
  · intro b' hb' e he
    refine foldl_preserves (fun t => PatchedNone t bid) _ ?_ _ _ ?_ b' hb' e he
    · intro t a ht
      exact unlinkStep_patchedNone _ _ t a bid ht
    · exact patchLoop_patchedNone (LinkBlock tr st bid) bid
  · intro c hc b' hb' hmsr e he het
    by_cases hcL : c ∈ (updateBlock (LinkBlock tr st bid) bid fun b0 =>
        { b0 with
          linkData := b0.linkData.map fun e => WriteLinkBlock e none }).links_to
          b2.effectiveAddress
    · rcases unlinkFold_clears b2.effectiveAddress b2.msrBits _ _ c hcL b' hb' with
        hne | hok
      · exact absurd (hmsr.trans hs2.2.2.1.symm) hne
      · exact hok e he (het.trans hs2.1.symm)
    · rw [unlinkFold_untouched b2.effectiveAddress b2.msrBits _ _ c hcL,
        blockLookup_updateBlock, if_neg hc] at hb'
      have hflag : e.linkStatus = false := by
        cases hst : e.linkStatus with
        | false => rfl
        | true =>
          have hregd := hinvL.statusReg c b' hb' e he hst
          rw [het, ← hs2.1] at hregd
          exact absurd hregd hcL
      refine ⟨?_, hflag⟩
      by_contra hp
      have hft := hinvL.patchReg c b' hb' e he hp
      rw [hflag] at hft
      cases hft

/-- A reachable state with a linked pair: the block at `0x200` is compiled first, then
the block at `0x1000` (id 1) with an exit to `0x200`, which finalisation links. -/
def c5State : CacheState :=
  compileBlock trIdent 0 0x1000 ⟨5, 7, 4, [0x200]⟩ true [0x1000]
    (compileBlock trIdent 0 0x200 ⟨1, 2, 3, []⟩ true [0x200] initState)

/-- C5 counterexample: linking block 1 of the reachable state `c5State` and then
unlinking it leaves the block's own exit with its branch site back on the trampoline
(`patchedTo = none`) but its linked flag still true — `UnlinkBlock` takes the block by
const reference and never clears the unlinked block's own flags, so the claimed
"linked flag cleared" part of the symmetry fails. -/
theorem C5_counterexample :
    Reachable c5State ∧
      (blockLookup (UnlinkBlock (LinkBlock trIdent c5State 1) 1) 1).map
          (fun b => b.linkData.map fun e => (e.patchedTo, e.linkStatus)) =
        some [(none, true)] :=
  ⟨Reachable.step
      (Reachable.step Reachable.init
        (Step.compile initState trIdent 0 0x200 ⟨1, 2, 3, []⟩ true [0x200]))
      (Step.compile _ trIdent 0 0x1000 ⟨5, 7, 4, [0x200]⟩ true [0x1000]),
   rfl⟩

theorem C5_link_unlink_witness :
    (⟨0x200, true, none⟩ : JitBlockLinkData).patchedTo = none :=
  (C5_link_unlink trIdent c5State 1
      ⟨0x1000, 0x1000, 0, [0x1000], 5, 7, 4, [⟨0x200, true, some 0⟩], 0x400⟩
      (Reachable.step
        (Reachable.step Reachable.init
          (Step.compile initState trIdent 0 0x200 ⟨1, 2, 3, []⟩ true [0x200]))
        (Step.compile _ trIdent 0 0x1000 ⟨5, 7, 4, [0x200]⟩ true [0x1000]))
      (by
        intro bb hbb e he
        rw [show blockLookup c5State 1 =
            some ⟨0x1000, 0x1000, 0, [0x1000], 5, 7, 4, [⟨0x200, true, some 0⟩], 0x400⟩
          from rfl] at hbb
        obtain rfl := Option.some.inj hbb
        obtain rfl := List.mem_singleton.mp he
        decide)
      rfl).1
    ⟨0x1000, 0x1000, 0, [0x1000], 5, 7, 4, [⟨0x200, true, none⟩], 0x400⟩ rfl
    ⟨0x200, true, none⟩ (List.mem_singleton.mpr rfl)

/-! ### C9: invalidation completeness -/

/-- Effect of one destroying iteration, generic in the post-`UnlinkBlock` state `sC`:
the destroyed id is gone from the store, the link graph and the range map, while every
other id keeps its liveness, its shape and its bucket memberships. -/
theorem destroyCore_spec (st sC : CacheState) (k bid : Nat) (b : JitBlock)
    (hinv : CacheInv st) (hlk : blockLookup st bid = some b)
    (hidsC : sC.block_map.map Prod.fst = st.block_map.map Prod.fst)
    (hlinksC : sC.links_to = st.links_to)
    (hrangeC : ∀ j c, c ∈ sC.block_range_map j ↔
      c ∈ st.block_range_map j ∧
        ¬(c = bid ∧ j ≠ k ∧ ∃ p ∈ b.physical_addresses, rangeAlign p = j))
    (hcorrC : ∀ c b', blockLookup sC c = some b' →
      ∃ b0, blockLookup st c = some b0 ∧ BlockShape b0 b') :
    blockLookup (bucketErase k bid (removeFromBlockMap bid
        (eraseLinksLoop bid b.linkData sC))) bid = none ∧
      (∀ t, bid ∉ (bucketErase k bid (removeFromBlockMap bid
        (eraseLinksLoop bid b.linkData sC))).links_to t) ∧
      (∀ j, bid ∉ (bucketErase k bid (removeFromBlockMap bid
        (eraseLinksLoop bid b.linkData sC))).block_range_map j) ∧
      (∀ c, c ≠ bid →
        (∀ b0, blockLookup st c = some b0 →
          ∃ b', blockLookup (bucketErase k bid (removeFromBlockMap bid
            (eraseLinksLoop bid b.linkData sC))) c = some b' ∧ BlockShape b0 b') ∧
        (blockLookup st c = none → blockLookup (bucketErase k bid (removeFromBlockMap bid
          (eraseLinksLoop bid b.linkData sC))) c = none) ∧
        (∀ b', blockLookup (bucketErase k bid (removeFromBlockMap bid
            (eraseLinksLoop bid b.linkData sC))) c = some b' →
          ∃ b0, blockLookup st c = some b0 ∧ BlockShape b0 b') ∧
        (∀ t, (c ∈ (bucketErase k bid (removeFromBlockMap bid
          (eraseLinksLoop bid b.linkData sC))).links_to t ↔ c ∈ st.links_to t)) ∧
        (∀ j, (c ∈ (bucketErase k bid (removeFromBlockMap bid
          (eraseLinksLoop bid b.linkData sC))).block_range_map j ↔
            c ∈ st.block_range_map j))) := by
  set S := bucketErase k bid (removeFromBlockMap bid (eraseLinksLoop bid b.linkData sC))
    with hSdef
  have hndC : (sC.block_map.map Prod.fst).Nodup := by rw [hidsC]; exact hinv.ids.1
  have hSbm : S.block_map = sC.block_map.eraseP (fun e => e.1 == bid) := by
    show ((eraseLinksLoop bid b.linkData sC).block_map).eraseP _ = _
    rw [(eraseLinksLoop_fields bid b.linkData sC).1]
  have hSlinks : ∀ t c, c ∈ S.links_to t ↔
      c ∈ st.links_to t ∧ ¬(c = bid ∧ ∃ e ∈ b.linkData, e.exitAddress = t) := by
    intro t c
    show c ∈ (eraseLinksLoop bid b.linkData sC).links_to t ↔ _
    rw [eraseLinksLoop_links bid b.linkData sC t c, hlinksC]
  have hSrange : ∀ j c, c ∈ S.block_range_map j ↔
      c ∈ sC.block_range_map j ∧ (j = k → c ≠ bid) := by
    intro j c
    show c ∈ (if j = k then
        setErase ((eraseLinksLoop bid b.linkData sC).block_range_map j) bid
      else (eraseLinksLoop bid b.linkData sC).block_range_map j) ↔ _
    rw [(eraseLinksLoop_fields bid b.linkData sC).2.2.2]
    by_cases hj : j = k
    · rw [if_pos hj, mem_setErase]
      constructor
      · rintro ⟨h1, h2⟩
        exact ⟨h1, fun _ => h2⟩
      · rintro ⟨h1, h2⟩
        exact ⟨h1, h2 hj⟩
    · rw [if_neg hj]
      constructor
      · intro h1
        exact ⟨h1, fun he => absurd he hj⟩
      · rintro ⟨h1, _⟩
        exact h1
  have hSlkbid : blockLookup S bid = none := by
    show assocLookup S.block_map bid = none
    rw [hSbm]
    exact assocLookup_eraseP_self sC.block_map bid hndC
  have hSlkne : ∀ c, c ≠ bid → blockLookup S c = blockLookup sC c := by
    intro c hc
    show assocLookup S.block_map c = _
    rw [hSbm]
    exact assocLookup_eraseP_ne sC.block_map bid c hc
  have hlkexC : ∀ cid b0, blockLookup st cid = some b0 →
      ∃ b', blockLookup sC cid = some b' ∧ BlockShape b0 b' := by
    intro cid b0 hb0
    have hmem : cid ∈ sC.block_map.map Prod.fst := by
      rw [hidsC]
      exact List.mem_map.mpr ⟨(cid, b0), blockLookup_some_mem hb0, rfl⟩
    obtain ⟨b', hb'⟩ := blockLookup_exists_of_mem_ids hmem
    obtain ⟨b1, hb1, hs⟩ := hcorrC cid b' hb'
    rw [hb0] at hb1
    cases hb1
    exact ⟨b', hb', hs⟩
  refine ⟨hSlkbid, ?_, ?_, ?_⟩
  · intro t hmem
    obtain ⟨hstm, hnot⟩ := (hSlinks t bid).mp hmem
    obtain ⟨b0, hb0, e, he, het⟩ := hinv.linksLive t bid hstm
    rw [hlk] at hb0
    obtain rfl := Option.some.inj hb0
    exact hnot ⟨rfl, e, he, het⟩
  · intro j hmem
    obtain ⟨hmC, hjk⟩ := (hSrange j bid).mp hmem
    obtain ⟨hstm, hnot⟩ := (hrangeC j bid).mp hmC
    obtain ⟨b0, hb0, p, hp, hpj⟩ := hinv.rangeLive j bid hstm
    rw [hlk] at hb0
    obtain rfl := Option.some.inj hb0
    by_cases hj : j = k
    · exact hjk hj rfl
    · exact hnot ⟨rfl, hj, p, hp, hpj⟩
  · intro c hc
    refine ⟨?_, ?_, ?_, ?_, ?_⟩
    · intro b0 hb0
      obtain ⟨b', hb', hs⟩ := hlkexC c b0 hb0
      exact ⟨b', by rw [hSlkne c hc]; exact hb', hs⟩
    · intro hnone
      rw [hSlkne c hc]
      show assocLookup sC.block_map c = none
      rw [assocLookup_eq_none_iff, hidsC]
      exact (assocLookup_eq_none_iff st.block_map c).mp hnone
    · intro b' hb'
      rw [hSlkne c hc] at hb'
      exact hcorrC c b' hb'
    · intro t
      rw [hSlinks t c]
      constructor
      · rintro ⟨h1, _⟩
        exact h1
      · intro h1
        refine ⟨h1, ?_⟩
        rintro ⟨rfl, _⟩
        exact hc rfl
    · intro j
      rw [hSrange j c, hrangeC j c]
      constructor
      · rintro ⟨⟨h1, _⟩, _⟩
        exact h1
      · intro h1
        refine ⟨⟨h1, ?_⟩, fun _ => hc⟩
        rintro ⟨rfl, _⟩
        exact hc rfl

/-- Effect of one destroying iteration of the inner `ErasePhysicalRange` loop: the
destroyed id is gone from the store, the link graph and the range map, while every other
id keeps its liveness, its shape and its bucket memberships. -/
theorem destroyStep_spec {st : CacheState} {k bid : Nat} {b : JitBlock}
    (hinv : CacheInv st) (hlk : blockLookup st bid = some b) :
    blockLookup (destroyStep k bid b st) bid = none ∧
      (∀ t, bid ∉ (destroyStep k bid b st).links_to t) ∧
      (∀ j, bid ∉ (destroyStep k bid b st).block_range_map j) ∧
      (∀ c, c ≠ bid →
        (∀ b0, blockLookup st c = some b0 →
          ∃ b', blockLookup (destroyStep k bid b st) c = some b' ∧ BlockShape b0 b') ∧
        (blockLookup st c = none → blockLookup (destroyStep k bid b st) c = none) ∧
        (∀ b', blockLookup (destroyStep k bid b st) c = some b' →
          ∃ b0, blockLookup st c = some b0 ∧ BlockShape b0 b') ∧
        (∀ t, (c ∈ (destroyStep k bid b st).links_to t ↔ c ∈ st.links_to t)) ∧
        (∀ j, (c ∈ (destroyStep k bid b st).block_range_map j ↔
          c ∈ st.block_range_map j))) := by
  unfold destroyStep
  have h1 := removeFromOtherRanges_fields bid k b.physical_addresses st
  have h2 := removeFromOtherRanges_range bid k b.physical_addresses st
  revert h1 h2
  generalize removeFromOtherRanges bid k b.physical_addresses st = s1
  intro h1 h2
  obtain ⟨hbm1, hnext1, hfast1, hlinks1⟩ := h1
  have hlk1 : blockLookup s1 bid = some b := by
    show assocLookup s1.block_map bid = some b
    rw [hbm1]
    exact hlk
  rw [DestroyBlock_eq s1 bid b hlk1]
  set sB := (if s1.fast_block_map b.fast_block_map_index = some bid then
      ({ s1 with
        fast_block_map := fun i =>
          if i = b.fast_block_map_index then none else s1.fast_block_map i } : CacheState)
    else s1) with hsBdef
  have hbmB : sB.block_map = st.block_map := by
    rw [hsBdef]
    split
    · exact hbm1
    · exact hbm1
  have hlinksB : sB.links_to = st.links_to := by
    rw [hsBdef]
    split
    · exact hlinks1
    · exact hlinks1
  have hrangeB : sB.block_range_map = s1.block_range_map := by
    rw [hsBdef]
    split <;> rfl
  obtain ⟨hnextU, hfastU, hlinksU, hrangeU, hidsU, hcorrU⟩ := UnlinkBlock_linkPhase sB bid
  have hlkBeq : ∀ c, blockLookup sB c = blockLookup st c := by
    intro c
    show assocLookup sB.block_map c = _
    rw [hbmB]
    rfl
  refine destroyCore_spec st (UnlinkBlock sB bid) k bid b hinv hlk ?_ ?_ ?_ ?_
  · rw [hidsU, hbmB]
  · rw [hlinksU, hlinksB]
  · intro j c
    rw [hrangeU, hrangeB]
    exact h2 j c
  · intro c b' hb'
    obtain ⟨b0, hb0, hs⟩ := hcorrU c b' hb'
    rw [hlkBeq c] at hb0
    exact ⟨b0, hb0, hs⟩

/-- An id that is completely gone from the cache: no store entry, no link-graph bucket,
no range-map bucket. -/
def ErasedId (s : CacheState) (bid : Nat) : Prop :=
  blockLookup s bid = none ∧ (∀ t, bid ∉ s.links_to t) ∧
    (∀ j, bid ∉ s.block_range_map j)

/-- Overlap is a function of the footprint only. -/
theorem OverlapsPhysicalRange_congr {b1 b2 : JitBlock}
    (h : b1.physical_addresses = b2.physical_addresses) (a len : Nat) :
    b1.OverlapsPhysicalRange a len = b2.OverlapsPhysicalRange a len := by
  unfold JitBlock.OverlapsPhysicalRange
  rw [h]

/-- Inner-loop unfolding: a dangling id is skipped. -/
theorem eraseBucketLoop_cons_none (a len k c : Nat) (rest : List Nat) (st : CacheState)
    (hlc : blockLookup st c = none) :
    eraseBucketLoop a len k st (c :: rest) = eraseBucketLoop a len k st rest := by
  show (match blockLookup st c with
    | none => eraseBucketLoop a len k st rest
    | some b =>
      if b.OverlapsPhysicalRange a len then
        eraseBucketLoop a len k (destroyStep k c b st) rest
      else eraseBucketLoop a len k st rest) = _
  rw [hlc]

/-- Inner-loop unfolding: a non-overlapping block is skipped. -/
theorem eraseBucketLoop_cons_skip (a len k c : Nat) (rest : List Nat) (st : CacheState)
    (bc : JitBlock) (hlc : blockLookup st c = some bc)
    (hov : ¬bc.OverlapsPhysicalRange a len = true) :
    eraseBucketLoop a len k st (c :: rest) = eraseBucketLoop a len k st rest := by
  show (match blockLookup st c with
    | none => eraseBucketLoop a len k st rest
    | some b =>
      if b.OverlapsPhysicalRange a len then
        eraseBucketLoop a len k (destroyStep k c b st) rest
      else eraseBucketLoop a len k st rest) = _
  rw [hlc]
  exact if_neg hov

/-- Inner-loop unfolding: an overlapping block is destroyed. -/
theorem eraseBucketLoop_cons_destroy (a len k c : Nat) (rest : List Nat)
    (st : CacheState) (bc : JitBlock) (hlc : blockLookup st c = some bc)
    (hov : bc.OverlapsPhysicalRange a len = true) :
    eraseBucketLoop a len k st (c :: rest) =
      eraseBucketLoop a len k (destroyStep k c bc st) rest := by
  show (match blockLookup st c with
    | none => eraseBucketLoop a len k st rest
    | some b =>
      if b.OverlapsPhysicalRange a len then
        eraseBucketLoop a len k (destroyStep k c b st) rest
      else eraseBucketLoop a len k st rest) = _
  rw [hlc]
  exact if_pos hov

/-- Once erased, an id stays erased through the inner loop. -/
theorem eraseBucketLoop_erased_mono (a len k : Nat) (pending : List Nat) :
    ∀ st bid, CacheInv st → ErasedId st bid →
      ErasedId (eraseBucketLoop a len k st pending) bid := by
  induction pending with
  | nil => intro st bid _ her; exact her
  | cons c rest ih =>
    intro st bid hinv her
    cases hlc : blockLookup st c with
    | none =>
      rw [eraseBucketLoop_cons_none a len k c rest st hlc]
      exact ih st bid hinv her
    | some bc =>
      by_cases hov : bc.OverlapsPhysicalRange a len = true
      · rw [eraseBucketLoop_cons_destroy a len k c rest st bc hlc hov]
        have hcbid : bid ≠ c := by
          rintro rfl
          rw [her.1] at hlc
          cases hlc
        obtain ⟨_, hnone, _, hlinks, hrange⟩ :=
          (destroyStep_spec hinv hlc).2.2.2 bid hcbid
        refine ih _ bid (CacheInv_destroyStep hinv hlc)
          ⟨hnone her.1, ?_, ?_⟩
        · intro t hm
          exact her.2.1 t ((hlinks t).mp hm)
        · intro j hm
          exact her.2.2 j ((hrange j).mp hm)
      · rw [eraseBucketLoop_cons_skip a len k c rest st bc hlc hov]
        exact ih st bid hinv her

/-- Through the inner loop every live id is either erased or survives with its shape
and its range-map memberships intact. -/
theorem eraseBucketLoop_tracks (a len k : Nat) (pending : List Nat) :
    ∀ st bid b0, CacheInv st → blockLookup st bid = some b0 →
      ErasedId (eraseBucketLoop a len k st pending) bid ∨
        ∃ b', blockLookup (eraseBucketLoop a len k st pending) bid = some b' ∧
          BlockShape b0 b' ∧
          ∀ j, (bid ∈ (eraseBucketLoop a len k st pending).block_range_map j ↔
            bid ∈ st.block_range_map j) := by
  induction pending with
  | nil =>
    intro st bid b0 _ hlk
    exact Or.inr ⟨b0, hlk, BlockShape_refl b0, fun j => Iff.rfl⟩
  | cons c rest ih =>
    intro st bid b0 hinv hlk
    cases hlc : blockLookup st c with
    | none =>
      rw [eraseBucketLoop_cons_none a len k c rest st hlc]
      exact ih st bid b0 hinv hlk
    | some bc =>
      by_cases hov : bc.OverlapsPhysicalRange a len = true
      · rw [eraseBucketLoop_cons_destroy a len k c rest st bc hlc hov]
        by_cases hcb : bid = c
        · subst hcb
          rw [hlk] at hlc
          obtain rfl := Option.some.inj hlc
          obtain ⟨hn, hl2, hr2, _⟩ := destroyStep_spec hinv hlk
          exact Or.inl (eraseBucketLoop_erased_mono a len k rest _ bid
            (CacheInv_destroyStep hinv hlk) ⟨hn, hl2, hr2⟩)
        · obtain ⟨hfwd, _, _, _, hrange⟩ := (destroyStep_spec hinv hlc).2.2.2 bid hcb
          obtain ⟨b1, hb1, hs1⟩ := hfwd b0 hlk
          rcases ih _ bid b1 (CacheInv_destroyStep hinv hlc) hb1 with her | ⟨b2, hb2, hs2, hr2⟩
          · exact Or.inl her
          · refine Or.inr ⟨b2, hb2, BlockShape_trans hs1 hs2, fun j => ?_⟩
            rw [hr2 j, hrange j]
      · rw [eraseBucketLoop_cons_skip a len k c rest st bc hlc hov]
        exact ih st bid b0 hinv hlk

/-- The inner loop destroys every live overlapping block recorded in its pending list. -/
theorem eraseBucketLoop_erases (a len k : Nat) (pending : List Nat) :
    ∀ st bid b0, CacheInv st → bid ∈ pending → blockLookup st bid = some b0 →
      b0.OverlapsPhysicalRange a len = true →
      ErasedId (eraseBucketLoop a len k st pending) bid := by
  induction pending with
  | nil => intro st bid b0 _ hmem _ _; cases hmem
  | cons c rest ih =>
    intro st bid b0 hinv hmem hlk hov
    by_cases hcb : c = bid
    · subst hcb
      rw [eraseBucketLoop_cons_destroy a len k c rest st b0 hlk hov]
      obtain ⟨hn, hl2, hr2, _⟩ := destroyStep_spec hinv hlk
      exact eraseBucketLoop_erased_mono a len k rest _ c
        (CacheInv_destroyStep hinv hlk) ⟨hn, hl2, hr2⟩
    · have hmem' : bid ∈ rest := by
        rcases List.mem_cons.mp hmem with h1 | h1
        · exact absurd h1.symm hcb
        · exact h1
      cases hlc : blockLookup st c with
      | none =>
        rw [eraseBucketLoop_cons_none a len k c rest st hlc]
        exact ih st bid b0 hinv hmem' hlk hov
      | some bc =>
        by_cases hovc : bc.OverlapsPhysicalRange a len = true
        · rw [eraseBucketLoop_cons_destroy a len k c rest st bc hlc hovc]
          obtain ⟨hfwd, _, _, _, _⟩ :=
            (destroyStep_spec hinv hlc).2.2.2 bid (fun h1 => hcb h1.symm)
          obtain ⟨b1, hb1, hs1⟩ := hfwd b0 hlk
          have hov1 : b1.OverlapsPhysicalRange a len = true := by
            rw [OverlapsPhysicalRange_congr hs1.2.2.2.1 a len]
            exact hov
          exact ih _ bid b1 (CacheInv_destroyStep hinv hlc) hmem' hb1 hov1
        · rw [eraseBucketLoop_cons_skip a len k c rest st bc hlc hovc]
          exact ih st bid b0 hinv hmem' hlk hov

/-- Every survivor of the inner loop descends from a live block of the scanned state,
with its shape intact. -/
theorem eraseBucketLoop_corr (a len k : Nat) (pending : List Nat) :
    ∀ st, CacheInv st →
      ∀ c b', blockLookup (eraseBucketLoop a len k st pending) c = some b' →
        ∃ b0, blockLookup st c = some b0 ∧ BlockShape b0 b' := by
  induction pending with
  | nil =>
    intro st _ c b' hb'
    exact ⟨b', hb', BlockShape_refl b'⟩
  | cons d rest ih =>
    intro st hinv c b' hb'
    cases hlc : blockLookup st d with
    | none =>
      rw [eraseBucketLoop_cons_none a len k d rest st hlc] at hb'
      exact ih st hinv c b' hb'
    | some bd =>
      by_cases hov : bd.OverlapsPhysicalRange a len = true
      · rw [eraseBucketLoop_cons_destroy a len k d rest st bd hlc hov] at hb'
        obtain ⟨b1, hb1, hs1⟩ := ih _ (CacheInv_destroyStep hinv hlc) c b' hb'
        have hcd : c ≠ d := by
          rintro rfl
          rw [(destroyStep_spec hinv hlc).1] at hb1
          cases hb1
        obtain ⟨b0, hb0, hs0⟩ :=
          ((destroyStep_spec hinv hlc).2.2.2 c hcd).2.2.1 b1 hb1
        exact ⟨b0, hb0, BlockShape_trans hs0 hs1⟩
      · rw [eraseBucketLoop_cons_skip a len k d rest st bd hlc hov] at hb'
        exact ih st hinv c b' hb'

/-- Once erased, an id stays erased through the outer loop. -/
theorem eraseRangeFuel_erased_mono (a len : Nat) :
    ∀ (fuel k : Nat) (st : CacheState) (bid : Nat), CacheInv st → ErasedId st bid →
      ErasedId (eraseRangeFuel a len fuel k st) bid := by
  intro fuel
  induction fuel with
  | zero => intro k st bid _ her; exact her
  | succ n ih =>
    intro k st bid hinv her
    show ErasedId (if k < a + len then
      eraseRangeFuel a len n (k + BLOCK_RANGE_MAP_ELEMENTS)
        (eraseBucketLoop a len k st (st.block_range_map k))
      else st) bid
    split
    · exact ih _ _ bid (CacheInv_eraseBucketLoop a len k _ st hinv)
        (eraseBucketLoop_erased_mono a len k _ st bid hinv her)
    · exact her

/-- Every survivor of the outer loop descends from a live block of the initial state,
with its shape intact. -/
theorem eraseRangeFuel_corr (a len : Nat) :
    ∀ (fuel k : Nat) (st : CacheState), CacheInv st →
      ∀ c b', blockLookup (eraseRangeFuel a len fuel k st) c = some b' →
        ∃ b0, blockLookup st c = some b0 ∧ BlockShape b0 b' := by
  intro fuel
  induction fuel with
  | zero =>
    intro k st _ c b' hb'
    exact ⟨b', hb', BlockShape_refl b'⟩
  | succ n ih =>
    intro k st hinv c b' hb'
    rw [show eraseRangeFuel a len (n + 1) k st = (if k < a + len then
        eraseRangeFuel a len n (k + BLOCK_RANGE_MAP_ELEMENTS)
          (eraseBucketLoop a len k st (st.block_range_map k))
        else st) from rfl] at hb'
    split at hb'
    · obtain ⟨b1, hb1, hs1⟩ := ih _ _ (CacheInv_eraseBucketLoop a len k _ st hinv) c b' hb'
      obtain ⟨b0, hb0, hs0⟩ := eraseBucketLoop_corr a len k _ st hinv c b1 hb1
      exact ⟨b0, hb0, BlockShape_trans hs0 hs1⟩
    · exact ⟨b', hb', BlockShape_refl b'⟩

/-- The outer loop reaches the bucket of every overlapping live block and destroys it:
if the block is recorded in the bucket keyed `k0`, the key is reachable from the loop
counter `k` in the remaining fuel, and the block overlaps, it ends up erased. -/
theorem eraseRangeFuel_erases (a len : Nat) :
    ∀ (fuel k : Nat) (st : CacheState) (bid : Nat) (b0 : JitBlock) (k0 : Nat),
      CacheInv st → blockLookup st bid = some b0 →
      b0.OverlapsPhysicalRange a len = true →
      bid ∈ st.block_range_map k0 →
      k ≤ k0 → k0 < a + len → (k0 - k) % BLOCK_RANGE_MAP_ELEMENTS = 0 →
      (k0 - k) / BLOCK_RANGE_MAP_ELEMENTS < fuel →
      ErasedId (eraseRangeFuel a len fuel k st) bid := by
  intro fuel
  induction fuel with
  | zero =>
    intro k st bid b0 k0 _ _ _ _ _ _ _ hfuel
    exact absurd hfuel (Nat.not_lt_zero _)
  | succ n ih =>
    intro k st bid b0 k0 hinv hlk hov hmem hk1 hk2 hmod hfuel
    show ErasedId (if k < a + len then
      eraseRangeFuel a len n (k + BLOCK_RANGE_MAP_ELEMENTS)
        (eraseBucketLoop a len k st (st.block_range_map k))
      else st) bid
    rw [if_pos (lt_of_le_of_lt hk1 hk2)]
    by_cases hkk : k = k0
    · subst hkk
      exact eraseRangeFuel_erased_mono a len n _ _ bid
        (CacheInv_eraseBucketLoop a len k _ st hinv)
        (eraseBucketLoop_erases a len k _ st bid b0 hinv hmem hlk hov)
    · have hlt : k < k0 := lt_of_le_of_ne hk1 hkk
      rcases eraseBucketLoop_tracks a len k (st.block_range_map k) st bid b0 hinv hlk
        with her | ⟨b1, hb1, hs1, hrng⟩
      · exact eraseRangeFuel_erased_mono a len n _ _ bid
          (CacheInv_eraseBucketLoop a len k _ st hinv) her
      · have hov1 : b1.OverlapsPhysicalRange a len = true := by
          rw [OverlapsPhysicalRange_congr hs1.2.2.2.1 a len]
          exact hov
        have h256 : BLOCK_RANGE_MAP_ELEMENTS = 256 := rfl
        refine ih (k + BLOCK_RANGE_MAP_ELEMENTS) _ bid b1 k0
          (CacheInv_eraseBucketLoop a len k _ st hinv) hb1 hov1
          ((hrng k0).mpr hmem) ?_ hk2 ?_ ?_
        · rw [h256] at hmod ⊢
          omega
        · rw [h256] at hmod ⊢
          omega
        · rw [h256] at hmod hfuel ⊢
          omega

/-- `ErasePhysicalRange` destroys every live block whose footprint overlaps the
requested physical byte range. -/
theorem ErasePhysicalRange_erases {st : CacheState} {bid : Nat} {b0 : JitBlock}
    (a len : Nat) (hinv : CacheInv st) (hlk : blockLookup st bid = some b0)
    (hov : b0.OverlapsPhysicalRange a len = true) :
    ErasedId (ErasePhysicalRange a len st) bid := by
  have hov' := hov
  unfold JitBlock.OverlapsPhysicalRange at hov'
  rw [List.any_eq_true] at hov'
  obtain ⟨p, hp, hpc⟩ := hov'
  rw [Bool.and_eq_true, decide_eq_true_eq, decide_eq_true_eq] at hpc
  obtain ⟨hp1, hp2⟩ := hpc
  have hmem : bid ∈ st.block_range_map (rangeAlign p) :=
    hinv.rangeCover bid b0 hlk p hp
  unfold ErasePhysicalRange
  refine eraseRangeFuel_erases a len _ _ st bid b0 (rangeAlign p) hinv hlk hov hmem
    ?_ ?_ ?_ ?_
  · unfold rangeAlign
    exact Nat.mul_le_mul_right _ (Nat.div_le_div_right hp1)
  · exact lt_of_le_of_lt (by unfold rangeAlign; exact Nat.div_mul_le_self p _) hp2
  · unfold rangeAlign
    rw [show BLOCK_RANGE_MAP_ELEMENTS = 256 from rfl]
    omega
  · unfold rangeAlign
    rw [show BLOCK_RANGE_MAP_ELEMENTS = 256 from rfl]
    omega

/-- Every survivor of `ErasePhysicalRange` descends from a live block of the scanned
state, with its shape intact. -/
theorem ErasePhysicalRange_corr (a len : Nat) {st : CacheState} (hinv : CacheInv st) :
    ∀ c b', blockLookup (ErasePhysicalRange a len st) c = some b' →
      ∃ b0, blockLookup st c = some b0 ∧ BlockShape b0 b' :=
  eraseRangeFuel_corr a len _ _ st hinv

/-- C9: invalidation completeness.  For every reachable state and every live block
whose footprint overlaps the physical byte range (overlap decided precisely on the
footprint set), `ErasePhysicalRange` removes the block from the store, from every
macro-range bucket and from every link-graph bucket; and provided the block's
`(effectiveAddress, msrBits)` identity is unique in the store, the exact-match lookup
at its effective address and mode subsequently fails for every translator. -/
theorem C9_invalidation_completeness (st : CacheState) (h : Reachable st)
    (bid : Nat) (b : JitBlock) (a len : Nat)
    (hlk : blockLookup st bid = some b)
    (hov : b.OverlapsPhysicalRange a len = true)
    (huniq : ∀ c b', blockLookup st c = some b' →
      b'.effectiveAddress = b.effectiveAddress → b'.msrBits = b.msrBits → c = bid) :
    blockLookup (ErasePhysicalRange a len st) bid = none ∧
      (∀ j, bid ∉ (ErasePhysicalRange a len st).block_range_map j) ∧
      (∀ t, bid ∉ (ErasePhysicalRange a len st).links_to t) ∧
      (∀ tr msr, msr &&& JIT_CACHE_MSR_MASK = b.msrBits →
        GetBlockFromStartAddress tr (ErasePhysicalRange a len st) b.effectiveAddress msr
          = none) := by
  have hinv := CacheInv_reachable h
  obtain ⟨hn, hlinks, hrange⟩ := ErasePhysicalRange_erases a len hinv hlk hov
  refine ⟨hn, hrange, hlinks, ?_⟩
  intro tr msr hmsr
  unfold GetBlockFromStartAddress
  split
  · rfl
  · show (ErasePhysicalRange a len st).block_map.find? (fun e =>
      e.2.physicalAddress ==
          (if msr &&& MSR_IR_BIT ≠ 0 then (tr b.effectiveAddress).address
            else b.effectiveAddress) &&
        e.2.effectiveAddress == b.effectiveAddress &&
        e.2.msrBits == (msr &&& JIT_CACHE_MSR_MASK)) = none
    rw [List.find?_eq_none]
    intro x hx hpred
    rw [Bool.and_eq_true, Bool.and_eq_true] at hpred
    obtain ⟨⟨_, hea⟩, hmsrx⟩ := hpred
    rw [beq_iff_eq] at hea hmsrx
    have hndE : ((ErasePhysicalRange a len st).block_map.map Prod.fst).Nodup :=
      (CacheInv_ErasePhysicalRange a len hinv).ids.1
    have hlkx : blockLookup (ErasePhysicalRange a len st) x.1 = some x.2 :=
      assocLookup_of_mem_nodup hndE hx
    obtain ⟨b0, hb0, hs⟩ := ErasePhysicalRange_corr a len hinv x.1 x.2 hlkx
    have hbid : x.1 = bid :=
      huniq x.1 b0 hb0 (hs.1.symm.trans hea) (hs.2.2.1.symm.trans (hmsrx.trans hmsr))
    rw [hbid, hn] at hlkx
    cases hlkx

/-- A reachable state with one block at `0x1000`, footprint `{0x1000}`. -/
def c9State : CacheState :=
  compileBlock trIdent 0 0x1000 ⟨5, 7, 4, []⟩ true [0x1000] initState

theorem C9_invalidation_completeness_witness :
    blockLookup (ErasePhysicalRange 0x1000 32 c9State) 0 = none ∧
      GetBlockFromStartAddress trIdent (ErasePhysicalRange 0x1000 32 c9State) 0x1000 0
        = none :=
  ⟨(C9_invalidation_completeness c9State
      (Reachable.step Reachable.init
        (Step.compile initState trIdent 0 0x1000 ⟨5, 7, 4, []⟩ true [0x1000]))
      0 ⟨0x1000, 0x1000, 0, [0x1000], 5, 7, 4, [], 0x400⟩ 0x1000 32 rfl (by decide)
      (by
        intro c b' hlkc hea hmsr
        have hmem := blockLookup_some_mem hlkc
        rw [show c9State.block_map =
            [(0, (⟨0x1000, 0x1000, 0, [0x1000], 5, 7, 4, [], 0x400⟩ : JitBlock))]
          from rfl] at hmem
        exact congrArg Prod.fst (List.mem_singleton.mp hmem))).1,
   (C9_invalidation_completeness c9State
      (Reachable.step Reachable.init
        (Step.compile initState trIdent 0 0x1000 ⟨5, 7, 4, []⟩ true [0x1000]))
      0 ⟨0x1000, 0x1000, 0, [0x1000], 5, 7, 4, [], 0x400⟩ 0x1000 32 rfl (by decide)
      (by
        intro c b' hlkc hea hmsr
        have hmem := blockLookup_some_mem hlkc
        rw [show c9State.block_map =
            [(0, (⟨0x1000, 0x1000, 0, [0x1000], 5, 7, 4, [], 0x400⟩ : JitBlock))]
          from rfl] at hmem
        exact congrArg Prod.fst (List.mem_singleton.mp hmem))).2.2.2 trIdent 0
     (by decide)⟩
